import Mathlib

/-!
# Control-flow flattening pass `FlattenO` (src/flatten/FlattenOPass.cpp)

A shallow embedding of the pass and of the code it emits.

* IR values are expression trees: an operand that is itself an instruction
  (`Builder.CreateLoad`, `CreateAdd`, ...) is represented by that instruction's
  expression.  Every instruction the pass creates is used exactly once, and the
  instructions of one `insertOpaqueSwitchIndex` call are inserted contiguously,
  so the tree of the final `store` stands for the whole emitted sequence.
* `i32` values are natural numbers below `2 ^ 32`; `add` and `mul` wrap.
* A `BasicBlock*` is an address (`Addr`); `std::map<BasicBlock*, int>` is an
  association list kept in ascending address order.
* Instructions and values of the input program are opaque (`ι`); their meaning
  is given by a `Sem`.  Value names other than block names, PHI nodes and the
  symbol table's renaming of clashing names are not modelled.
-/

namespace FlattenO

/-- Address of a `BasicBlock` object (`BasicBlock*`). -/
abbrev Addr := Nat

/-- Number of values of an `i32`. -/
def wordSize : Nat := 2 ^ 32

/-- IR values.  `constInt n` is `ConstantInt::get(i32, n)`, `gArray` and `gM` are
the globals `g_array` and `m`, `slot` is the result of the `switch_index`
alloca, `orig` is a value of the input program. -/
inductive Value (ι : Type) where
  | constInt (n : Int)
  | gArray
  | gM
  | slot
  | orig (x : ι)
  | load (ptr : Value ι)
  | add (a b : Value ι)
  | mul (a b : Value ι)
  | urem (a b : Value ι)
  | gep (base i0 i1 : Value ι)
  deriving DecidableEq, Repr

/-- Non-terminator instructions: an instruction of the input program, the
`switch_index` alloca, or a store. -/
inductive Instr (ι : Type) where
  | orig (i : ι)
  | alloca
  | store (v ptr : Value ι)
  deriving DecidableEq, Repr

/-- `URem(Add(Load(m), off), 10)`: the `VOffset` values of the encoder. -/
def arrayIndex {ι : Type} (off : Int) : Value ι :=
  .urem (.add (.load .gM) (.constInt off)) (.constInt 10)

/-- `GEP(g_array, [0, VOffset])`: the `VTargetPtr` values of the encoder. -/
def targetPtr {ι : Type} (off : Int) : Value ι :=
  .gep .gArray (.constInt 0) (arrayIndex off)

/-- `FlattenO::insertOpaqueSwitchIndex`: the instructions inserted before
`insertBefore` for `target`, storing into `destination`.  `quotient` and
`remainder` are C++ `int` division and remainder (truncating); the `default`
branch of the `switch` emits nothing. -/
def insertOpaqueSwitchIndex {ι : Type} (target : Int) (destination : Value ι) :
    List (Instr ι) :=
  let quotient := Int.tdiv target 10
  let remainder := Int.tmod target 10
  if remainder = 0 then
    [.store (.add (.urem (.load (targetPtr 9)) (.constInt 7))
      (.constInt (quotient * 10))) destination]
  else if remainder = 1 then
    [.store (.add (.urem (.mul (.load (targetPtr 0)) (.load (targetPtr 2)))
      (.constInt 5)) (.constInt (quotient * 10))) destination]
  else if remainder = 2 then
    [.store (.add (.urem (.mul (.load (targetPtr 1)) (.load (targetPtr 2)))
      (.constInt 5)) (.constInt (quotient * 10))) destination]
  else if remainder = 3 then
    [.store (.add (.urem (.mul (.load (targetPtr 0)) (.load (targetPtr 1)))
      (.constInt 5)) (.constInt (quotient * 10))) destination]
  else if remainder = 4 then
    [.store (.add (.urem (.mul (.mul (.load (targetPtr 0)) (.load (targetPtr 1)))
      (.load (targetPtr 2))) (.constInt 5)) (.constInt (quotient * 10))) destination]
  else if remainder = 5 then
    [.store (.add (.urem (.mul (.load (targetPtr 6)) (.load (targetPtr 8)))
      (.constInt 11)) (.constInt (quotient * 10))) destination]
  else if remainder = 6 then
    [.store (.add (.urem (.mul (.load (targetPtr 6)) (.load (targetPtr 7)))
      (.constInt 11)) (.constInt (quotient * 10))) destination]
  else if remainder = 7 then
    [.store (.add (.urem (.load (targetPtr 5)) (.constInt 11))
      (.constInt (quotient * 10))) destination]
  else if remainder = 8 then
    [.store (.add (.urem (.mul (.mul (.load (targetPtr 3)) (.load (targetPtr 4)))
      (.load (targetPtr 5))) (.constInt 11)) (.constInt (quotient * 10))) destination]
  else if remainder = 9 then
    [.store (.add (.urem (.mul (.load (targetPtr 3)) (.load (targetPtr 4)))
      (.constInt 11)) (.constInt (quotient * 10))) destination]
  else
    []

/-- The initializer of `g_array` (`InitValues`, lines 55-66). -/
def InitValues : List Nat := [2, 4, 3, 5, 4, 7, 2, 3, 8, 7]

/-- The initializer of `m` (line 71). -/
def mInit : Nat := 0

/-- Run-time state of a function: the state `user` of the input program, the
globals `g_array` and `m`, and the content of the `switch_index` slot. -/
structure State (σ : Type) where
  user : σ
  g_array : List Nat
  m : Nat
  switch_index : Nat

/-- Meaning of the opaque instructions and values of the input program: they
act on, and read, the `user` part of the state only. -/
structure Sem (ι σ : Type) where
  effect : ι → σ → σ
  value : ι → σ → Nat

/-- Value of an IR value in a state.  Loads return 32-bit words; pointers and
loads from anything but `m`, the slot or a cell of `g_array` evaluate to 0. -/
def Value.eval {ι σ : Type} (sem : Sem ι σ) (s : State σ) : Value ι → Nat
  | .constInt n => (n % (wordSize : Int)).toNat
  | .gArray => 0
  | .gM => 0
  | .slot => 0
  | .orig x => sem.value x s.user
  | .load .gM => s.m % wordSize
  | .load .slot => s.switch_index % wordSize
  | .load (.gep .gArray i0 i1) =>
      s.g_array.getD (10 * Value.eval sem s i0 + Value.eval sem s i1) 0 % wordSize
  | .load _ => 0
  | .add a b => (Value.eval sem s a + Value.eval sem s b) % wordSize
  | .mul a b => (Value.eval sem s a * Value.eval sem s b) % wordSize
  | .urem a b => Value.eval sem s a % Value.eval sem s b
  | .gep _ _ _ => 0

/-- Effect of one instruction.  The alloca leaves the slot content as it is
(an uninitialised slot holds an arbitrary value). -/
def Instr.exec {ι σ : Type} (sem : Sem ι σ) (s : State σ) : Instr ι → State σ
  | .orig i => { s with user := sem.effect i s.user }
  | .alloca => s
  | .store v .slot => { s with switch_index := Value.eval sem s v }
  | .store v .gM => { s with m := Value.eval sem s v }
  | .store v (.gep .gArray i0 i1) =>
      { s with g_array :=
          s.g_array.set (10 * Value.eval sem s i0 + Value.eval sem s i1) (Value.eval sem s v) }
  | .store _ _ => s

/-- Effect of a list of instructions, in order. -/
def execInsts {ι σ : Type} (sem : Sem ι σ) (s : State σ) (l : List (Instr ι)) : State σ :=
  l.foldl (Instr.exec sem) s

/-- Offsets of the rule for remainder digit `r` (table of section 4.2). -/
def ruleOffsets : Nat → List Nat
  | 0 => [9]
  | 1 => [0, 2]
  | 2 => [1, 2]
  | 3 => [0, 1]
  | 4 => [0, 1, 2]
  | 5 => [6, 8]
  | 6 => [6, 7]
  | 7 => [5]
  | 8 => [3, 4, 5]
  | 9 => [3, 4]
  | _ => []

/-- Modulus of the rule for remainder digit `r` (table of section 4.2). -/
def ruleModulus : Nat → Nat
  | 0 => 7
  | 1 => 5
  | 2 => 5
  | 3 => 5
  | 4 => 5
  | 5 => 11
  | 6 => 11
  | 7 => 11
  | 8 => 11
  | 9 => 11
  | _ => 1

/-- The table cell at offset `off` relative to `m`, as a 32-bit word; the index
is taken as the 32-bit machine takes it. -/
def cellAt (table : List Nat) (m off : Nat) : Nat :=
  table.getD ((m + off) % wordSize % 10) 0 % wordSize

/-- Decoding of digit `r` by its rule: the 32-bit product of the cells at the
rule's offsets relative to `m`, reduced by the rule's modulus. -/
def decode (table : List Nat) (m r : Nat) : Nat :=
  ((ruleOffsets r).map (cellAt table m)).prod % wordSize % ruleModulus r

/-- The decode invariant on the table and `m`: every remainder digit is decoded
to itself by its rule. -/
def DecodeInvariant (table : List Nat) (m : Nat) : Prop :=
  ∀ r, r < 10 → decode table m r = r

instance (table : List Nat) (m : Nat) : Decidable (DecodeInvariant table m) := by
  unfold DecodeInvariant; infer_instance

/-- Terminators.  `switch v dflt cases` is the multi-way branch the pass builds;
`unreachable` stands for the terminators that are neither a branch, a return
nor a switch. -/
inductive Terminator (ι : Type) where
  | br (dest : Addr)
  | condBr (cond : Value ι) (ifTrue ifFalse : Addr)
  | ret (v : Option (Value ι))
  | switch (v : Value ι) (dflt : Addr) (cases : List (Int × Addr))
  | unreachable
  deriving DecidableEq, Repr

/-- A basic block: its address, its name (empty when it has none), its
instructions before the terminator, and its terminator.  The name is the string
last passed to `setName`: the suffix the symbol table adds to a name that is
already in use in the function is not modelled, so a name below is exact for
functions in which the names the pass asks for are not in use. -/
structure BasicBlock (ι : Type) where
  addr : Addr
  name : String
  insts : List (Instr ι)
  term : Terminator ι
  deriving DecidableEq, Repr

/-- A function definition: the entry block `F.front()` and the blocks after it,
in the order of the function's block list. -/
structure Function (ι : Type) where
  entry : BasicBlock ι
  rest : List (BasicBlock ι)
  deriving DecidableEq, Repr

/-- The block list of a function, `F.begin()` to `F.end()`. -/
def Function.blocks {ι : Type} (F : Function ι) : List (BasicBlock ι) :=
  F.entry :: F.rest

/-- Addresses of a list of blocks. -/
def blockAddrs {ι : Type} (l : List (BasicBlock ι)) : List Addr :=
  l.map (fun b => b.addr)

/-- `std::map<BasicBlock*, int>`: pairs in ascending key order. -/
abbrev BBMap := List (Addr × Int)

/-- `BBMap[k] = v`: replaces the value of an existing key, or inserts the pair
at its place in key order. -/
def BBMap.assign : BBMap → Addr → Int → BBMap
  | [], k, v => [(k, v)]
  | (k', v') :: t, k, v =>
    if k < k' then (k, v) :: (k', v') :: t
    else if k = k' then (k, v) :: t
    else (k', v') :: BBMap.assign t k v

/-- `BBMap[k]` read as a value: the mapped ID and the map afterwards;
`operator[]` inserts a missing key with the value 0. -/
def BBMap.index (m : BBMap) (k : Addr) : Int × BBMap :=
  match m.lookup k with
  | some v => (v, m)
  | none => (0, BBMap.assign m k 0)

/-- The naming done by `assignIDToBasicBlocks` for a block that gets `BBID`:
a block that has a name keeps it, an unnamed block is named `bb<BBID>`
(`setName("bb" + BBID)`; when that name is in use the symbol table makes it
unique with a suffix, which is not modelled).  Only the name field is
concerned: address, instructions and terminator are those of the block. -/
def nameBlock {ι : Type} (b : BasicBlock ι) (BBID : Int) : BasicBlock ι :=
  if b.name ≠ "" then b else { b with name := "bb" ++ toString BBID }

/-- The loop of `FlattenO::assignIDToBasicBlocks` from the block at the head of
the list on, with the current `BBID` and map: unnamed blocks are named
`bb<BBID>`, every block is mapped to the next ID. -/
def assignIDsFrom {ι : Type} :
    List (BasicBlock ι) → Int → BBMap → List (BasicBlock ι) × BBMap
  | [], _, m => ([], m)
  | b :: r, BBID, m =>
    let res := assignIDsFrom r (BBID + 1) (BBMap.assign m b.addr BBID)
    (nameBlock b BBID :: res.1, res.2)

/-- `FlattenO::assignIDToBasicBlocks`: the blocks (with the names it sets) and
the filled `BBMap`. -/
def assignIDToBasicBlocks {ι : Type} (blocks : List (BasicBlock ι)) :
    List (BasicBlock ι) × BBMap :=
  assignIDsFrom blocks 0 []

/-- The cases added to the switch (lines 161-165): one per map entry, in the
map's iteration order, whose ID is not 0. -/
def switchCases (m : BBMap) : List (Int × Addr) :=
  (m.filter (fun e => e.2 ≠ 0)).map (fun e => (e.2, e.1))

/-- State of the retargeting loop (lines 168-210): the blocks before the
iterator `BI`, the blocks from `BI` on, `BBSkip`, `BBMap`, and the number of
blocks the pass has created so far. -/
structure LoopState (ι : Type) where
  done : List (BasicBlock ι)
  todo : List (BasicBlock ι)
  BBSkip : List Addr
  BBMap : BBMap
  created : Nat

/-- One iteration of the retargeting loop at the block `b = *BI` followed by
`r`.  `newBB k` is the address of the `k`-th block the pass creates.  For a
conditional branch `SplitBlockAndInsertIfThen` creates the tail block, then the
then-block, and inserts them after `b` in the order then, tail; both become
`br SwitchBB` blocks holding the encoded ID of their successor. -/
def retargetStep {ι : Type} (newBB : Nat → Addr) (SwitchBB : Addr)
    (st : LoopState ι) (b : BasicBlock ι) (r : List (BasicBlock ι)) : LoopState ι :=
  if b.addr ∈ st.BBSkip then
    { st with done := st.done ++ [b], todo := r }
  else
    match b.term with
    | .condBr cond succ0 succ1 =>
      let tailAddr := newBB st.created
      let thenAddr := newBB (st.created + 1)
      let i0 := BBMap.index st.BBMap succ0
      let i1 := BBMap.index i0.2 succ1
      let head : BasicBlock ι := { b with term := .condBr cond thenAddr tailAddr }
      let ifTrue : BasicBlock ι :=
        { addr := thenAddr, name := b.name ++ ".if.true",
          insts := insertOpaqueSwitchIndex i0.1 .slot, term := .br SwitchBB }
      let ifCont : BasicBlock ι :=
        { addr := tailAddr, name := b.name ++ ".if.cont",
          insts := insertOpaqueSwitchIndex i1.1 .slot, term := .br SwitchBB }
      { done := st.done ++ [head], todo := ifTrue :: ifCont :: r,
        BBSkip := st.BBSkip ++ [thenAddr, tailAddr], BBMap := i1.2,
        created := st.created + 2 }
    | .br succ0 =>
      let i0 := BBMap.index st.BBMap succ0
      let b' : BasicBlock ι :=
        { b with insts := b.insts ++ insertOpaqueSwitchIndex i0.1 .slot, term := .br SwitchBB }
      { st with done := st.done ++ [b'], todo := r, BBMap := i0.2 }
    | _ => { st with done := st.done ++ [b], todo := r }

/-- The retargeting loop, run for at most `fuel` iterations. -/
def retargetLoop {ι : Type} (newBB : Nat → Addr) (SwitchBB : Addr) :
    Nat → LoopState ι → LoopState ι
  | 0, st => st
  | fuel + 1, st =>
    match st.todo with
    | [] => st
    | b :: r => retargetLoop newBB SwitchBB fuel (retargetStep newBB SwitchBB st b r)

/-- The entry block after `SplitBlock(&EntryBB, BrInstEntryBB)` (line 116) and
the alloca of `switch_index` before its first instruction (line 124): it is
named "entry" and ends in `br SwitchBB`. -/
def splitEntry {ι : Type} (newBB : Nat → Addr) (F : Function ι) : BasicBlock ι :=
  { F.entry with name := "entry", insts := .alloca :: F.entry.insts, term := .br (newBB 0) }

/-- The new block of `SplitBlock` with the moved terminator `BrInstEntryBB`, named "switch"
(lines 116-117).  It is the first block the pass creates. -/
def splitSwitch {ι : Type} (newBB : Nat → Addr) (F : Function ι) : BasicBlock ι :=
  { addr := newBB 0, name := "switch", insts := [], term := F.entry.term }

/-- The result of `assignIDToBasicBlocks(F, BBMap)` at line 120, when the block
list is the entry block, the switch block and the other blocks. -/
def assignedIDs {ι : Type} (newBB : Nat → Addr) (F : Function ι) :
    List (BasicBlock ι) × BBMap :=
  assignIDToBasicBlocks
    ({ F.entry with name := "entry", term := .br (newBB 0) } :: splitSwitch newBB F :: F.rest)

/-- The switch block once `BrInstEntryBB` is erased and the load and the switch
are appended (lines 153-165), for the `BBMap` at that point. -/
def buildSwitch {ι : Type} (newBB : Nat → Addr) (F : Function ι) (m : BBMap) : BasicBlock ι :=
  { splitSwitch newBB F with term := .switch (.load .slot) (newBB 0) (switchCases m) }

/-- State of the pass before the retargeting loop when the entry block ended
in a conditional branch (lines 116-145, 153-165): `SplitBlockAndInsertIfThen`
creates the tail block, then the then-block, and places them after the entry
block in the order then, tail.  The entry and switch blocks carry names when
`assignIDToBasicBlocks` runs, so it leaves them as they are; the other blocks
are taken as it names them. -/
def lowerEntryCond {ι : Type} (newBB : Nat → Addr) (F : Function ι)
    (cond : Value ι) (succ0 succ1 : Addr) : LoopState ι :=
  let ids := assignedIDs newBB F
  let tailAddr := newBB 1
  let thenAddr := newBB 2
  let i0 := BBMap.index ids.2 succ0
  let i1 := BBMap.index i0.2 succ1
  let entry3 : BasicBlock ι :=
    { splitEntry newBB F with term := .condBr cond thenAddr tailAddr }
  let ifTrue : BasicBlock ι :=
    { addr := thenAddr, name := "entry" ++ ".if.true",
      insts := insertOpaqueSwitchIndex i0.1 .slot, term := .br (newBB 0) }
  let ifCont : BasicBlock ι :=
    { addr := tailAddr, name := "entry" ++ ".if.cont",
      insts := insertOpaqueSwitchIndex i1.1 .slot, term := .br (newBB 0) }
  { done := [], todo := entry3 :: ifTrue :: ifCont :: buildSwitch newBB F i1.2 :: ids.1.drop 2,
    BBSkip := [F.entry.addr, newBB 0, thenAddr, tailAddr], BBMap := i1.2, created := 3 }

/-- State of the pass before the retargeting loop when the entry block ended
in an unconditional branch (lines 116-124, 146-165). -/
def lowerEntryBr {ι : Type} (newBB : Nat → Addr) (F : Function ι) (succ0 : Addr) :
    LoopState ι :=
  let ids := assignedIDs newBB F
  let i0 := BBMap.index ids.2 succ0
  let entry3 : BasicBlock ι :=
    { splitEntry newBB F with
      insts := (splitEntry newBB F).insts ++ insertOpaqueSwitchIndex i0.1 .slot }
  { done := [], todo := entry3 :: buildSwitch newBB F i0.2 :: ids.1.drop 2,
    BBSkip := [F.entry.addr, newBB 0], BBMap := i0.2, created := 1 }

/-- The function made of the blocks of a final loop state. -/
def LoopState.toFunction {ι : Type} (st : LoopState ι) (F0 : Function ι) : Function ι :=
  match st.done ++ st.todo with
  | e :: r => { entry := e, rest := r }
  | [] => F0

/-- The retargeting loop of lines 168-210 from the state `st0`, given three
iterations for each block present when it starts. -/
def retargetAll {ι : Type} (newBB : Nat → Addr) (st0 : LoopState ι) : LoopState ι :=
  retargetLoop newBB (newBB 0) (3 * st0.todo.length) st0

/-- `FlattenO::runOnFunction` on the function (lines 86-212): whether the
function was changed, and the function afterwards.  `newBB k` is the address
of the `k`-th block the pass creates. -/
def runOnFunction {ι : Type} (newBB : Nat → Addr) (F : Function ι) : Bool × Function ι :=
  -- EntryBB.setName("entry")
  let F0 : Function ι := { F with entry := { F.entry with name := "entry" } }
  -- std::distance(F.begin(), F.end()) == 1
  if F.rest.length + 1 = 1 then (false, F0)
  else
    match F.entry.term with
    | .ret _ => (false, F0)
    | .br succ0 =>
      (true, (retargetAll newBB (lowerEntryBr newBB F succ0)).toFunction F0)
    | .condBr cond succ0 succ1 =>
      (true, (retargetAll newBB (lowerEntryCond newBB F cond succ0 succ1)).toFunction F0)
    | _ => (false, F0)

/-- What a run of a function yields when it returns: the blocks executed, in
order, each with the state of the input program on entry to it, the final state
of the input program, and the returned value. -/
structure Result (σ : Type) where
  trace : List (Addr × σ)
  user : σ
  ret : Option Nat

/-- The result of a run that executes the block `e.1`, entered with the state
`e.2` of the input program, and then yields `r`. -/
def Result.push {σ : Type} (e : Addr × σ) (r : Result σ) : Result σ :=
  { r with trace := e :: r.trace }

/-- The block of the function at an address. -/
def findBlock {ι : Type} (F : Function ι) (a : Addr) : Option (BasicBlock ι) :=
  F.blocks.find? (fun b => b.addr = a)

/-- The case a switch takes for the 32-bit value `x`: the first whose constant is `x`. -/
def findCase (cases : List (Int × Addr)) (x : Nat) : Option (Int × Addr) :=
  cases.find? (fun c => (c.1 % (wordSize : Int)).toNat = x)

/-- What a terminator does in a state: return a value, or go to a block, or
neither (`unreachable`). -/
def Terminator.step {ι σ : Type} (sem : Sem ι σ) (s : State σ) :
    Terminator ι → Option (Option Nat ⊕ Addr)
  | .br dest => some (.inr dest)
  | .condBr cond ifTrue ifFalse =>
    some (.inr (if Value.eval sem s cond % 2 = 1 then ifTrue else ifFalse))
  | .ret v => some (.inl (v.map (Value.eval sem s)))
  | .switch v dflt cases =>
    match findCase cases (Value.eval sem s v) with
    | some c => some (.inr c.2)
    | none => some (.inr dflt)
  | .unreachable => none

/-- Execution of a function from the block at address `a` in state `s`, for at
most `fuel` blocks: `none` when the fuel runs out or execution is stuck. -/
def run {ι σ : Type} (sem : Sem ι σ) (F : Function ι) :
    Nat → Addr → State σ → Option (Result σ)
  | 0, _, _ => none
  | fuel + 1, a, s =>
    match findBlock F a with
    | none => none
    | some b =>
      let s' := execInsts sem s b.insts
      match b.term.step sem s' with
      | none => none
      | some (.inl v) => some { trace := [(a, s.user)], user := s'.user, ret := v }
      | some (.inr next) =>
        (run sem F fuel next s').map (Result.push (a, s.user))

/-- Execution of a function from its entry block. -/
def runFunction {ι σ : Type} (sem : Sem ι σ) (F : Function ι) (fuel : Nat) (s : State σ) :
    Option (Result σ) :=
  run sem F fuel F.entry.addr s

/-- What of a result of the flattened function is observable in terms of the
input function `F`: the blocks of `F` executed, with the state of the input
program on entry to each, the final state of the input program and the
returned value. -/
def observe {ι σ : Type} (F : Function ι) (r : Result σ) : Result σ :=
  { r with trace := r.trace.filter (fun e => e.1 ∈ blockAddrs F.blocks) }

/-- The integer literals (`ConstantInt` operands) occurring in a value. -/
def Value.literals {ι : Type} : Value ι → List Int
  | .constInt n => [n]
  | .gArray => []
  | .gM => []
  | .slot => []
  | .orig _ => []
  | .load p => Value.literals p
  | .add a b => Value.literals a ++ Value.literals b
  | .mul a b => Value.literals a ++ Value.literals b
  | .urem a b => Value.literals a ++ Value.literals b
  | .gep base i0 i1 => Value.literals base ++ Value.literals i0 ++ Value.literals i1

/-- The integer literals occurring in an instruction. -/
def Instr.literals {ι : Type} : Instr ι → List Int
  | .orig _ => []
  | .alloca => []
  | .store v p => Value.literals v ++ Value.literals p

/-- The integer literals occurring in the operations the encoder emits for `target`. -/
def encoderLiterals (target : Int) : List Int :=
  (insertOpaqueSwitchIndex target (.slot : Value Unit)).flatMap Instr.literals

/-- A program semantics with no input instructions to speak of, for evaluating
emitted code on concrete states. -/
def unitSem : Sem Unit Unit :=
  { effect := fun _ u => u, value := fun _ _ => 0 }

/-- The state with the initial table and `m`, and a given slot content. -/
def initState (slot : Nat) : State Unit :=
  { user := (), g_array := InitValues, m := mInit, switch_index := slot }

/-- The ID a map gives to a block: `BBMap[k]`, which is 0 for a missing key. -/
def idOf (m : BBMap) (k : Addr) : Int :=
  (m.lookup k).getD 0

/-- Keys of the map are in strictly ascending order. -/
def BBMap.Sorted (m : BBMap) : Prop :=
  m.Pairwise (fun a b => a.1 < b.1)

/-- The two-block function of the scenario: `A` (entry) branches to `B`, which returns. -/
def twoBlockFn : Function Unit :=
  { entry := { addr := 1, name := "A", insts := [], term := .br 2 },
    rest := [{ addr := 2, name := "B", insts := [], term := .ret none }] }

/-- A one-block function, for concrete checks. -/
def oneBlockFn : Function Unit :=
  { entry := { addr := 1, name := "A", insts := [.orig ()], term := .br 1 }, rest := [] }

/-- Addresses for the blocks the pass creates in the concrete checks. -/
def newBBFrom (base : Nat) : Nat → Addr :=
  fun k => base + k

/-- The blocks the retargeting loop leaves in place of a block `b` it does not
skip, when `k` blocks have been created before: `b` with its branch
retargeted, followed by its then and tail blocks when its branch was
conditional.  `ids` is the map of `assignIDToBasicBlocks`. -/
def flatBlock {ι : Type} (newBB : Nat → Addr) (ids : BBMap) (k : Nat) (b : BasicBlock ι) :
    List (BasicBlock ι) :=
  match b.term with
  | .condBr cond succ0 succ1 =>
    [{ b with term := .condBr cond (newBB (k + 1)) (newBB k) },
     { addr := newBB (k + 1), name := b.name ++ ".if.true",
       insts := insertOpaqueSwitchIndex (idOf ids succ0) .slot, term := .br (newBB 0) },
     { addr := newBB k, name := b.name ++ ".if.cont",
       insts := insertOpaqueSwitchIndex (idOf ids succ1) .slot, term := .br (newBB 0) }]
  | .br succ0 =>
    [{ b with insts := b.insts ++ insertOpaqueSwitchIndex (idOf ids succ0) .slot,
              term := .br (newBB 0) }]
  | _ => [b]

/-- Number of blocks the loop creates for a block it does not skip. -/
def createdFor {ι : Type} (b : BasicBlock ι) : Nat :=
  match b.term with
  | .condBr _ _ _ => 2
  | _ => 0

/-- The blocks the retargeting loop leaves in place of a list of blocks none of
which it skips. -/
def flatBlocks {ι : Type} (newBB : Nat → Addr) (ids : BBMap) :
    Nat → List (BasicBlock ι) → List (BasicBlock ι)
  | _, [] => []
  | k, b :: r => flatBlock newBB ids k b ++ flatBlocks newBB ids (k + createdFor b) r

/-- The blocks of a list named as `assignIDToBasicBlocks` names them, the first
getting the ID `n`. -/
def namedFrom {ι : Type} : List (BasicBlock ι) → Int → List (BasicBlock ι)
  | [], _ => []
  | b :: r, n => nameBlock b n :: namedFrom r (n + 1)

/-- Block addresses of the function are pairwise distinct (they are addresses of
distinct objects). -/
def Function.WellFormed {ι : Type} (F : Function ι) : Prop :=
  (blockAddrs F.blocks).Nodup

/-- The addresses of the blocks the pass creates are pairwise distinct and
distinct from the addresses of the blocks of `F`. -/
def FreshFor {ι : Type} (newBB : Nat → Addr) (F : Function ι) : Prop :=
  (∀ i j, newBB i = newBB j → i = j) ∧ ∀ k, newBB k ∉ blockAddrs F.blocks

/-- The pass gets past its early-outs: more than one block, and the entry
block ends in a branch. -/
def Accepted {ι : Type} (F : Function ι) : Prop :=
  F.rest ≠ [] ∧ ((∃ d, F.entry.term = .br d) ∨ ∃ c t f, F.entry.term = .condBr c t f)

/-- The blocks the pass leaves in place of the entry block: the entry block
with the slot alloca, and its then and tail blocks when it ended in a
conditional branch. -/
def flatEntry {ι : Type} (newBB : Nat → Addr) (F : Function ι) : List (BasicBlock ι) :=
  match F.entry.term with
  | .condBr cond succ0 succ1 =>
    [{ splitEntry newBB F with term := .condBr cond (newBB 2) (newBB 1) },
     { addr := newBB 2, name := "entry" ++ ".if.true",
       insts := insertOpaqueSwitchIndex (idOf (assignedIDs newBB F).2 succ0) .slot,
       term := .br (newBB 0) },
     { addr := newBB 1, name := "entry" ++ ".if.cont",
       insts := insertOpaqueSwitchIndex (idOf (assignedIDs newBB F).2 succ1) .slot,
       term := .br (newBB 0) }]
  | .br succ0 =>
    [{ splitEntry newBB F with
       insts := (splitEntry newBB F).insts ++
         insertOpaqueSwitchIndex (idOf (assignedIDs newBB F).2 succ0) .slot }]
  | _ => []

/-- The block list of the flattened function, block by block: the entry part,
the switch block, and the retargeted other blocks. -/
def flattened {ι : Type} (newBB : Nat → Addr) (F : Function ι) : List (BasicBlock ι) :=
  flatEntry newBB F ++ buildSwitch newBB F (assignedIDs newBB F).2 ::
    flatBlocks newBB (assignedIDs newBB F).2 (1 + createdFor F.entry) (namedFrom F.rest 2)

/-- Addresses of the block list at the call of `assignIDToBasicBlocks` (line 120):
the entry block, the switch block, the other blocks. -/
def addrsAtAssign {ι : Type} (newBB : Nat → Addr) (F : Function ι) : List Addr :=
  F.entry.addr :: newBB 0 :: blockAddrs F.rest

/-- The diamond of the scenario: `A` (entry) branches on a condition to `B` or `C`,
which both branch to `D`, which returns.  `C` has no name. -/
def diamondFn : Function Unit :=
  { entry := { addr := 40, name := "A", insts := [.orig ()], term := .condBr (.orig ()) 30 20 },
    rest := [{ addr := 30, name := "B", insts := [.orig ()], term := .br 10 },
             { addr := 20, name := "", insts := [], term := .br 10 },
             { addr := 10, name := "D", insts := [], term := .ret (some (.orig ())) }] }

/-- The successors of a terminator. -/
def Terminator.successors {ι : Type} : Terminator ι → List Addr
  | .br dest => [dest]
  | .condBr _ ifTrue ifFalse => [ifTrue, ifFalse]
  | .ret _ => []
  | .switch _ dflt cases => dflt :: cases.map (fun c => c.2)
  | .unreachable => []

/-- The terminator is an unconditional branch, a conditional branch or a return. -/
def Terminator.isPlain {ι : Type} : Terminator ι → Prop
  | .br _ => True
  | .condBr _ _ _ => True
  | .ret _ => True
  | _ => False

/-- The entry block with its name and the slot alloca, and its original
terminator: the block the entry part of the flattened function is made from. -/
def entryWithSlot {ι : Type} (F : Function ι) : BasicBlock ι :=
  { F.entry with name := "entry", insts := .alloca :: F.entry.insts }

/-- A block that stores an encoded ID into the slot and branches to the switch
block: the shape of the then and tail blocks. -/
def IsTrampoline {ι : Type} (newBB : Nat → Addr) (b : BasicBlock ι) : Prop :=
  (∃ id : Int, b.insts = insertOpaqueSwitchIndex id .slot) ∧ b.term = .br (newBB 0)

/-- A block of an input program: its instructions are instructions of the input
program, it ends in a branch or a return, and the condition or the returned
value is a value of the input program.  Such a block does not touch the slot,
the table or `m`. -/
def BasicBlock.IsInput {ι : Type} (b : BasicBlock ι) : Prop :=
  (∀ i ∈ b.insts, ∃ x, i = Instr.orig x) ∧
  match b.term with
  | .br _ => True
  | .condBr cond _ _ => ∃ x, cond = Value.orig x
  | .ret v => ∀ w, v = some w → ∃ x, w = Value.orig x
  | _ => False

/-- What the claim of semantic equivalence asks of the input function: it is
made of input blocks, a branch targets a block of the function, and no branch
targets the entry block. -/
def Function.IsInput {ι : Type} (F : Function ι) : Prop :=
  (∀ b ∈ F.blocks, b.IsInput) ∧
  (∀ b ∈ F.blocks, ∀ a ∈ b.term.successors, a ∈ blockAddrs F.rest)

/-- The result of a run that executes the blocks at `pfx` and then yields `r`. -/
def Result.pushAll {σ : Type} (pfx : List (Addr × σ)) (r : Result σ) : Result σ :=
  { r with trace := pfx ++ r.trace }

/-- A semantics for the concrete checks: the state of the input program is a
counter, every instruction increments it, every value is its parity. -/
def countSem : Sem Unit Nat :=
  { effect := fun _ u => u + 1, value := fun _ u => u % 2 }

/-- The state with the initial table and `m`, a counter and a slot content. -/
def countState (u slot : Nat) : State Nat :=
  { user := u, g_array := InitValues, m := mInit, switch_index := slot }

/-- The table cell at offset `off` relative to `m` in the words of section 4.2:
the offset is taken modulo 10, over the integers. -/
def specCell (table : List Nat) (m off : Nat) : Nat :=
  table.getD ((m + off) % 10) 0

/-- Decoding of digit `r` in the words of section 4.2: the product of the listed
cells, over the integers, modulo the listed modulus. -/
def specDecode (table : List Nat) (m r : Nat) : Nat :=
  ((ruleOffsets r).map (specCell table m)).prod % ruleModulus r

/-- The decode invariant with sums and products taken over the integers. -/
def SpecDecodeInvariant (table : List Nat) (m : Nat) : Prop :=
  ∀ r, r < 10 → specDecode table m r = r

/-- The result of a run that executes the blocks `A`, `X` and `D` in this order
from the state `s`, where `D` returns `v`. -/
def pathResult {ι σ : Type} (sem : Sem ι σ) (s : State σ) (A X D : BasicBlock ι)
    (v : Option (Value ι)) : Result σ :=
  let sA := execInsts sem s A.insts
  let sX := execInsts sem sA X.insts
  let sD := execInsts sem sX D.insts
  { trace := [(A.addr, s.user), (X.addr, sA.user), (D.addr, sX.user)],
    user := sD.user, ret := v.map (Value.eval sem sD) }

/-- The read of one table cell in the spec's routine (section 4.2: a table cell at
an offset relative to the rotating index `m`, offsets taken modulo 10). -/
def readCell {ι : Type} (off : Nat) : Value ι :=
  .load (.gep .gArray (.constInt 0)
    (.urem (.add (.load .gM) (.constInt (off : Int))) (.constInt 10)))

/-- The cells at the listed offsets combined by multiplication, from left to
right (section 4.2: "combining them by multiplication when more than one cell is
read"). -/
def cellProduct {ι : Type} : List Nat → Value ι
  | [] => .constInt 1
  | off :: rest => rest.foldl (fun acc o => .mul acc (readCell o)) (readCell off)

/-- The single data-driven routine of the spec (sections 4.2 and 9), indexed by
the remainder digit `r`: the cells of the rule of `r` are read and multiplied,
the product is reduced modulo the rule's modulus, `quotient * 10` is added, and
the sum is stored into the destination slot. -/
def encodeByRule {ι : Type} (r : Nat) (quotient : Int) (destination : Value ι) :
    List (Instr ι) :=
  [.store (.add (.urem (cellProduct (ruleOffsets r)) (.constInt (ruleModulus r)))
    (.constInt (quotient * 10))) destination]

/-- The `target` arguments of the calls of `insertOpaqueSwitchIndex` in one
iteration of the retargeting loop at the block `b` (lines 189, 198, 207), in
call order: `BBMap[succ]` for each successor of a branch; none when `b` is in
`BBSkip` or does not end in a branch. -/
def retargetStepTargets {ι : Type} (st : LoopState ι) (b : BasicBlock ι) : List Int :=
  if b.addr ∈ st.BBSkip then []
  else
    match b.term with
    | .condBr _ succ0 succ1 =>
      let i0 := BBMap.index st.BBMap succ0
      let i1 := BBMap.index i0.2 succ1
      [i0.1, i1.1]
    | .br succ0 => [(BBMap.index st.BBMap succ0).1]
    | _ => []

/-- The `target` arguments of the calls of `insertOpaqueSwitchIndex` in the
retargeting loop run for at most `fuel` iterations, in call order. -/
def retargetLoopTargets {ι : Type} (newBB : Nat → Addr) (SwitchBB : Addr) :
    Nat → LoopState ι → List Int
  | 0, _ => []
  | fuel + 1, st =>
    match st.todo with
    | [] => []
    | b :: r =>
      retargetStepTargets st b ++
        retargetLoopTargets newBB SwitchBB fuel (retargetStep newBB SwitchBB st b r)

/-- The `target` arguments of all calls of `insertOpaqueSwitchIndex` that
`runOnFunction` makes, in call order: those of the lowering of the entry
block's branch (lines 135, 144, 150), then those of the retargeting loop. -/
def encoderTargets {ι : Type} (newBB : Nat → Addr) (F : Function ι) : List Int :=
  if F.rest.length + 1 = 1 then []
  else
    match F.entry.term with
    | .ret _ => []
    | .br succ0 =>
      let st0 := lowerEntryBr newBB F succ0
      (BBMap.index (assignedIDs newBB F).2 succ0).1 ::
        retargetLoopTargets newBB (newBB 0) (3 * st0.todo.length) st0
    | .condBr cond succ0 succ1 =>
      let st0 := lowerEntryCond newBB F cond succ0 succ1
      let i0 := BBMap.index (assignedIDs newBB F).2 succ0
      let i1 := BBMap.index i0.2 succ1
      i0.1 :: i1.1 :: retargetLoopTargets newBB (newBB 0) (3 * st0.todo.length) st0
    | _ => []

/-- The `BBMap` of `runOnFunction` when it returns. -/
def finalBBMap {ι : Type} (newBB : Nat → Addr) (F : Function ι) : BBMap :=
  if F.rest.length + 1 = 1 then []
  else
    match F.entry.term with
    | .ret _ => []
    | .br succ0 => (retargetAll newBB (lowerEntryBr newBB F succ0)).BBMap
    | .condBr cond succ0 succ1 =>
      (retargetAll newBB (lowerEntryCond newBB F cond succ0 succ1)).BBMap
    | _ => []

/-- Addresses for the created blocks where the first created block, the switch
block, lies below the blocks of the concrete functions. -/
def newBBLow : Nat → Addr :=
  fun k => if k = 0 then 0 else 100 + k

/-- The terminator is a conditional branch. -/
def Terminator.isCond {ι : Type} : Terminator ι → Bool
  | .condBr _ _ _ => true
  | _ => false

/-- The number of blocks of a list that end in a conditional branch. -/
def condCount {ι : Type} (l : List (BasicBlock ι)) : Nat :=
  (l.filter (fun b => b.term.isCond)).length

/-- The number of loads from the slot in a value. -/
def Value.slotLoads {ι : Type} : Value ι → Nat
  | .constInt _ => 0
  | .gArray => 0
  | .gM => 0
  | .slot => 0
  | .orig _ => 0
  | .load p => (match p with | .slot => 1 | _ => 0) + Value.slotLoads p
  | .add a b => Value.slotLoads a + Value.slotLoads b
  | .mul a b => Value.slotLoads a + Value.slotLoads b
  | .urem a b => Value.slotLoads a + Value.slotLoads b
  | .gep base i0 i1 => Value.slotLoads base + Value.slotLoads i0 + Value.slotLoads i1

/-- The number of loads from the slot in the operands of an instruction. -/
def Instr.slotLoads {ι : Type} : Instr ι → Nat
  | .orig _ => 0
  | .alloca => 0
  | .store v p => Value.slotLoads v + Value.slotLoads p

/-- The number of loads from the slot in the operand of a terminator. -/
def Terminator.slotLoads {ι : Type} : Terminator ι → Nat
  | .condBr cond _ _ => Value.slotLoads cond
  | .ret (some v) => Value.slotLoads v
  | .switch v _ _ => Value.slotLoads v
  | _ => 0

/-- The number of loads from the slot in a block. -/
def BasicBlock.slotLoads {ι : Type} (b : BasicBlock ι) : Nat :=
  (b.insts.map Instr.slotLoads).sum + b.term.slotLoads

/-- The instruction is the alloca of the slot. -/
def Instr.isAlloca {ι : Type} : Instr ι → Bool
  | .alloca => true
  | _ => false

/-- The number of slot allocas in a block. -/
def BasicBlock.allocas {ι : Type} (b : BasicBlock ι) : Nat :=
  (b.insts.filter Instr.isAlloca).length

/-- The instruction is a store into the slot. -/
def Instr.writesSlot {ι : Type} : Instr ι → Bool
  | .store _ .slot => true
  | _ => false

/-- One block of execution: the block at `c.1` runs from the state `c.2`.  The
result is the block control passes to and the state then; there is none when the
block returns or execution is stuck. -/
def stepBlock {ι σ : Type} (sem : Sem ι σ) (F : Function ι) (c : Addr × State σ) :
    Option (Addr × State σ) :=
  match findBlock F c.1 with
  | none => none
  | some b =>
    match b.term.step sem (execInsts sem c.2 b.insts) with
    | some (.inr next) => some (next, execInsts sem c.2 b.insts)
    | _ => none

/-- The block and the state reached from `c` after `n` blocks have run, when
execution gets that far. -/
def reach {ι σ : Type} (sem : Sem ι σ) (F : Function ι) :
    Nat → Addr × State σ → Option (Addr × State σ)
  | 0, c => some c
  | n + 1, c => (reach sem F n c).bind (stepBlock sem F)

/-- Where a run of the flattened function can be, started with the table and `m`
of `s0`: at a block of the input function; or at the switch block with the ID of a
block after the entry block in the slot; or at a created block that stores the
encoded ID of such a block and branches to the switch block.  The table and `m`
are those of `s0`. -/
def FlatInv {ι σ : Type} (newBB : Nat → Addr) (F : Function ι) (s0 : State σ)
    (c : Addr × State σ) : Prop :=
  c.2.g_array = s0.g_array ∧ c.2.m = s0.m ∧
  (c.1 ∈ blockAddrs F.blocks ∨
   (c.1 = newBB 0 ∧ ∃ t ∈ blockAddrs F.rest,
      (c.2.switch_index : Int) = idOf (assignedIDs newBB F).2 t) ∨
   ∃ y ∈ flattened newBB F, y.addr = c.1 ∧ y.term = .br (newBB 0) ∧
     ∃ t ∈ blockAddrs F.rest,
       y.insts = insertOpaqueSwitchIndex (idOf (assignedIDs newBB F).2 t) .slot)

/-- The initial table rotated by `m`: the cell `(m + i) % 10` holds `InitValues[i]`. -/
def rotatedTable (m : Nat) : List Nat :=
  (List.range 10).map (fun j => InitValues.getD ((j + 10 - m % 10) % 10) 0)

/-- The table reads in a value: the index operands `(i0, i1)` of every load from
`GEP(g_array, [i0, i1])`. -/
def Value.tableReads {ι : Type} : Value ι → List (Value ι × Value ι)
  | .constInt _ => []
  | .gArray => []
  | .gM => []
  | .slot => []
  | .orig _ => []
  | .load (.gep .gArray i0 i1) => (i0, i1) :: (Value.tableReads i0 ++ Value.tableReads i1)
  | .load p => Value.tableReads p
  | .add a b => Value.tableReads a ++ Value.tableReads b
  | .mul a b => Value.tableReads a ++ Value.tableReads b
  | .urem a b => Value.tableReads a ++ Value.tableReads b
  | .gep base i0 i1 => Value.tableReads base ++ Value.tableReads i0 ++ Value.tableReads i1

/-- The table reads in the operands of an instruction. -/
def Instr.tableReads {ι : Type} : Instr ι → List (Value ι × Value ι)
  | .orig _ => []
  | .alloca => []
  | .store v p => Value.tableReads v ++ Value.tableReads p

/-- The table reads in the operations the encoder emits for `target`. -/
def encoderReads {ι : Type} (target : Int) : List (Value ι × Value ι) :=
  (insertOpaqueSwitchIndex target (.slot : Value ι)).flatMap Instr.tableReads

/-- A table whose cells at offsets 0 and 2 have a product above `2 ^ 32`. -/
def wideTable : List Nat := [65537, 4, 65538, 5, 4, 7, 2, 3, 8, 7]

/-- The block at an address is reachable from the entry block along CFG edges: the
entry block is, and so is every successor of the terminator of a reachable
block of the function. -/
inductive Reachable {ι : Type} (F : Function ι) : Addr → Prop where
  | entry : Reachable F F.entry.addr
  | edge (x : BasicBlock ι) (b : Addr) :
      Reachable F x.addr → x ∈ F.blocks → b ∈ x.term.successors → Reachable F b

/-- A two-block function whose return block has no name. -/
def unnamedRetFn : Function Unit :=
  { entry := { addr := 1, name := "A", insts := [], term := .br 2 },
    rest := [{ addr := 2, name := "", insts := [.orig ()], term := .ret none }] }

/-- The encoder operations the pass appends to a block it retargets in place: those
for the successor of an unconditional branch, none for another terminator (for a
conditional branch they go into the created blocks). -/
def appendedOps {ι : Type} (ids : BBMap) (b : BasicBlock ι) : List (Instr ι) :=
  match b.term with
  | .br d => insertOpaqueSwitchIndex (idOf ids d) .slot
  | _ => []

/-- The blocks entered during the first `n` blocks of execution from the block and
state `c`, each with the state of the input program on entry.  The list is
shorter than `n` when the function returns or execution is stuck before; it has
`n` entries for every `n` when the run does not end. -/
def runTrace {ι σ : Type} (sem : Sem ι σ) (F : Function ι) :
    Nat → Addr × State σ → List (Addr × σ)
  | 0, _ => []
  | n + 1, c =>
    match findBlock F c.1 with
    | none => []
    | some _ =>
      (c.1, c.2.user) ::
        (match stepBlock sem F c with
         | none => []
         | some c' => runTrace sem F n c')

theorem constInt_eval_ofNat {ι σ : Type} (sem : Sem ι σ) (s : State σ) (k : Nat)
    (hk : k < wordSize) : Value.eval sem s (.constInt (k : Int)) = k := by
  simp only [Value.eval]
  have : ((k : Int) % (wordSize : Int)) = (k : Int) := by
    apply Int.emod_eq_of_lt (by positivity)
    exact_mod_cast hk
  rw [this]; simp

theorem eval_load_targetPtr {ι σ : Type} (sem : Sem ι σ) (s : State σ) (off : Nat)
    (hoff : off < 10) :
    Value.eval sem s (.load (targetPtr (off : Int))) = cellAt s.g_array s.m off := by
  have h10 : Value.eval sem s (.constInt ((10 : Nat) : Int)) = 10 :=
    constInt_eval_ofNat sem s 10 (by norm_num [wordSize])
  have h0 : Value.eval sem s (.constInt ((0 : Nat) : Int)) = 0 :=
    constInt_eval_ofNat sem s 0 (by norm_num [wordSize])
  have hoff' : Value.eval sem s (.constInt (off : Int)) = off :=
    constInt_eval_ofNat sem s off (by simp only [wordSize]; omega)
  simp only [Nat.cast_ofNat, Nat.cast_zero] at h10 h0
  simp only [targetPtr, arrayIndex, Value.eval] at *
  rw [h10, h0, hoff']
  simp [cellAt]

theorem eval_add {ι σ : Type} (sem : Sem ι σ) (s : State σ) (a b : Value ι) :
    Value.eval sem s (.add a b) = (Value.eval sem s a + Value.eval sem s b) % wordSize := rfl

theorem eval_mul {ι σ : Type} (sem : Sem ι σ) (s : State σ) (a b : Value ι) :
    Value.eval sem s (.mul a b) = (Value.eval sem s a * Value.eval sem s b) % wordSize := rfl

theorem eval_urem {ι σ : Type} (sem : Sem ι σ) (s : State σ) (a b : Value ι) :
    Value.eval sem s (.urem a b) = Value.eval sem s a % Value.eval sem s b := rfl

theorem cellAt_mod (table : List Nat) (m off : Nat) :
    cellAt table m off % wordSize = cellAt table m off := by
  simp [cellAt]

theorem tdiv_ten_ofNat (n : Nat) : Int.tdiv (n : Int) 10 * 10 = ((n / 10 * 10 : Nat) : Int) := by
  rw [Int.tdiv_eq_ediv (by positivity) (by norm_num)]; push_cast; rfl

theorem tmod_ten_ofNat (n : Nat) : Int.tmod (n : Int) 10 = ((n % 10 : Nat) : Int) := by
  rw [Int.tmod_eq_emod (by positivity) (by norm_num)]; push_cast; rfl

/-- The value the encoder stores for a non-negative `target`: the rule of the
remainder digit decoded on the current table, plus `quotient * 10`. -/
theorem insertOpaqueSwitchIndex_exec {ι σ : Type} (sem : Sem ι σ) (s : State σ) (n : Nat)
    (hn : n < 2 ^ 31) :
    execInsts sem s (insertOpaqueSwitchIndex (n : Int) (.slot : Value ι)) =
      { s with switch_index := (decode s.g_array s.m (n % 10) + n / 10 * 10) % wordSize } := by
  have hq := tdiv_ten_ofNat n
  have hr := tmod_ten_ofNat n
  have hc : ∀ k : Nat, k < 2 ^ 31 → Value.eval sem s (.constInt (k : Int)) = k :=
    fun k hk => constInt_eval_ofNat sem s k (by simp only [wordSize]; omega)
  have hq' := hc (n / 10 * 10) (by omega)
  have hq'' : Value.eval sem s (.constInt ((n : Int) / 10 * 10)) = n / 10 * 10 := by
    have h := hq'
    push_cast at h
    exact h
  have h5 := hc 5 (by norm_num)
  have h7 := hc 7 (by norm_num)
  have h11 := hc 11 (by norm_num)
  have hl : ∀ off : Nat, off < 10 →
      Value.eval sem s (.load (targetPtr (off : Int))) = cellAt s.g_array s.m off :=
    eval_load_targetPtr sem s
  have l0 := hl 0 (by norm_num)
  have l1 := hl 1 (by norm_num)
  have l2 := hl 2 (by norm_num)
  have l3 := hl 3 (by norm_num)
  have l4 := hl 4 (by norm_num)
  have l5 := hl 5 (by norm_num)
  have l6 := hl 6 (by norm_num)
  have l7 := hl 7 (by norm_num)
  have l8 := hl 8 (by norm_num)
  have l9 := hl 9 (by norm_num)
  simp only [Nat.cast_ofNat, Nat.cast_zero, Nat.cast_one] at h5 h7 h11 l0 l1 l2 l3 l4 l5 l6 l7 l8 l9
  unfold insertOpaqueSwitchIndex
  simp only [hq, hr]
  have hlt : n % 10 < 10 := Nat.mod_lt _ (by norm_num)
  interval_cases h : n % 10 <;>
    simp only [Nat.cast_ofNat, Nat.cast_zero, Nat.cast_one] <;>
    norm_num [execInsts, Instr.exec, eval_add, eval_mul, eval_urem, hq', hq'', h5, h7, h11, l0,
      l1, l2, l3, l4, l5, l6, l7, l8, l9, decode, ruleOffsets, ruleModulus, cellAt_mod,
      Nat.mod_mul_mod, Nat.mul_assoc]

/-- Under the decode invariant the encoder stores the target itself. -/
theorem exec_encoded_of_invariant {ι σ : Type} (sem : Sem ι σ) (s : State σ) (n : Nat)
    (hn : n < 2 ^ 31) (hinv : DecodeInvariant s.g_array s.m) :
    execInsts sem s (insertOpaqueSwitchIndex (n : Int) (.slot : Value ι)) =
      { s with switch_index := n } := by
  rw [insertOpaqueSwitchIndex_exec sem s n hn, hinv (n % 10) (Nat.mod_lt _ (by norm_num))]
  have : (n % 10 + n / 10 * 10) % wordSize = n := by
    simp only [wordSize]; omega
  rw [this]

/-- C2 (encoder round-trip): for every non-negative target ID (an `int`, so below
`2 ^ 31`) and every state whose table and `m` satisfy the decode invariant,
executing the operations emitted by `insertOpaqueSwitchIndex` stores exactly the
target into the destination slot and changes nothing else. -/
theorem encoder_round_trip {ι σ : Type} (sem : Sem ι σ) (s : State σ) (target : Int)
    (h0 : 0 ≤ target) (h31 : target < 2 ^ 31) (hinv : DecodeInvariant s.g_array s.m) :
    execInsts sem s (insertOpaqueSwitchIndex target (.slot : Value ι)) =
      { s with switch_index := target.toNat } := by
  obtain ⟨n, rfl⟩ := Int.eq_ofNat_of_zero_le h0
  have hn : n < 2 ^ 31 := by exact_mod_cast h31
  simpa using exec_encoded_of_invariant sem s n hn hinv

/-- Witness of C2: on the initial table with `m = 0`, encoding the target 57
stores 57 into the slot. -/
theorem encoder_round_trip_witness :
    execInsts unitSem (initState 0) (insertOpaqueSwitchIndex 57 (.slot : Value Unit)) =
      { initState 0 with switch_index := 57 } :=
  encoder_round_trip unitSem (initState 0) 57 (by decide) (by decide) (by decide)

/-- C3 (default table): the initial table `[2,4,3,5,4,7,2,3,8,7]` with `m = 0`
satisfies the decode invariant for all ten digits; with that state the emitted
computation stores `target` for every `target` in `[0, 2 ^ 31)`; and the
operations emitted for target 23 multiply the cells at offsets 0 and 1, which
are 2 and 4, reduce by 5 (giving 3) and add 20, which stores 23. -/
theorem default_table_round_trip :
    DecodeInvariant InitValues mInit ∧
    (∀ {ι σ : Type} (sem : Sem ι σ) (u : σ) (slot : Nat) (target : Int),
      0 ≤ target → target < 2 ^ 31 →
      execInsts sem ⟨u, InitValues, mInit, slot⟩
          (insertOpaqueSwitchIndex target (.slot : Value ι)) =
        ⟨u, InitValues, mInit, target.toNat⟩) ∧
    insertOpaqueSwitchIndex 23 (.slot : Value Unit) =
      [.store (.add (.urem (.mul (.load (targetPtr 0)) (.load (targetPtr 1))) (.constInt 5))
        (.constInt 20)) .slot] ∧
    Value.eval unitSem (initState 0) (.load (targetPtr 0)) = 2 ∧
    Value.eval unitSem (initState 0) (.load (targetPtr 1)) = 4 ∧
    Value.eval unitSem (initState 0)
      (.urem (.mul (.load (targetPtr 0)) (.load (targetPtr 1))) (.constInt 5)) = 3 ∧
    execInsts unitSem (initState 0) (insertOpaqueSwitchIndex 23 .slot) =
      { initState 0 with switch_index := 23 } := by
  have hinv : DecodeInvariant InitValues mInit := by decide
  refine ⟨hinv, ?_, by decide, by decide, by decide, by decide, ?_⟩
  · intro ι σ sem u slot target h0 h31
    obtain ⟨n, rfl⟩ := Int.eq_ofNat_of_zero_le h0
    have hn : n < 2 ^ 31 := by exact_mod_cast h31
    simpa using exec_encoded_of_invariant sem ⟨u, InitValues, mInit, slot⟩ n hn hinv
  · exact exec_encoded_of_invariant unitSem (initState 0) 23 (by norm_num) hinv

/-- The literals of the operations emitted for a non-negative target are the
leading GEP index 0, the offsets of the rule of its remainder digit, the table
length 10, the rule's modulus and `quotient * 10`. -/
theorem encoderLiterals_subset (n : Nat) (x : Int) (hx : x ∈ encoderLiterals (n : Int)) :
    x = 0 ∨ x = 10 ∨ x ∈ (ruleOffsets (n % 10)).map (fun o => (o : Int)) ∨
      x = (ruleModulus (n % 10) : Int) ∨ x = ((n / 10 * 10 : Nat) : Int) := by
  have hq := tdiv_ten_ofNat n
  have hr := tmod_ten_ofNat n
  have hlt : n % 10 < 10 := Nat.mod_lt _ (by norm_num)
  unfold encoderLiterals insertOpaqueSwitchIndex at hx
  simp only [hq, hr] at hx
  interval_cases h : n % 10 <;>
    simp only [Nat.cast_ofNat, Nat.cast_zero, Nat.cast_one] at hx <;>
    norm_num [Instr.literals, Value.literals, targetPtr, arrayIndex, ruleOffsets,
      ruleModulus] at hx ⊢ <;>
    omega

/-- A non-negative target occurs among the literals emitted for it exactly when it
is a multiple of 10, or is 2 or 6. -/
theorem mem_encoderLiterals_self (n : Nat) :
    (n : Int) ∈ encoderLiterals (n : Int) ↔ n % 10 = 0 ∨ n = 2 ∨ n = 6 := by
  have hq := tdiv_ten_ofNat n
  have hr := tmod_ten_ofNat n
  have hlt : n % 10 < 10 := Nat.mod_lt _ (by norm_num)
  unfold encoderLiterals insertOpaqueSwitchIndex
  simp only [hq, hr]
  interval_cases h : n % 10 <;>
    simp only [Nat.cast_ofNat, Nat.cast_zero, Nat.cast_one] <;>
    norm_num [Instr.literals, Value.literals, targetPtr, arrayIndex] <;>
    omega

/-- C7, counterexample: the operations emitted for target 20 contain 20 itself as a
literal operand (the `quotient * 10` addend), and those for target 6 contain 6
(a table offset). -/
theorem encoder_literal_leak :
    (20 : Int) ∈ encoderLiterals 20 ∧ (6 : Int) ∈ encoderLiterals 6 ∧
      insertOpaqueSwitchIndex 20 (.slot : Value Unit) =
        [.store (.add (.urem (.load (targetPtr 9)) (.constInt 7)) (.constInt 20)) .slot] := by
  decide

/-- C7, amended: for every non-negative target `k` the literals of the emitted
operations are the leading GEP index 0, the table offsets of the rule, the
table length 10, the rule's modulus and `quotient * 10`; `k` itself is among
them exactly when `k` is a multiple of 10 (it is `quotient * 10`) or `k` is 2 or 6
(it is a table offset of its rule). -/
theorem encoder_literals (k : Int) (h0 : 0 ≤ k) :
    (∀ x ∈ encoderLiterals k,
      x = 0 ∨ x = 10 ∨ x ∈ (ruleOffsets (k.toNat % 10)).map (fun o => (o : Int)) ∨
        x = (ruleModulus (k.toNat % 10) : Int) ∨ x = Int.tdiv k 10 * 10) ∧
    (k ∈ encoderLiterals k ↔ Int.tmod k 10 = 0 ∨ k = 2 ∨ k = 6) := by
  obtain ⟨n, rfl⟩ := Int.eq_ofNat_of_zero_le h0
  refine ⟨fun x hx => ?_, ?_⟩
  · rw [tdiv_ten_ofNat]
    simpa using encoderLiterals_subset n x hx
  · rw [mem_encoderLiterals_self, tmod_ten_ofNat]
    constructor
    · rintro (h | h | h)
      · left; exact_mod_cast h
      · right; left; exact_mod_cast h
      · right; right; exact_mod_cast h
    · rintro (h | h | h)
      · left; exact_mod_cast h
      · right; left; exact_mod_cast h
      · right; right; exact_mod_cast h

/-- Witness of the amended C7 at target 23: its literals are among 0, 10, the
offsets 0 and 1, the modulus 5 and 20, and 23 is not one of them. -/
theorem encoder_literals_witness :
    (∀ x ∈ encoderLiterals 23,
      x = 0 ∨ x = 10 ∨ x ∈ (ruleOffsets ((23 : Int).toNat % 10)).map (fun o => (o : Int)) ∨
        x = (ruleModulus ((23 : Int).toNat % 10) : Int) ∨ x = Int.tdiv 23 10 * 10) ∧
    ((23 : Int) ∈ encoderLiterals 23 ↔ Int.tmod 23 10 = 0 ∨ (23 : Int) = 2 ∨ (23 : Int) = 6) :=
  encoder_literals 23 (by decide)

theorem lookup_assign_self (m : BBMap) (k : Addr) (v : Int) :
    (BBMap.assign m k v).lookup k = some v := by
  induction m with
  | nil => simp [BBMap.assign, List.lookup]
  | cons e t ih =>
    obtain ⟨k', v'⟩ := e
    simp only [BBMap.assign]
    split_ifs with h1 h2
    · simp [List.lookup]
    · simp [List.lookup]
    · have : (k == k') = false := by simpa using h2
      simp [List.lookup, this, ih]

theorem lookup_assign_ne (m : BBMap) (k k' : Addr) (v : Int) (h : k' ≠ k) :
    (BBMap.assign m k v).lookup k' = m.lookup k' := by
  induction m with
  | nil =>
    have : (k' == k) = false := by simpa using h
    simp [BBMap.assign, List.lookup, this]
  | cons e t ih =>
    obtain ⟨k0, v0⟩ := e
    have hk : (k' == k) = false := by simpa using h
    simp only [BBMap.assign]
    split_ifs with h1 h2
    · simp [List.lookup, hk]
    · subst h2
      simp [List.lookup, hk]
    · simp only [List.lookup]
      cases (k' == k0) <;> simp [ih]

theorem index_fst (m : BBMap) (k : Addr) : (BBMap.index m k).1 = idOf m k := by
  unfold BBMap.index idOf
  cases m.lookup k <;> rfl

theorem idOf_index (m : BBMap) (k k' : Addr) : idOf (BBMap.index m k).2 k' = idOf m k' := by
  unfold BBMap.index
  cases h : m.lookup k with
  | some v => rfl
  | none =>
    simp only [idOf]
    by_cases hk : k' = k
    · subst hk; rw [lookup_assign_self, h]; rfl
    · rw [lookup_assign_ne _ _ _ _ hk]

theorem filter_assign_zero (m : BBMap) (k : Addr) (h : m.lookup k = none) :
    (BBMap.assign m k 0).filter (fun e => e.2 ≠ 0) = m.filter (fun e => e.2 ≠ 0) := by
  induction m with
  | nil => simp [BBMap.assign]
  | cons e t ih =>
    obtain ⟨k0, v0⟩ := e
    simp only [List.lookup] at h
    simp only [BBMap.assign]
    split_ifs with h1 h2
    · simp
    · subst h2; simp at h
    · have hk : (k == k0) = false := by simpa using h2
      rw [hk] at h
      simp only [List.filter_cons, ih h]

theorem switchCases_index (m : BBMap) (k : Addr) :
    switchCases (BBMap.index m k).2 = switchCases m := by
  unfold BBMap.index
  cases h : m.lookup k with
  | some v => rfl
  | none => simp only [switchCases, filter_assign_zero m k h]

theorem mem_assign_imp (m : BBMap) (k : Addr) (v : Int) (e : Addr × Int)
    (he : e ∈ BBMap.assign m k v) : e = (k, v) ∨ e ∈ m := by
  induction m with
  | nil => simpa [BBMap.assign] using he
  | cons e0 t ih =>
    obtain ⟨k0, v0⟩ := e0
    simp only [BBMap.assign] at he
    split_ifs at he with h1 h2
    · rcases List.mem_cons.1 he with h | h
      · exact Or.inl h
      · exact Or.inr h
    · rcases List.mem_cons.1 he with h | h
      · exact Or.inl h
      · exact Or.inr (List.mem_cons_of_mem _ h)
    · rcases List.mem_cons.1 he with h | h
      · exact Or.inr (h ▸ List.mem_cons_self _ _)
      · rcases ih h with h' | h'
        · exact Or.inl h'
        · exact Or.inr (List.mem_cons_of_mem _ h')

theorem sorted_assign (m : BBMap) (k : Addr) (v : Int) (hm : BBMap.Sorted m) :
    BBMap.Sorted (BBMap.assign m k v) := by
  induction m with
  | nil => simp [BBMap.assign, BBMap.Sorted]
  | cons e0 t ih =>
    obtain ⟨k0, v0⟩ := e0
    unfold BBMap.Sorted at hm ih ⊢
    rw [List.pairwise_cons] at hm
    simp only [BBMap.assign]
    split_ifs with h1 h2
    · rw [List.pairwise_cons]
      refine ⟨?_, List.pairwise_cons.2 hm⟩
      intro e he
      rcases List.mem_cons.1 he with h | h
      · subst h; exact h1
      · exact lt_trans h1 (hm.1 e h)
    · subst h2
      rw [List.pairwise_cons]
      exact ⟨hm.1, hm.2⟩
    · rw [List.pairwise_cons]
      refine ⟨?_, ih hm.2⟩
      intro e he
      rcases mem_assign_imp t k v e he with h | h
      · subst h
        exact lt_of_le_of_ne (not_lt.1 h1) (fun h => h2 h.symm)
      · exact hm.1 e h

theorem mem_iff_lookup (m : BBMap) (hm : BBMap.Sorted m) (a : Addr) (i : Int) :
    (a, i) ∈ m ↔ m.lookup a = some i := by
  induction m with
  | nil => simp [List.lookup]
  | cons e0 t ih =>
    obtain ⟨k0, v0⟩ := e0
    unfold BBMap.Sorted at hm ih
    rw [List.pairwise_cons] at hm
    simp only [List.lookup, List.mem_cons, Prod.mk.injEq]
    by_cases hk : a = k0
    · subst hk
      simp only [beq_self_eq_true, true_and, Option.some.injEq]
      constructor
      · rintro (h | h)
        · exact h.symm
        · exact absurd (hm.1 _ h) (lt_irrefl _)
      · intro h; exact Or.inl h.symm
    · have hb : (a == k0) = false := by simpa using hk
      simp only [hb, hk, false_and, false_or]
      exact ih hm.2

theorem mem_switchCases (m : BBMap) (hm : BBMap.Sorted m) (a : Addr) (i : Int) :
    (i, a) ∈ switchCases m ↔ m.lookup a = some i ∧ i ≠ 0 := by
  rw [← mem_iff_lookup m hm]
  simp only [switchCases, List.mem_map, List.mem_filter, Prod.mk.injEq, Prod.exists]
  constructor
  · rintro ⟨a', i', ⟨hmem, hne⟩, rfl, rfl⟩
    exact ⟨hmem, by simpa using hne⟩
  · rintro ⟨hmem, hne⟩
    exact ⟨a, i, ⟨hmem, by simpa using hne⟩, rfl, rfl⟩

/-- C4 (early-outs): `runOnFunction` returns `false` exactly when the function has
one block, or its entry block ends in a return, or its entry terminator is
neither an unconditional nor a conditional branch; in every other case it
returns `true`.  The function is total: no early-out fails. -/
theorem runOnFunction_unchanged_iff {ι : Type} (newBB : Nat → Addr) (F : Function ι) :
    ((runOnFunction newBB F).1 = false ↔
      (F.blocks.length = 1 ∨ (∃ v, F.entry.term = .ret v) ∨
        ((∀ d, F.entry.term ≠ .br d) ∧ ∀ c t f, F.entry.term ≠ .condBr c t f))) ∧
    ((runOnFunction newBB F).1 = true ↔
      ¬ (F.blocks.length = 1 ∨ (∃ v, F.entry.term = .ret v) ∨
        ((∀ d, F.entry.term ≠ .br d) ∧ ∀ c t f, F.entry.term ≠ .condBr c t f))) := by
  have key : (runOnFunction newBB F).1 = false ↔
      (F.blocks.length = 1 ∨ (∃ v, F.entry.term = .ret v) ∨
        ((∀ d, F.entry.term ≠ .br d) ∧ ∀ c t f, F.entry.term ≠ .condBr c t f)) := by
    unfold runOnFunction
    simp only [Function.blocks, List.length_cons]
    by_cases h1 : F.rest.length + 1 = 1
    · simp [h1]
    · simp only [h1, if_false, false_or]
      cases hterm : F.entry.term <;> simp
  refine ⟨key, ?_⟩
  rw [← key]
  cases (runOnFunction newBB F).1 <;> simp

/-- C5 (all-or-nothing): when `runOnFunction` returns `false`, the function it
leaves has the same block list, the same instructions in every block and the
same terminators as before; the blocks after the entry block are identical, and
the entry block differs at most in its name, set to "entry" before the checks. -/
theorem runOnFunction_unchanged_frame {ι : Type} (newBB : Nat → Addr) (F : Function ι)
    (h : (runOnFunction newBB F).1 = false) :
    blockAddrs (runOnFunction newBB F).2.blocks = blockAddrs F.blocks ∧
    (runOnFunction newBB F).2.blocks.map (fun b => b.insts) = F.blocks.map (fun b => b.insts) ∧
    (runOnFunction newBB F).2.blocks.map (fun b => b.term) = F.blocks.map (fun b => b.term) ∧
    (runOnFunction newBB F).2.rest = F.rest ∧
    (runOnFunction newBB F).2.entry = { F.entry with name := "entry" } := by
  have key : (runOnFunction newBB F).2 = { F with entry := { F.entry with name := "entry" } } := by
    unfold runOnFunction at h ⊢
    by_cases h1 : F.rest.length + 1 = 1
    · simp [h1]
    · simp only [h1, if_false] at h ⊢
      cases hterm : F.entry.term <;> simp [hterm] at h ⊢
  rw [key]
  simp [Function.blocks, blockAddrs]

/-- Witness of C5: a one-block function is left with the same blocks, instructions
and terminators. -/
theorem runOnFunction_unchanged_frame_witness :
    blockAddrs (runOnFunction (newBBFrom 100) oneBlockFn).2.blocks = blockAddrs oneBlockFn.blocks ∧
    (runOnFunction (newBBFrom 100) oneBlockFn).2.blocks.map (fun b => b.insts) =
      oneBlockFn.blocks.map (fun b => b.insts) ∧
    (runOnFunction (newBBFrom 100) oneBlockFn).2.blocks.map (fun b => b.term) =
      oneBlockFn.blocks.map (fun b => b.term) ∧
    (runOnFunction (newBBFrom 100) oneBlockFn).2.rest = oneBlockFn.rest ∧
    (runOnFunction (newBBFrom 100) oneBlockFn).2.entry = { oneBlockFn.entry with name := "entry" } :=
  runOnFunction_unchanged_frame (newBBFrom 100) oneBlockFn (by decide)

/-- C6, counterexample: for `A` (entry, branch to `B`), `B` (return) the pass
returns `true` and the function is modified: `A` gets the slot, the encoded ID 2
and a branch to the new switch block; `A` no longer branches to `B`. -/
theorem two_block_scenario_is_flattened :
    runOnFunction (newBBFrom 100) twoBlockFn =
      (true,
        { entry := { addr := 1, name := "entry",
                     insts := .alloca :: insertOpaqueSwitchIndex 2 .slot, term := .br 100 },
          rest := [{ addr := 100, name := "switch", insts := [],
                     term := .switch (.load .slot) 100 [(2, 2), (1, 100)] },
                   { addr := 2, name := "B", insts := [], term := .ret none }] }) ∧
    (runOnFunction (newBBFrom 100) twoBlockFn).2.blocks.map (fun b => b.term) ≠
      twoBlockFn.blocks.map (fun b => b.term) := by
  decide

theorem nameBlock_addr {ι : Type} (b : BasicBlock ι) (n : Int) : (nameBlock b n).addr = b.addr := by
  unfold nameBlock; split_ifs <;> rfl

theorem nameBlock_insts {ι : Type} (b : BasicBlock ι) (n : Int) :
    (nameBlock b n).insts = b.insts := by
  unfold nameBlock; split_ifs <;> rfl

theorem nameBlock_term {ι : Type} (b : BasicBlock ι) (n : Int) : (nameBlock b n).term = b.term := by
  unfold nameBlock; split_ifs <;> rfl

theorem nameBlock_of_named {ι : Type} (b : BasicBlock ι) (n : Int) (h : b.name ≠ "") :
    nameBlock b n = b := by
  unfold nameBlock; rw [if_pos h]

theorem assignIDsFrom_fst {ι : Type} (l : List (BasicBlock ι)) (n : Int) (m : BBMap) :
    (assignIDsFrom l n m).1 = namedFrom l n := by
  induction l generalizing n m with
  | nil => rfl
  | cons b r ih => simp only [assignIDsFrom, namedFrom, ih]

theorem blockAddrs_namedFrom {ι : Type} (l : List (BasicBlock ι)) (n : Int) :
    blockAddrs (namedFrom l n) = blockAddrs l := by
  induction l generalizing n with
  | nil => rfl
  | cons b r ih =>
    simp only [namedFrom, blockAddrs, List.map_cons, nameBlock_addr] at ih ⊢
    rw [ih]

theorem namedFrom_length {ι : Type} (l : List (BasicBlock ι)) (n : Int) :
    (namedFrom l n).length = l.length := by
  induction l generalizing n with
  | nil => rfl
  | cons b r ih => simp [namedFrom, ih]

theorem sorted_assignIDsFrom {ι : Type} (l : List (BasicBlock ι)) (n : Int) (m : BBMap)
    (hm : BBMap.Sorted m) : BBMap.Sorted (assignIDsFrom l n m).2 := by
  induction l generalizing n m with
  | nil => exact hm
  | cons b r ih =>
    simp only [assignIDsFrom]
    exact ih _ _ (sorted_assign m b.addr n hm)

theorem lookup_assignIDsFrom {ι : Type} (l : List (BasicBlock ι)) (n : Int) (m : BBMap)
    (hnd : (blockAddrs l).Nodup) (a : Addr) :
    (assignIDsFrom l n m).2.lookup a =
      if a ∈ blockAddrs l then some (n + ((blockAddrs l).indexOf a : Nat)) else m.lookup a := by
  induction l generalizing n m with
  | nil => simp [assignIDsFrom, blockAddrs]
  | cons b r ih =>
    simp only [blockAddrs, List.map_cons, List.nodup_cons] at hnd
    simp only [assignIDsFrom, blockAddrs, List.map_cons, List.mem_cons]
    have ih' := ih (n + 1) (BBMap.assign m b.addr n) hnd.2
    simp only [blockAddrs] at ih'
    rw [ih']
    by_cases hab : a = b.addr
    · subst hab
      simp [hnd.1, lookup_assign_self]
    · have hne : b.addr ≠ a := fun h => hab h.symm
      by_cases har : a ∈ List.map (fun b => b.addr) r
      · simp only [har, if_true, or_true, List.indexOf_cons_ne _ hne]
        congr 1
        push_cast
        ring
      · simp only [har, hab, if_false, or_self]
        exact lookup_assign_ne m b.addr a n hab

theorem retargetLoop_nil {ι : Type} (newBB : Nat → Addr) (sw : Addr) (fuel : Nat)
    (st : LoopState ι) (h : st.todo = []) : retargetLoop newBB sw fuel st = st := by
  cases fuel with
  | zero => rfl
  | succ n => simp [retargetLoop, h]

theorem retargetLoop_cons {ι : Type} (newBB : Nat → Addr) (sw : Addr) (fuel : Nat)
    (st : LoopState ι) (b : BasicBlock ι) (r : List (BasicBlock ι)) (h : st.todo = b :: r) :
    retargetLoop newBB sw (fuel + 1) st =
      retargetLoop newBB sw fuel (retargetStep newBB sw st b r) := by
  simp [retargetLoop, h]

theorem retargetStep_skip {ι : Type} (newBB : Nat → Addr) (sw : Addr) (st : LoopState ι)
    (b : BasicBlock ι) (r : List (BasicBlock ι)) (h : b.addr ∈ st.BBSkip) :
    retargetStep newBB sw st b r = { st with done := st.done ++ [b], todo := r } := by
  simp [retargetStep, h]

/-- The retargeting loop on blocks none of which is in `BBSkip`: with three
iterations for each block it reaches the end of the block list, and leaves
`flatBlocks` in place of the blocks. -/
theorem retargetLoop_flat {ι : Type} (newBB : Nat → Addr) (ids : BBMap)
    (todo : List (BasicBlock ι)) :
    ∀ (fuel : Nat) (done : List (BasicBlock ι)) (skip : List Addr) (m : BBMap) (k : Nat),
      3 * todo.length ≤ fuel →
      (∀ b ∈ todo, b.addr ∉ skip) →
      (∀ j, ∀ b ∈ todo, newBB j ≠ b.addr) →
      (∀ a, idOf m a = idOf ids a) →
      (retargetLoop newBB (newBB 0) fuel
          { done := done, todo := todo, BBSkip := skip, BBMap := m, created := k }).done =
        done ++ flatBlocks newBB ids k todo ∧
      (retargetLoop newBB (newBB 0) fuel
          { done := done, todo := todo, BBSkip := skip, BBMap := m, created := k }).todo = [] := by
  induction todo with
  | nil =>
    intro fuel done skip m k _ _ _ _
    rw [retargetLoop_nil _ _ _ _ rfl]
    simp [flatBlocks]
  | cons b r ih =>
    intro fuel done skip m k hfuel hskip hfresh hids
    have hb : b.addr ∉ skip := hskip b (List.mem_cons_self _ _)
    have hskip' : ∀ b' ∈ r, b'.addr ∉ skip := fun b' hb' => hskip b' (List.mem_cons_of_mem _ hb')
    have hfresh' : ∀ j, ∀ b' ∈ r, newBB j ≠ b'.addr :=
      fun j b' hb' => hfresh j b' (List.mem_cons_of_mem _ hb')
    simp only [List.length_cons] at hfuel
    obtain ⟨f1, rfl⟩ : ∃ f1, fuel = f1 + 1 := ⟨fuel - 1, by omega⟩
    rw [retargetLoop_cons _ _ _ _ b r rfl]
    cases hterm : b.term with
    | condBr cond succ0 succ1 =>
      obtain ⟨f2, rfl⟩ : ∃ f2, f1 = f2 + 1 := ⟨f1 - 1, by omega⟩
      obtain ⟨f3, rfl⟩ : ∃ f3, f2 = f3 + 1 := ⟨f2 - 1, by omega⟩
      simp only [retargetStep, hb, if_false, hterm]
      rw [retargetLoop_cons _ _ _ _ _ _ rfl, retargetStep_skip _ _ _ _ _ (by simp),
        retargetLoop_cons _ _ _ _ _ _ rfl, retargetStep_skip _ _ _ _ _ (by simp)]
      have hskip2 : ∀ b' ∈ r, b'.addr ∉ skip ++ [newBB (k + 1), newBB k] := by
        intro b' hb' hmem
        rcases List.mem_append.1 hmem with h | h
        · exact hskip' b' hb' h
        · simp only [List.mem_cons, List.mem_singleton, List.not_mem_nil, or_false] at h
          rcases h with h | h
          · exact hfresh' _ b' hb' h.symm
          · exact hfresh' _ b' hb' h.symm
      have hids2 : ∀ a, idOf (BBMap.index (BBMap.index m succ0).2 succ1).2 a = idOf ids a := by
        intro a; rw [idOf_index, idOf_index, hids]
      have := ih f3 (done ++ [{ b with term := .condBr cond (newBB (k + 1)) (newBB k) }] ++
          [{ addr := newBB (k + 1), name := b.name ++ ".if.true",
             insts := insertOpaqueSwitchIndex (BBMap.index m succ0).1 .slot,
             term := .br (newBB 0) }] ++
          [{ addr := newBB k, name := b.name ++ ".if.cont",
             insts := insertOpaqueSwitchIndex (BBMap.index (BBMap.index m succ0).2 succ1).1 .slot,
             term := .br (newBB 0) }])
        (skip ++ [newBB (k + 1), newBB k]) (BBMap.index (BBMap.index m succ0).2 succ1).2
        (k + 2) (by omega) hskip2 hfresh' hids2
      refine ⟨?_, this.2⟩
      rw [this.1]
      simp only [flatBlocks, flatBlock, hterm, createdFor, index_fst, idOf_index, hids,
        List.append_assoc, List.cons_append, List.nil_append]
    | br succ0 =>
      simp only [retargetStep, hb, if_false, hterm]
      have hids2 : ∀ a, idOf (BBMap.index m succ0).2 a = idOf ids a := by
        intro a; rw [idOf_index, hids]
      have := ih f1 (done ++ [{ b with
          insts := b.insts ++ insertOpaqueSwitchIndex (BBMap.index m succ0).1 .slot,
          term := .br (newBB 0) }]) skip (BBMap.index m succ0).2 k (by omega) hskip' hfresh' hids2
      refine ⟨?_, this.2⟩
      rw [this.1]
      simp only [flatBlocks, flatBlock, hterm, createdFor, index_fst, hids,
        List.append_assoc, List.cons_append, List.nil_append, Nat.add_zero]
    | ret v =>
      simp only [retargetStep, hb, if_false, hterm]
      have := ih f1 (done ++ [b]) skip m k (by omega) hskip' hfresh' hids
      refine ⟨?_, this.2⟩
      rw [this.1]
      simp only [flatBlocks, flatBlock, hterm, createdFor,
        List.append_assoc, List.cons_append, List.nil_append, Nat.add_zero]
    | switch v d cs =>
      simp only [retargetStep, hb, if_false, hterm]
      have := ih f1 (done ++ [b]) skip m k (by omega) hskip' hfresh' hids
      refine ⟨?_, this.2⟩
      rw [this.1]
      simp only [flatBlocks, flatBlock, hterm, createdFor,
        List.append_assoc, List.cons_append, List.nil_append, Nat.add_zero]
    | unreachable =>
      simp only [retargetStep, hb, if_false, hterm]
      have := ih f1 (done ++ [b]) skip m k (by omega) hskip' hfresh' hids
      refine ⟨?_, this.2⟩
      rw [this.1]
      simp only [flatBlocks, flatBlock, hterm, createdFor,
        List.append_assoc, List.cons_append, List.nil_append, Nat.add_zero]

theorem assignedIDs_fst_drop {ι : Type} (newBB : Nat → Addr) (F : Function ι) :
    (assignedIDs newBB F).1.drop 2 = namedFrom F.rest 2 := by
  simp only [assignedIDs, assignIDToBasicBlocks, assignIDsFrom_fst, namedFrom, List.drop_succ_cons,
    List.drop_zero]
  rfl

theorem not_mem_rest_of_fresh {ι : Type} (newBB : Nat → Addr) (F : Function ι)
    (hf : FreshFor newBB F) (j : Nat) : ∀ b ∈ namedFrom F.rest 2, newBB j ≠ b.addr := by
  intro b hb h
  apply hf.2 j
  have : b.addr ∈ blockAddrs (namedFrom F.rest 2) := List.mem_map_of_mem _ hb
  rw [blockAddrs_namedFrom] at this
  rw [h]
  exact List.mem_cons_of_mem _ this

theorem entry_ne_rest {ι : Type} (F : Function ι) (hwf : F.WellFormed) :
    ∀ b ∈ namedFrom F.rest 2, b.addr ≠ F.entry.addr := by
  intro b hb h
  have hmem : b.addr ∈ blockAddrs (namedFrom F.rest 2) := List.mem_map_of_mem _ hb
  rw [blockAddrs_namedFrom] at hmem
  unfold Function.WellFormed Function.blocks blockAddrs at hwf
  rw [List.map_cons, List.nodup_cons] at hwf
  exact hwf.1 (h ▸ hmem)

/-- The function the pass leaves, once past the early-outs, is the block list
`flattened`. -/
theorem runOnFunction_blocks {ι : Type} (newBB : Nat → Addr) (F : Function ι)
    (hwf : F.WellFormed) (hf : FreshFor newBB F) (hacc : Accepted F) :
    (runOnFunction newBB F).1 = true ∧ (runOnFunction newBB F).2.blocks = flattened newBB F := by
  obtain ⟨hrest, hterm⟩ := hacc
  have hlen : ¬ (F.rest.length + 1 = 1) := by
    intro h
    exact hrest (List.length_eq_zero.1 (by omega))
  have hfr := not_mem_rest_of_fresh newBB F hf
  have hne := entry_ne_rest F hwf
  unfold runOnFunction
  simp only [hlen, if_false]
  rcases hterm with ⟨d, hd⟩ | ⟨c, t, f, hc⟩
  · simp only [hd, true_and]
    unfold retargetAll lowerEntryBr
    simp only [List.length_cons]
    have e : 3 * (((assignedIDs newBB F).1.drop 2).length + 1 + 1) =
        3 * (((assignedIDs newBB F).1.drop 2).length + 1) + 1 + 1 + 1 := by ring
    rw [e, retargetLoop_cons _ _ _ _ _ _ rfl, retargetStep_skip _ _ _ _ _ (by simp [splitEntry]),
      retargetLoop_cons _ _ _ _ _ _ rfl,
      retargetStep_skip _ _ _ _ _ (by simp [buildSwitch, splitSwitch])]
    have hskip : ∀ b ∈ (assignedIDs newBB F).1.drop 2, b.addr ∉ [F.entry.addr, newBB 0] := by
      rw [assignedIDs_fst_drop]
      intro b hb hmem
      simp only [List.mem_cons, List.mem_singleton, List.not_mem_nil, or_false] at hmem
      rcases hmem with h | h
      · exact hne b hb h
      · exact hfr 0 b hb h.symm
    have hfresh : ∀ j, ∀ b ∈ (assignedIDs newBB F).1.drop 2, newBB j ≠ b.addr := by
      rw [assignedIDs_fst_drop]; exact hfr
    have key := retargetLoop_flat newBB (assignedIDs newBB F).2 ((assignedIDs newBB F).1.drop 2)
      (3 * (((assignedIDs newBB F).1.drop 2).length + 1) + 1)
      ([] ++ [{ splitEntry newBB F with
          insts := (splitEntry newBB F).insts ++
            insertOpaqueSwitchIndex (BBMap.index (assignedIDs newBB F).2 d).1 .slot }] ++
        [buildSwitch newBB F (BBMap.index (assignedIDs newBB F).2 d).2])
      [F.entry.addr, newBB 0] (BBMap.index (assignedIDs newBB F).2 d).2 1 (by omega) hskip hfresh
      (fun a => idOf_index _ _ _)
    unfold LoopState.toFunction
    rw [key.1, key.2]
    simp only [List.nil_append, List.append_nil, List.cons_append, Function.blocks, flattened,
      flatEntry, hd, index_fst, assignedIDs_fst_drop, createdFor, buildSwitch, switchCases_index,
      Nat.add_zero]
  · simp only [hc, true_and]
    unfold retargetAll lowerEntryCond
    simp only [List.length_cons]
    have e : 3 * (((assignedIDs newBB F).1.drop 2).length + 1 + 1 + 1 + 1) =
        3 * ((assignedIDs newBB F).1.drop 2).length + 8 + 1 + 1 + 1 + 1 := by ring
    rw [e, retargetLoop_cons _ _ _ _ _ _ rfl, retargetStep_skip _ _ _ _ _ (by simp [splitEntry]),
      retargetLoop_cons _ _ _ _ _ _ rfl, retargetStep_skip _ _ _ _ _ (by simp),
      retargetLoop_cons _ _ _ _ _ _ rfl, retargetStep_skip _ _ _ _ _ (by simp),
      retargetLoop_cons _ _ _ _ _ _ rfl,
      retargetStep_skip _ _ _ _ _ (by simp [buildSwitch, splitSwitch])]
    have hskip : ∀ b ∈ (assignedIDs newBB F).1.drop 2,
        b.addr ∉ [F.entry.addr, newBB 0, newBB 2, newBB 1] := by
      rw [assignedIDs_fst_drop]
      intro b hb hmem
      simp only [List.mem_cons, List.mem_singleton, List.not_mem_nil, or_false] at hmem
      rcases hmem with h | h | h | h
      · exact hne b hb h
      · exact hfr 0 b hb h.symm
      · exact hfr 2 b hb h.symm
      · exact hfr 1 b hb h.symm
    have hfresh : ∀ j, ∀ b ∈ (assignedIDs newBB F).1.drop 2, newBB j ≠ b.addr := by
      rw [assignedIDs_fst_drop]; exact hfr
    have key := retargetLoop_flat newBB (assignedIDs newBB F).2 ((assignedIDs newBB F).1.drop 2)
      (3 * ((assignedIDs newBB F).1.drop 2).length + 8)
      ([] ++ [{ splitEntry newBB F with term := .condBr c (newBB 2) (newBB 1) }] ++
        [{ addr := newBB 2, name := "entry" ++ ".if.true",
           insts := insertOpaqueSwitchIndex (BBMap.index (assignedIDs newBB F).2 t).1 .slot,
           term := .br (newBB 0) }] ++
        [{ addr := newBB 1, name := "entry" ++ ".if.cont",
           insts := insertOpaqueSwitchIndex
             (BBMap.index (BBMap.index (assignedIDs newBB F).2 t).2 f).1 .slot,
           term := .br (newBB 0) }] ++
        [buildSwitch newBB F (BBMap.index (BBMap.index (assignedIDs newBB F).2 t).2 f).2])
      [F.entry.addr, newBB 0, newBB 2, newBB 1]
      (BBMap.index (BBMap.index (assignedIDs newBB F).2 t).2 f).2 3 (by omega) hskip hfresh
      (fun a => by rw [idOf_index, idOf_index])
    unfold LoopState.toFunction
    rw [key.1, key.2]
    simp only [List.nil_append, List.append_nil, List.cons_append, Function.blocks, flattened,
      flatEntry, hc, index_fst, idOf_index, assignedIDs_fst_drop, createdFor, buildSwitch,
      switchCases_index]

theorem blockAddrs_flatBlock {ι : Type} (newBB : Nat → Addr) (ids : BBMap) (k : Nat)
    (b : BasicBlock ι) :
    blockAddrs (flatBlock newBB ids k b) =
      b.addr :: (if createdFor b = 2 then [newBB (k + 1), newBB k] else []) := by
  unfold flatBlock createdFor blockAddrs
  cases b.term <;> simp

theorem createdFor_le {ι : Type} (b : BasicBlock ι) : createdFor b = 0 ∨ createdFor b = 2 := by
  unfold createdFor
  cases b.term <;> simp

theorem mem_blockAddrs_flatBlocks {ι : Type} (newBB : Nat → Addr) (ids : BBMap)
    (l : List (BasicBlock ι)) : ∀ (k : Nat) (a : Addr),
      a ∈ blockAddrs (flatBlocks newBB ids k l) →
      a ∈ blockAddrs l ∨ ∃ j, k ≤ j ∧ a = newBB j := by
  induction l with
  | nil => intro k a h; simp [flatBlocks, blockAddrs] at h
  | cons b r ih =>
    intro k a h
    simp only [flatBlocks, blockAddrs, List.map_append, List.mem_append] at h
    rcases h with h | h
    · have h' : a ∈ blockAddrs (flatBlock newBB ids k b) := h
      rw [blockAddrs_flatBlock] at h'
      rcases List.mem_cons.1 h' with h1 | h1
      · left; rw [h1]; exact List.mem_cons_self _ _
      · right
        split_ifs at h1 with hc
        · simp only [List.mem_cons, List.mem_singleton, List.not_mem_nil, or_false] at h1
          rcases h1 with h1 | h1
          · exact ⟨k + 1, by omega, h1⟩
          · exact ⟨k, le_refl _, h1⟩
        · simp at h1
    · rcases ih _ a h with h1 | ⟨j, hj, h1⟩
      · left; exact List.mem_cons_of_mem _ h1
      · right; exact ⟨j, by omega, h1⟩

theorem nodup_blockAddrs_flatBlocks {ι : Type} (newBB : Nat → Addr) (ids : BBMap)
    (hinj : ∀ i j, newBB i = newBB j → i = j) (l : List (BasicBlock ι)) :
    ∀ (k : Nat), (blockAddrs l).Nodup → (∀ j, newBB j ∉ blockAddrs l) →
      (blockAddrs (flatBlocks newBB ids k l)).Nodup := by
  induction l with
  | nil => intro k _ _; simp [flatBlocks, blockAddrs]
  | cons b r ih =>
    intro k hnd hfr
    have hnd' : b.addr ∉ blockAddrs r ∧ (blockAddrs r).Nodup := by
      simpa [blockAddrs] using hnd
    have hfr' : ∀ j, newBB j ∉ blockAddrs r := fun j h => hfr j (List.mem_cons_of_mem _ h)
    have hb : ∀ j, newBB j ≠ b.addr := fun j h => hfr j (h ▸ List.mem_cons_self _ _)
    have ihr := ih (k + createdFor b) hnd'.2 hfr'
    have hsplit : blockAddrs (flatBlocks newBB ids k (b :: r)) =
        blockAddrs (flatBlock newBB ids k b) ++
          blockAddrs (flatBlocks newBB ids (k + createdFor b) r) := by
      simp [flatBlocks, blockAddrs]
    rw [hsplit, blockAddrs_flatBlock]
    have hmem := mem_blockAddrs_flatBlocks newBB ids r (k + createdFor b)
    have hbr : b.addr ∉ blockAddrs (flatBlocks newBB ids (k + createdFor b) r) := by
      intro h
      rcases hmem _ h with h1 | ⟨j, _, h1⟩
      · exact hnd'.1 h1
      · exact hb j h1.symm
    rcases createdFor_le b with hc | hc
    · simp only [hc]
      simp only [show (0 : Nat) ≠ 2 by decide, if_false, List.singleton_append, List.nodup_cons]
      rw [hc] at hbr ihr
      exact ⟨hbr, ihr⟩
    · rw [hc] at hbr ihr hmem
      simp only [hc, if_true, List.cons_append, List.nil_append, List.nodup_cons, List.mem_cons,
        not_or]
      have hk1 : newBB (k + 1) ∉ blockAddrs (flatBlocks newBB ids (k + 2) r) := by
        intro h
        rcases hmem _ h with h1 | ⟨j, hj, h1⟩
        · exact hfr' _ h1
        · have := hinj _ _ h1; omega
      have hk0 : newBB k ∉ blockAddrs (flatBlocks newBB ids (k + 2) r) := by
        intro h
        rcases hmem _ h with h1 | ⟨j, hj, h1⟩
        · exact hfr' _ h1
        · have := hinj _ _ h1; omega
      refine ⟨⟨fun h => hb _ h.symm, fun h => hb _ h.symm, hbr⟩, ⟨?_, hk1⟩, hk0, ihr⟩
      intro h
      have := hinj _ _ h
      omega

theorem blockAddrs_flatEntry {ι : Type} (newBB : Nat → Addr) (F : Function ι) (hacc : Accepted F) :
    blockAddrs (flatEntry newBB F) =
      F.entry.addr :: (if createdFor F.entry = 2 then [newBB 2, newBB 1] else []) := by
  obtain ⟨_, ⟨d, hd⟩ | ⟨c, t, f, hc⟩⟩ := hacc
  · simp [flatEntry, hd, blockAddrs, createdFor, splitEntry]
  · simp [flatEntry, hc, blockAddrs, createdFor, splitEntry]

/-- The blocks of the flattened function have pairwise distinct addresses. -/
theorem nodup_blockAddrs_flattened {ι : Type} (newBB : Nat → Addr) (F : Function ι)
    (hwf : F.WellFormed) (hf : FreshFor newBB F) (hacc : Accepted F) :
    (blockAddrs (flattened newBB F)).Nodup := by
  obtain ⟨hinj, hfr⟩ := hf
  have hnd : F.entry.addr ∉ blockAddrs F.rest ∧ (blockAddrs F.rest).Nodup := by
    simpa [Function.WellFormed, Function.blocks, blockAddrs] using hwf
  have hfr' : ∀ j, newBB j ∉ blockAddrs (namedFrom F.rest 2) := by
    intro j h
    rw [blockAddrs_namedFrom] at h
    exact hfr j (List.mem_cons_of_mem _ h)
  have he : ∀ j, newBB j ≠ F.entry.addr := fun j h => hfr j (h ▸ List.mem_cons_self _ _)
  have hnd2 : (blockAddrs (namedFrom F.rest 2)).Nodup := by
    rw [blockAddrs_namedFrom]; exact hnd.2
  have hrest := nodup_blockAddrs_flatBlocks newBB (assignedIDs newBB F).2 hinj
    (namedFrom F.rest 2) (1 + createdFor F.entry) hnd2 hfr'
  have hmem := mem_blockAddrs_flatBlocks newBB (assignedIDs newBB F).2 (namedFrom F.rest 2)
    (1 + createdFor F.entry)
  have hsplit : blockAddrs (flattened newBB F) =
      blockAddrs (flatEntry newBB F) ++ newBB 0 ::
        blockAddrs (flatBlocks newBB (assignedIDs newBB F).2 (1 + createdFor F.entry)
          (namedFrom F.rest 2)) := by
    simp [flattened, blockAddrs, buildSwitch, splitSwitch]
  rw [hsplit, blockAddrs_flatEntry newBB F hacc]
  have hent : F.entry.addr ∉ blockAddrs (flatBlocks newBB (assignedIDs newBB F).2
      (1 + createdFor F.entry) (namedFrom F.rest 2)) := by
    intro h
    rcases hmem _ h with h1 | ⟨j, _, h1⟩
    · rw [blockAddrs_namedFrom] at h1; exact hnd.1 h1
    · exact he j h1.symm
  have hnew : ∀ i, i < 1 + createdFor F.entry →
      newBB i ∉ blockAddrs (flatBlocks newBB (assignedIDs newBB F).2
        (1 + createdFor F.entry) (namedFrom F.rest 2)) := by
    intro i hi h
    rcases hmem _ h with h1 | ⟨j, hj, h1⟩
    · exact hfr' _ h1
    · have := hinj _ _ h1; omega
  rcases createdFor_le F.entry with hc | hc
  · rw [hc] at hnew hent hrest
    simp only [hc, show (0 : Nat) ≠ 2 by decide, if_false, List.cons_append, List.nil_append,
      List.nodup_cons, List.mem_cons, not_or]
    exact ⟨⟨fun h => he 0 h.symm, hent⟩, hnew 0 (by omega), hrest⟩
  · rw [hc] at hnew hent hrest
    simp only [hc, if_true, List.cons_append, List.nil_append, List.nodup_cons, List.mem_cons,
      not_or]
    refine ⟨⟨fun h => he _ h.symm, fun h => he _ h.symm, fun h => he _ h.symm, hent⟩,
      ⟨?_, ?_, hnew 2 (by omega)⟩, ⟨?_, hnew 1 (by omega)⟩, hnew 0 (by omega), hrest⟩
    · intro h; have := hinj _ _ h; omega
    · intro h; have := hinj _ _ h; omega
    · intro h; have := hinj _ _ h; omega

theorem find_of_mem_nodup {ι : Type} (l : List (BasicBlock ι)) (hnd : (blockAddrs l).Nodup)
    (b : BasicBlock ι) (hb : b ∈ l) : l.find? (fun x => x.addr = b.addr) = some b := by
  induction l with
  | nil => simp at hb
  | cons x r ih =>
    have hnd' : x.addr ∉ blockAddrs r ∧ (blockAddrs r).Nodup := by
      simpa [blockAddrs] using hnd
    rcases List.mem_cons.1 hb with h | h
    · subst h; simp
    · have hne : x.addr ≠ b.addr := by
        intro he
        exact hnd'.1 (he ▸ List.mem_map_of_mem _ h)
      simp only [List.find?, hne, decide_False]
      exact ih hnd'.2 h

theorem nodup_addrsAtAssign {ι : Type} (newBB : Nat → Addr) (F : Function ι)
    (hwf : F.WellFormed) (hf : FreshFor newBB F) : (addrsAtAssign newBB F).Nodup := by
  have hnd : F.entry.addr ∉ blockAddrs F.rest ∧ (blockAddrs F.rest).Nodup := by
    simpa [Function.WellFormed, Function.blocks, blockAddrs] using hwf
  have h0 := hf.2 0
  simp only [Function.blocks, blockAddrs, List.map_cons, List.mem_cons, not_or] at h0
  simp only [addrsAtAssign, List.nodup_cons, List.mem_cons, not_or]
  exact ⟨⟨fun h => h0.1 h.symm, hnd.1⟩, h0.2, hnd.2⟩

/-- The map of `assignIDToBasicBlocks`: a block of the list at line 120 is mapped
to its position in that list, no other address is a key. -/
theorem lookup_assignedIDs {ι : Type} (newBB : Nat → Addr) (F : Function ι)
    (hwf : F.WellFormed) (hf : FreshFor newBB F) (a : Addr) :
    (assignedIDs newBB F).2.lookup a =
      if a ∈ addrsAtAssign newBB F then some (((addrsAtAssign newBB F).indexOf a : Nat) : Int)
      else none := by
  have h := lookup_assignIDsFrom
    ({ F.entry with name := "entry", term := .br (newBB 0) } :: splitSwitch newBB F :: F.rest)
    0 [] (by simpa [blockAddrs, splitSwitch, addrsAtAssign] using nodup_addrsAtAssign newBB F hwf hf) a
  have hl : blockAddrs
      ({ F.entry with name := "entry", term := .br (newBB 0) } :: splitSwitch newBB F :: F.rest) =
      addrsAtAssign newBB F := by
    simp [blockAddrs, splitSwitch, addrsAtAssign]
  rw [hl] at h
  simp only [assignedIDs, assignIDToBasicBlocks, h, zero_add]
  rfl

theorem sorted_assignedIDs {ι : Type} (newBB : Nat → Addr) (F : Function ι) :
    BBMap.Sorted (assignedIDs newBB F).2 :=
  sorted_assignIDsFrom _ _ _ (by simp [BBMap.Sorted])

theorem mem_assignedIDs {ι : Type} (newBB : Nat → Addr) (F : Function ι)
    (hwf : F.WellFormed) (hf : FreshFor newBB F) (a : Addr) (i : Int) :
    (a, i) ∈ (assignedIDs newBB F).2 ↔
      a ∈ addrsAtAssign newBB F ∧ i = (((addrsAtAssign newBB F).indexOf a : Nat) : Int) := by
  rw [mem_iff_lookup _ (sorted_assignedIDs newBB F), lookup_assignedIDs newBB F hwf hf]
  by_cases h : a ∈ addrsAtAssign newBB F
  · simp only [h, if_true, Option.some.injEq, true_and]
    exact eq_comm
  · simp [h]

theorem idOf_assignedIDs {ι : Type} (newBB : Nat → Addr) (F : Function ι)
    (hwf : F.WellFormed) (hf : FreshFor newBB F) (a : Addr) (h : a ∈ addrsAtAssign newBB F) :
    idOf (assignedIDs newBB F).2 a = (((addrsAtAssign newBB F).indexOf a : Nat) : Int) := by
  simp [idOf, lookup_assignedIDs newBB F hwf hf, h]

theorem idOf_rest {ι : Type} (newBB : Nat → Addr) (F : Function ι)
    (hwf : F.WellFormed) (hf : FreshFor newBB F) (a : Addr) (h : a ∈ blockAddrs F.rest) :
    idOf (assignedIDs newBB F).2 a = (((blockAddrs F.rest).indexOf a + 2 : Nat) : Int) := by
  have hnd := nodup_addrsAtAssign newBB F hwf hf
  have hmem : a ∈ addrsAtAssign newBB F := by
    simp [addrsAtAssign, h]
  rw [idOf_assignedIDs newBB F hwf hf a hmem]
  simp only [addrsAtAssign, List.nodup_cons, List.mem_cons, not_or] at hnd
  have h1 : F.entry.addr ≠ a := fun e => hnd.1.2 (e ▸ h)
  have h2 : newBB 0 ≠ a := fun e => hnd.2.1 (e ▸ h)
  simp only [addrsAtAssign, List.indexOf_cons_ne _ h1, List.indexOf_cons_ne _ h2]

theorem switchCases_values_nodup {ι : Type} (newBB : Nat → Addr) (F : Function ι)
    (hwf : F.WellFormed) (hf : FreshFor newBB F) :
    ((switchCases (assignedIDs newBB F).2).map Prod.fst).Nodup := by
  have hs := sorted_assignedIDs newBB F
  have hnd : (assignedIDs newBB F).2.Nodup := by
    unfold BBMap.Sorted at hs
    exact hs.imp (fun {a b} h e => by rw [e] at h; exact lt_irrefl _ h)
  unfold switchCases
  rw [List.map_map]
  apply List.Nodup.map_on _ (hnd.filter _)
  intro x hx y hy hxy
  obtain ⟨a, i⟩ := x
  obtain ⟨a', i'⟩ := y
  simp only [Function.comp] at hxy
  have hx' := (mem_assignedIDs newBB F hwf hf a i).1 (List.mem_of_mem_filter hx)
  have hy' := (mem_assignedIDs newBB F hwf hf a' i').1 (List.mem_of_mem_filter hy)
  have hidx : (addrsAtAssign newBB F).indexOf a = (addrsAtAssign newBB F).indexOf a' := by
    have : i = i' := hxy
    rw [hx'.2, hy'.2] at this
    exact_mod_cast this
  have haa : a = a' := (List.indexOf_inj hx'.1 hy'.1).1 hidx
  subst haa
  have : i = i' := hxy
  subst this
  rfl

theorem switch_mem_flattened {ι : Type} (newBB : Nat → Addr) (F : Function ι) :
    buildSwitch newBB F (assignedIDs newBB F).2 ∈ flattened newBB F := by
  simp [flattened]

theorem findBlock_of_mem {ι : Type} (newBB : Nat → Addr) (F : Function ι)
    (hwf : F.WellFormed) (hf : FreshFor newBB F) (hacc : Accepted F) (b : BasicBlock ι)
    (hb : b ∈ flattened newBB F) : findBlock (runOnFunction newBB F).2 b.addr = some b := by
  unfold findBlock
  rw [(runOnFunction_blocks newBB F hwf hf hacc).2]
  exact find_of_mem_nodup _ (nodup_blockAddrs_flattened newBB F hwf hf hacc) b hb

theorem findBlock_switch {ι : Type} (newBB : Nat → Addr) (F : Function ι)
    (hwf : F.WellFormed) (hf : FreshFor newBB F) (hacc : Accepted F) :
    findBlock (runOnFunction newBB F).2 (newBB 0) =
      some (buildSwitch newBB F (assignedIDs newBB F).2) :=
  findBlock_of_mem newBB F hwf hf hacc _ (switch_mem_flattened newBB F)

theorem freshFor_newBBFrom {ι : Type} (base : Nat) (F : Function ι)
    (h : ∀ a ∈ blockAddrs F.blocks, a < base) : FreshFor (newBBFrom base) F := by
  refine ⟨fun i j hij => ?_, fun k hk => ?_⟩
  · simpa [newBBFrom] using hij
  · have hlt : (base + k : Nat) < base := h _ hk
    exact absurd hlt (by simp)

theorem twoBlockFn_wellFormed : twoBlockFn.WellFormed := by
  unfold Function.WellFormed; decide

theorem twoBlockFn_fresh : FreshFor (newBBFrom 100) twoBlockFn :=
  freshFor_newBBFrom 100 twoBlockFn (by decide)

theorem twoBlockFn_accepted : Accepted twoBlockFn :=
  ⟨by decide, Or.inl ⟨2, rfl⟩⟩

theorem diamondFn_wellFormed : diamondFn.WellFormed := by
  unfold Function.WellFormed; decide

theorem diamondFn_fresh : FreshFor (newBBFrom 100) diamondFn :=
  freshFor_newBBFrom 100 diamondFn (by decide)

theorem diamondFn_accepted : Accepted diamondFn :=
  ⟨by decide, Or.inr ⟨_, _, _, rfl⟩⟩

/-- C8 (dispatch cases): after a successful run the block at the switch address is
the switch block, whose cases are exactly the pairs `(ID(b), b)` of the map
filled by `assignIDToBasicBlocks` with a nonzero ID: one case for each such ID
(no case value occurs twice), the case with value `ID(b)` targets `b`, and no
case has the value 0.  The map pairs each block of the list at line 120 with
its position in that list. -/
theorem dispatch_cases {ι : Type} (newBB : Nat → Addr) (F : Function ι)
    (hwf : F.WellFormed) (hf : FreshFor newBB F) (hacc : Accepted F) :
    ∃ cases : List (Int × Addr),
      findBlock (runOnFunction newBB F).2 (newBB 0) =
        some { addr := newBB 0, name := "switch", insts := [],
               term := .switch (.load .slot) (newBB 0) cases } ∧
      (∀ i a, (i, a) ∈ cases ↔ (a, i) ∈ (assignedIDs newBB F).2 ∧ i ≠ 0) ∧
      (cases.map Prod.fst).Nodup ∧
      (∀ a, ((0 : Int), a) ∉ cases) ∧
      (∀ a i, (a, i) ∈ (assignedIDs newBB F).2 ↔
        a ∈ addrsAtAssign newBB F ∧ i = (((addrsAtAssign newBB F).indexOf a : Nat) : Int)) := by
  refine ⟨switchCases (assignedIDs newBB F).2, ?_, ?_, ?_, ?_, ?_⟩
  · exact findBlock_switch newBB F hwf hf hacc
  · intro i a
    rw [mem_switchCases _ (sorted_assignedIDs newBB F), mem_iff_lookup _ (sorted_assignedIDs newBB F)]
  · exact switchCases_values_nodup newBB F hwf hf
  · intro a h
    exact ((mem_switchCases _ (sorted_assignedIDs newBB F) a 0).1 h).2 rfl
  · exact mem_assignedIDs newBB F hwf hf

/-- Witness of C8 on the diamond: its switch has the four cases of the IDs 1 to 4. -/
theorem dispatch_cases_witness :
    ∃ cases : List (Int × Addr),
      findBlock (runOnFunction (newBBFrom 100) diamondFn).2 (newBBFrom 100 0) =
        some { addr := newBBFrom 100 0, name := "switch", insts := [],
               term := .switch (.load .slot) (newBBFrom 100 0) cases } ∧
      (∀ i a, (i, a) ∈ cases ↔ (a, i) ∈ (assignedIDs (newBBFrom 100) diamondFn).2 ∧ i ≠ 0) ∧
      (cases.map Prod.fst).Nodup ∧
      (∀ a, ((0 : Int), a) ∉ cases) ∧
      (∀ a i, (a, i) ∈ (assignedIDs (newBBFrom 100) diamondFn).2 ↔
        a ∈ addrsAtAssign (newBBFrom 100) diamondFn ∧
          i = (((addrsAtAssign (newBBFrom 100) diamondFn).indexOf a : Nat) : Int)) :=
  dispatch_cases (newBBFrom 100) diamondFn diamondFn_wellFormed diamondFn_fresh diamondFn_accepted

/-- C9, counterexample: in the flattened two-block function the default edge of
the switch targets the switch block itself (address 100), whose ID is 1, while
the block with ID 0 is the entry block (address 1). -/
theorem default_edge_not_id_zero :
    findBlock (runOnFunction (newBBFrom 100) twoBlockFn).2 100 =
      some { addr := 100, name := "switch", insts := [],
             term := .switch (.load .slot) 100 [(2, 2), (1, 100)] } ∧
    (assignedIDs (newBBFrom 100) twoBlockFn).2 = [(1, 0), (2, 2), (100, 1)] ∧
    idOf (assignedIDs (newBBFrom 100) twoBlockFn).2 100 = 1 ∧
    idOf (assignedIDs (newBBFrom 100) twoBlockFn).2 1 = 0 := by
  decide

/-- C9, amended: after a successful run the default edge of the switch targets the
switch block itself, whose ID is 1; the block whose ID is 0 is the entry block,
which is distinct from the switch block and is the target of no case. -/
theorem default_edge_is_dispatch {ι : Type} (newBB : Nat → Addr) (F : Function ι)
    (hwf : F.WellFormed) (hf : FreshFor newBB F) (hacc : Accepted F) :
    ∃ cases : List (Int × Addr),
      findBlock (runOnFunction newBB F).2 (newBB 0) =
        some { addr := newBB 0, name := "switch", insts := [],
               term := .switch (.load .slot) (newBB 0) cases } ∧
      (newBB 0, (1 : Int)) ∈ (assignedIDs newBB F).2 ∧
      (∀ a, (a, (0 : Int)) ∈ (assignedIDs newBB F).2 ↔ a = F.entry.addr) ∧
      newBB 0 ≠ F.entry.addr ∧
      ∀ c ∈ cases, c.2 ≠ F.entry.addr := by
  have hnd := nodup_addrsAtAssign newBB F hwf hf
  have hne : F.entry.addr ≠ newBB 0 := by
    simp only [addrsAtAssign, List.nodup_cons, List.mem_cons, not_or] at hnd
    exact hnd.1.1
  have hzero : ∀ a, (a, (0 : Int)) ∈ (assignedIDs newBB F).2 ↔ a = F.entry.addr := by
    intro a
    rw [mem_assignedIDs newBB F hwf hf]
    constructor
    · rintro ⟨hmem, hidx⟩
      have h0 : (addrsAtAssign newBB F).indexOf a = 0 := by exact_mod_cast hidx.symm
      by_contra hcon
      have : (addrsAtAssign newBB F).indexOf a =
          ((newBB 0 :: blockAddrs F.rest).indexOf a) + 1 := by
        simp only [addrsAtAssign]
        exact List.indexOf_cons_ne _ (fun e => hcon e.symm)
      omega
    · rintro rfl
      simp [addrsAtAssign]
  refine ⟨switchCases (assignedIDs newBB F).2, findBlock_switch newBB F hwf hf hacc, ?_, hzero,
    fun h => hne h.symm, ?_⟩
  · rw [mem_assignedIDs newBB F hwf hf]
    refine ⟨by simp [addrsAtAssign], ?_⟩
    simp only [addrsAtAssign, List.indexOf_cons_ne _ hne, List.indexOf_cons_self]
    rfl
  · rintro ⟨i, a⟩ hc hca
    have h := (mem_switchCases _ (sorted_assignedIDs newBB F) a i).1 hc
    rw [← mem_iff_lookup _ (sorted_assignedIDs newBB F)] at h
    simp only at hca
    subst hca
    have hi : i = 0 := by
      have := (mem_assignedIDs newBB F hwf hf F.entry.addr i).1 h.1
      rw [this.2]
      simp [addrsAtAssign]
    exact h.2 hi

/-- Witness of the amended C9 on the two-block function. -/
theorem default_edge_is_dispatch_witness :
    ∃ cases : List (Int × Addr),
      findBlock (runOnFunction (newBBFrom 100) twoBlockFn).2 (newBBFrom 100 0) =
        some { addr := newBBFrom 100 0, name := "switch", insts := [],
               term := .switch (.load .slot) (newBBFrom 100 0) cases } ∧
      (newBBFrom 100 0, (1 : Int)) ∈ (assignedIDs (newBBFrom 100) twoBlockFn).2 ∧
      (∀ a, (a, (0 : Int)) ∈ (assignedIDs (newBBFrom 100) twoBlockFn).2 ↔
        a = twoBlockFn.entry.addr) ∧
      newBBFrom 100 0 ≠ twoBlockFn.entry.addr ∧
      ∀ c ∈ cases, c.2 ≠ twoBlockFn.entry.addr :=
  default_edge_is_dispatch (newBBFrom 100) twoBlockFn twoBlockFn_wellFormed twoBlockFn_fresh
    twoBlockFn_accepted

/-- C6, amended: for every two-block function `A` (entry, branch to `B`), `B`
(return), the pass returns `true` and leaves three blocks: `A`, named "entry",
with the slot alloca in front, the encoded ID 2 of `B` at its end and a branch
to the new switch block; the switch block, which loads the slot and has the
default target itself and the two cases 1 (itself) and 2 (`B`); and `B` with
its instructions and return unchanged. -/
theorem two_block_flattened {ι : Type} (newBB : Nat → Addr) (F : Function ι) (B : BasicBlock ι)
    (v : Option (Value ι)) (hrest : F.rest = [B]) (hA : F.entry.term = .br B.addr)
    (hB : B.term = .ret v) (hwf : F.WellFormed) (hf : FreshFor newBB F) :
    (runOnFunction newBB F).1 = true ∧
    ∃ cases : List (Int × Addr),
      (runOnFunction newBB F).2.blocks =
        [{ addr := F.entry.addr, name := "entry",
           insts := .alloca :: F.entry.insts ++ insertOpaqueSwitchIndex 2 .slot,
           term := .br (newBB 0) },
         { addr := newBB 0, name := "switch", insts := [],
           term := .switch (.load .slot) (newBB 0) cases },
         nameBlock B 2] ∧
      (∀ c, c ∈ cases ↔ c = (1, newBB 0) ∨ c = (2, B.addr)) ∧
      (cases.map Prod.fst).Nodup := by
  have hacc : Accepted F := ⟨by simp [hrest], Or.inl ⟨_, hA⟩⟩
  have hblocks := runOnFunction_blocks newBB F hwf hf hacc
  have hnd := nodup_addrsAtAssign newBB F hwf hf
  have haddrs : addrsAtAssign newBB F = [F.entry.addr, newBB 0, B.addr] := by
    simp [addrsAtAssign, hrest, blockAddrs]
  rw [haddrs] at hnd
  simp only [List.nodup_cons, List.mem_cons, List.mem_singleton, not_or, List.not_mem_nil,
    not_false_eq_true, List.nodup_nil, and_true] at hnd
  have hid : idOf (assignedIDs newBB F).2 B.addr = 2 := by
    rw [idOf_rest newBB F hwf hf B.addr (by simp [hrest, blockAddrs])]
    simp [hrest, blockAddrs]
  refine ⟨hblocks.1, switchCases (assignedIDs newBB F).2, ?_, ?_,
    switchCases_values_nodup newBB F hwf hf⟩
  · rw [hblocks.2]
    simp only [flattened, flatEntry, hA, hid, hrest, namedFrom, flatBlocks, flatBlock,
      nameBlock_term, hB, createdFor, buildSwitch, splitSwitch, splitEntry, List.append_nil,
      List.cons_append, List.nil_append, List.singleton_append]
  · rintro ⟨i, a⟩
    rw [mem_switchCases _ (sorted_assignedIDs newBB F),
      ← mem_iff_lookup _ (sorted_assignedIDs newBB F), mem_assignedIDs newBB F hwf hf, haddrs]
    simp only [List.mem_cons, List.mem_singleton, List.not_mem_nil, or_false, Prod.mk.injEq]
    constructor
    · rintro ⟨⟨h | h | h, hi⟩, hne⟩
      · subst h
        simp at hi
        exact absurd hi hne
      · subst h
        left
        rw [List.indexOf_cons_ne _ hnd.1.1] at hi
        simp at hi
        exact ⟨hi, rfl⟩
      · subst h
        right
        rw [List.indexOf_cons_ne _ hnd.1.2, List.indexOf_cons_ne _ hnd.2] at hi
        simp at hi
        exact ⟨hi, rfl⟩
    · rintro (⟨hi, ha⟩ | ⟨hi, ha⟩)
      · subst hi ha
        refine ⟨⟨Or.inr (Or.inl rfl), ?_⟩, by decide⟩
        rw [List.indexOf_cons_ne _ hnd.1.1]
        simp
      · subst hi ha
        refine ⟨⟨Or.inr (Or.inr rfl), ?_⟩, by decide⟩
        rw [List.indexOf_cons_ne _ hnd.1.2, List.indexOf_cons_ne _ hnd.2]
        simp

/-- Witness of the amended C6 on the two-block function of the scenario. -/
theorem two_block_flattened_witness :
    (runOnFunction (newBBFrom 100) twoBlockFn).1 = true ∧
    ∃ cases : List (Int × Addr),
      (runOnFunction (newBBFrom 100) twoBlockFn).2.blocks =
        [{ addr := twoBlockFn.entry.addr, name := "entry",
           insts := .alloca :: twoBlockFn.entry.insts ++ insertOpaqueSwitchIndex 2 .slot,
           term := .br (newBBFrom 100 0) },
         { addr := newBBFrom 100 0, name := "switch", insts := [],
           term := .switch (.load .slot) (newBBFrom 100 0) cases },
         nameBlock { addr := 2, name := "B", insts := [], term := .ret none } 2] ∧
      (∀ c, c ∈ cases ↔ c = (1, newBBFrom 100 0) ∨ c = (2, 2)) ∧
      (cases.map Prod.fst).Nodup :=
  two_block_flattened (newBBFrom 100) twoBlockFn
    { addr := 2, name := "B", insts := [], term := .ret none } none rfl rfl rfl
    twoBlockFn_wellFormed twoBlockFn_fresh

theorem flatEntry_eq {ι : Type} (newBB : Nat → Addr) (F : Function ι) (hacc : Accepted F) :
    flatEntry newBB F = flatBlock newBB (assignedIDs newBB F).2 1 (entryWithSlot F) := by
  obtain ⟨_, ⟨d, hd⟩ | ⟨c, t, f, hc⟩⟩ := hacc
  · simp [flatEntry, flatBlock, entryWithSlot, hd, splitEntry]
  · simp [flatEntry, flatBlock, entryWithSlot, hc, splitEntry]

theorem mem_flattened {ι : Type} (newBB : Nat → Addr) (F : Function ι) (hacc : Accepted F)
    (x : BasicBlock ι) :
    x ∈ flattened newBB F ↔
      x = buildSwitch newBB F (assignedIDs newBB F).2 ∨
      x ∈ flatBlocks newBB (assignedIDs newBB F).2 1 (entryWithSlot F :: namedFrom F.rest 2) := by
  have hc : createdFor (entryWithSlot F) = createdFor F.entry := rfl
  simp only [flattened, flatBlocks, flatEntry_eq newBB F hacc, hc, List.mem_append, List.mem_cons]
  tauto

/-- Every block of `flatBlocks` comes from a block of the list, at some count
of created blocks, and all the blocks made from that block are in the list. -/
theorem mem_flatBlocks {ι : Type} (newBB : Nat → Addr) (ids : BBMap) (l : List (BasicBlock ι)) :
    ∀ (k : Nat) (x : BasicBlock ι), x ∈ flatBlocks newBB ids k l →
      ∃ b0 ∈ l, ∃ j, k ≤ j ∧ x ∈ flatBlock newBB ids j b0 ∧
        ∀ y ∈ flatBlock newBB ids j b0, y ∈ flatBlocks newBB ids k l := by
  induction l with
  | nil => intro k x h; simp [flatBlocks] at h
  | cons b r ih =>
    intro k x h
    simp only [flatBlocks, List.mem_append] at h
    rcases h with h | h
    · exact ⟨b, List.mem_cons_self _ _, k, le_refl _, h, fun y hy => by
        simp only [flatBlocks, List.mem_append]; exact Or.inl hy⟩
    · obtain ⟨b0, hb0, j, hj, hx, hall⟩ := ih _ x h
      exact ⟨b0, List.mem_cons_of_mem _ hb0, j, by omega, hx, fun y hy => by
        simp only [flatBlocks, List.mem_append]; exact Or.inr (hall y hy)⟩

/-- Every block of the list has its blocks in `flatBlocks`. -/
theorem flatBlock_subset {ι : Type} (newBB : Nat → Addr) (ids : BBMap) (l : List (BasicBlock ι)) :
    ∀ (k : Nat) (b0 : BasicBlock ι), b0 ∈ l →
      ∃ j, k ≤ j ∧ ∀ y ∈ flatBlock newBB ids j b0, y ∈ flatBlocks newBB ids k l := by
  induction l with
  | nil => intro k b0 h; simp at h
  | cons b r ih =>
    intro k b0 h
    rcases List.mem_cons.1 h with h | h
    · subst h
      exact ⟨k, le_refl _, fun y hy => by
        simp only [flatBlocks, List.mem_append]; exact Or.inl hy⟩
    · obtain ⟨j, hj, hall⟩ := ih (k + createdFor b) b0 h
      exact ⟨j, by omega, fun y hy => by
        simp only [flatBlocks, List.mem_append]; exact Or.inr (hall y hy)⟩

/-- The blocks made from one block: unconditional branches go to the switch
block, and a conditional branch goes to the then and tail blocks made with it. -/
theorem flatBlock_shape {ι : Type} (newBB : Nat → Addr) (ids : BBMap) (j : Nat)
    (b0 x : BasicBlock ι) (hx : x ∈ flatBlock newBB ids j b0) :
    (∀ d, x.term = .br d → d = newBB 0) ∧
    (∀ c t f, x.term = .condBr c t f →
      x = { b0 with term := .condBr c (newBB (j + 1)) (newBB j) } ∧
      t = newBB (j + 1) ∧ f = newBB j ∧
      ∃ y z, y ∈ flatBlock newBB ids j b0 ∧ z ∈ flatBlock newBB ids j b0 ∧
        y.addr = newBB (j + 1) ∧ z.addr = newBB j ∧ IsTrampoline newBB y ∧
        IsTrampoline newBB z) ∧
    (b0.term.isPlain → x.term.isPlain) := by
  unfold flatBlock at hx ⊢
  cases hterm : b0.term with
  | br d0 =>
    simp only [hterm, List.mem_singleton] at hx
    subst hx
    simp [Terminator.isPlain]
  | condBr c0 t0 f0 =>
    simp only [hterm, List.mem_cons, List.mem_singleton, List.not_mem_nil, or_false] at hx
    rcases hx with hx | hx | hx
    · subst hx
      refine ⟨by simp, ?_, by simp [Terminator.isPlain]⟩
      intro c t f h
      simp only [Terminator.condBr.injEq] at h
      obtain ⟨rfl, rfl, rfl⟩ := h
      refine ⟨rfl, rfl, rfl, _, _, List.mem_cons_of_mem _ (List.mem_cons_self _ _),
        List.mem_cons_of_mem _ (List.mem_cons_of_mem _ (List.mem_cons_self _ _)), rfl, rfl,
        ⟨⟨_, rfl⟩, rfl⟩, ⟨⟨_, rfl⟩, rfl⟩⟩
    · subst hx
      simp [Terminator.isPlain]
    · subst hx
      simp [Terminator.isPlain]
  | ret v =>
    simp only [hterm, List.mem_singleton] at hx
    subst hx
    simp [hterm, Terminator.isPlain]
  | switch v d cs =>
    simp only [hterm, List.mem_singleton] at hx
    subst hx
    simp [hterm, Terminator.isPlain]
  | unreachable =>
    simp only [hterm, List.mem_singleton] at hx
    subst hx
    simp [hterm, Terminator.isPlain]

theorem flatBlock_cond_orig {ι : Type} (newBB : Nat → Addr) (ids : BBMap) (j : Nat)
    (b0 x : BasicBlock ι) (hx : x ∈ flatBlock newBB ids j b0) (c : Value ι) (t f : Addr)
    (h : x.term = .condBr c t f) : ∃ t0 f0, b0.term = .condBr c t0 f0 := by
  unfold flatBlock at hx
  cases hterm : b0.term with
  | br d0 =>
    simp only [hterm, List.mem_singleton] at hx
    subst hx
    simp at h
  | condBr c0 t0 f0 =>
    simp only [hterm, List.mem_cons, List.mem_singleton, List.not_mem_nil, or_false] at hx
    rcases hx with hx | hx | hx <;> subst hx <;> simp at h
    exact ⟨t0, f0, by rw [h.1]⟩
  | ret v =>
    simp only [hterm, List.mem_singleton] at hx
    subst hx
    rw [hterm] at h; simp at h
  | switch v d cs =>
    simp only [hterm, List.mem_singleton] at hx
    subst hx
    rw [hterm] at h; simp at h
  | unreachable =>
    simp only [hterm, List.mem_singleton] at hx
    subst hx
    rw [hterm] at h; simp at h

/-- Two conditional branches of `flatBlocks` that share a target are the same block. -/
theorem flatBlocks_cond_unique {ι : Type} (newBB : Nat → Addr) (ids : BBMap)
    (hinj : ∀ i j, newBB i = newBB j → i = j) (l : List (BasicBlock ι)) :
    ∀ (k : Nat) (x y : BasicBlock ι), x ∈ flatBlocks newBB ids k l →
      y ∈ flatBlocks newBB ids k l →
      ∀ c t f c' t' f', x.term = .condBr c t f → y.term = .condBr c' t' f' →
        (t = t' ∨ t = f' ∨ f = t' ∨ f = f') → x = y := by
  induction l with
  | nil => intro k x y hx; simp [flatBlocks] at hx
  | cons b r ih =>
    intro k x y hx hy c t f c' t' f' hxt hyt hshare
    simp only [flatBlocks, List.mem_append] at hx hy
    have cross : ∀ (u w : BasicBlock ι), u ∈ flatBlock newBB ids k b →
        w ∈ flatBlocks newBB ids (k + createdFor b) r →
        ∀ cu tu fu cw tw fw, u.term = .condBr cu tu fu → w.term = .condBr cw tw fw →
          (tu = tw ∨ tu = fw ∨ fu = tw ∨ fu = fw) → False := by
      intro u w hu hw cu tu fu cw tw fw hut hwt hsh
      obtain ⟨t0, f0, hb⟩ := flatBlock_cond_orig newBB ids k b u hu cu tu fu hut
      have hcf : createdFor b = 2 := by simp [createdFor, hb]
      obtain ⟨_, htu, hfu, _⟩ := (flatBlock_shape newBB ids k b u hu).2.1 cu tu fu hut
      obtain ⟨b0, _, j, hj, hwj, _⟩ := mem_flatBlocks newBB ids r _ w hw
      obtain ⟨_, htw, hfw, _⟩ := (flatBlock_shape newBB ids j b0 w hwj).2.1 cw tw fw hwt
      rw [hcf] at hj
      subst htu hfu htw hfw
      rcases hsh with h | h | h | h <;> have := hinj _ _ h <;> omega
    rcases hx with hx | hx <;> rcases hy with hy | hy
    · obtain ⟨t0, f0, hb⟩ := flatBlock_cond_orig newBB ids k b x hx c t f hxt
      obtain ⟨t1, f1, hb'⟩ := flatBlock_cond_orig newBB ids k b y hy c' t' f' hyt
      have hcc : c = c' := by
        rw [hb] at hb'
        simp only [Terminator.condBr.injEq] at hb'
        exact hb'.1
      obtain ⟨hxe, _⟩ := (flatBlock_shape newBB ids k b x hx).2.1 c t f hxt
      obtain ⟨hye, _⟩ := (flatBlock_shape newBB ids k b y hy).2.1 c' t' f' hyt
      rw [hxe, hye, hcc]
    · exact (cross x y hx hy c t f c' t' f' hxt hyt hshare).elim
    · refine (cross y x hy hx c' t' f' c t f hyt hxt ?_).elim
      rcases hshare with h | h | h | h
      · exact Or.inl h.symm
      · exact Or.inr (Or.inr (Or.inl h.symm))
      · exact Or.inr (Or.inl h.symm)
      · exact Or.inr (Or.inr (Or.inr h.symm))
    · exact ih _ x y hx hy c t f c' t' f' hxt hyt hshare

theorem isPlain_entryWithSlot_rest {ι : Type} (F : Function ι)
    (hplain : ∀ b ∈ F.blocks, b.term.isPlain) :
    ∀ b ∈ entryWithSlot F :: namedFrom F.rest 2, b.term.isPlain := by
  intro b hb
  rcases List.mem_cons.1 hb with h | h
  · subst h
    exact hplain F.entry (List.mem_cons_self _ _)
  · have key : ∀ (l : List (BasicBlock ι)) (n : Int), (∀ b ∈ l, b.term.isPlain) →
        ∀ b ∈ namedFrom l n, b.term.isPlain := by
      intro l
      induction l with
      | nil => intro n _ b hb; simp [namedFrom] at hb
      | cons a r ih =>
        intro n hl b hb
        simp only [namedFrom, List.mem_cons] at hb
        rcases hb with hb | hb
        · subst hb
          rw [nameBlock_term]
          exact hl a (List.mem_cons_self _ _)
        · exact ih _ (fun b hb => hl b (List.mem_cons_of_mem _ hb)) b hb
    exact key F.rest 2 (fun b hb => hplain b (List.mem_cons_of_mem _ hb)) b h

theorem switch_successors {ι : Type} (newBB : Nat → Addr) (F : Function ι)
    (hwf : F.WellFormed) (hf : FreshFor newBB F) (a : Addr)
    (ha : a ∈ (buildSwitch newBB F (assignedIDs newBB F).2).term.successors) :
    a = newBB 0 ∨ a ∈ blockAddrs F.rest := by
  simp only [buildSwitch, Terminator.successors, List.mem_cons, List.mem_map] at ha
  rcases ha with h | ⟨⟨i, a'⟩, hc, rfl⟩
  · exact Or.inl h
  · have h := (mem_switchCases _ (sorted_assignedIDs newBB F) a' i).1 hc
    rw [← mem_iff_lookup _ (sorted_assignedIDs newBB F), mem_assignedIDs newBB F hwf hf] at h
    obtain ⟨⟨hmem, hidx⟩, hne⟩ := h
    simp only [addrsAtAssign, List.mem_cons] at hmem
    rcases hmem with h1 | h1 | h1
    · exfalso
      apply hne
      rw [hidx, h1]
      simp [addrsAtAssign]
    · exact Or.inl h1
    · exact Or.inr h1

theorem blockAddrs_entryWithSlot_rest {ι : Type} (F : Function ι) :
    blockAddrs (entryWithSlot F :: namedFrom F.rest 2) = blockAddrs F.blocks := by
  have h := blockAddrs_namedFrom F.rest 2
  simp only [blockAddrs] at h
  simp [blockAddrs, entryWithSlot, Function.blocks, h]

/-- C10 (flattened shape): after a successful run on a function whose terminators
are all unconditional branches, conditional branches or returns, every
unconditional branch targets the switch block; every conditional branch
targets two distinct blocks created by the pass, each storing an encoded ID and
branching to the switch block, and no other block has an edge to either of
them; and every edge into a block of the input function other than the entry
block leaves the switch block. -/
theorem flattened_shape {ι : Type} (newBB : Nat → Addr) (F : Function ι)
    (hwf : F.WellFormed) (hf : FreshFor newBB F) (hacc : Accepted F)
    (hplain : ∀ b ∈ F.blocks, b.term.isPlain) :
    (∀ b ∈ (runOnFunction newBB F).2.blocks, ∀ d, b.term = .br d → d = newBB 0) ∧
    (∀ b ∈ (runOnFunction newBB F).2.blocks, ∀ c t f, b.term = .condBr c t f →
      t ≠ f ∧ t ∉ blockAddrs F.blocks ∧ f ∉ blockAddrs F.blocks ∧ t ≠ newBB 0 ∧ f ≠ newBB 0 ∧
      (∃ y z, findBlock (runOnFunction newBB F).2 t = some y ∧
        findBlock (runOnFunction newBB F).2 f = some z ∧
        IsTrampoline newBB y ∧ IsTrampoline newBB z) ∧
      ∀ b2 ∈ (runOnFunction newBB F).2.blocks,
        (t ∈ b2.term.successors ∨ f ∈ b2.term.successors) → b2 = b) ∧
    (∀ b ∈ (runOnFunction newBB F).2.blocks, ∀ a ∈ blockAddrs F.rest,
      a ∈ b.term.successors → b = buildSwitch newBB F (assignedIDs newBB F).2) := by
  have hblocks := (runOnFunction_blocks newBB F hwf hf hacc).2
  rw [hblocks]
  obtain ⟨hinj, hfr⟩ := hf
  have hf : FreshFor newBB F := ⟨hinj, hfr⟩
  have hfrest : ∀ j, newBB j ∉ blockAddrs F.rest := fun j h => hfr j (List.mem_cons_of_mem _ h)
  have hpl := isPlain_entryWithSlot_rest F hplain
  -- what a block of the flattened function other than the switch block looks like
  have hL : ∀ x ∈ flatBlocks newBB (assignedIDs newBB F).2 1
      (entryWithSlot F :: namedFrom F.rest 2),
      x.term.isPlain ∧ (∀ d, x.term = .br d → d = newBB 0) ∧
      ∀ c t f, x.term = .condBr c t f → ∃ j, 1 ≤ j ∧ t = newBB (j + 1) ∧ f = newBB j ∧
        ∃ y z, y ∈ flattened newBB F ∧ z ∈ flattened newBB F ∧ y.addr = newBB (j + 1) ∧
          z.addr = newBB j ∧ IsTrampoline newBB y ∧ IsTrampoline newBB z := by
    intro x hx
    obtain ⟨b0, hb0, j, hj, hxj, hall⟩ := mem_flatBlocks newBB _ _ 1 x hx
    have hs := flatBlock_shape newBB (assignedIDs newBB F).2 j b0 x hxj
    refine ⟨hs.2.2 (hpl b0 hb0), hs.1, ?_⟩
    intro c t f h
    obtain ⟨_, ht, hf', y, z, hy, hz, hya, hza, hyt, hzt⟩ := hs.2.1 c t f h
    exact ⟨j, hj, ht, hf', y, z, (mem_flattened newBB F hacc y).2 (Or.inr (hall y hy)),
      (mem_flattened newBB F hacc z).2 (Or.inr (hall z hz)), hya, hza, hyt, hzt⟩
  have hsucc : ∀ x ∈ flattened newBB F, ∀ q, 1 ≤ q → newBB q ∈ x.term.successors →
      ∃ c t f, x.term = .condBr c t f ∧ (newBB q = t ∨ newBB q = f) ∧
        x ∈ flatBlocks newBB (assignedIDs newBB F).2 1
          (entryWithSlot F :: namedFrom F.rest 2) := by
    intro x hx q hq hmem
    rcases (mem_flattened newBB F hacc x).1 hx with h | h
    · subst h
      rcases switch_successors newBB F hwf hf _ hmem with h1 | h1
      · have := hinj _ _ h1; omega
      · exact (hfrest q h1).elim
    · obtain ⟨hp, hbr, _⟩ := hL x h
      cases hterm : x.term with
      | br d =>
        rw [hterm] at hmem
        simp only [Terminator.successors, List.mem_singleton] at hmem
        have := hbr d hterm
        rw [this] at hmem
        have := hinj _ _ hmem; omega
      | condBr c t f =>
        rw [hterm] at hmem
        simp only [Terminator.successors, List.mem_cons, List.mem_singleton, List.not_mem_nil,
          or_false] at hmem
        exact ⟨c, t, f, rfl, hmem, h⟩
      | ret v => rw [hterm] at hmem; simp [Terminator.successors] at hmem
      | switch v d cs => rw [hterm] at hp; exact hp.elim
      | unreachable => rw [hterm] at hp; exact hp.elim
  refine ⟨?_, ?_, ?_⟩
  · intro b hb d hd
    rcases (mem_flattened newBB F hacc b).1 hb with h | h
    · subst h; simp [buildSwitch] at hd
    · exact (hL b h).2.1 d hd
  · intro b hb c t f hterm
    rcases (mem_flattened newBB F hacc b).1 hb with h | h
    · subst h; simp [buildSwitch] at hterm
    · obtain ⟨j, hj, ht, hf', y, z, hy, hz, hya, hza, hyt, hzt⟩ := (hL b h).2.2 c t f hterm
      subst ht hf'
      refine ⟨?_, hfr _, hfr _, ?_, ?_, ⟨y, z, ?_, ?_, hyt, hzt⟩, ?_⟩
      · intro e; have := hinj _ _ e; omega
      · intro e; have := hinj _ _ e; omega
      · intro e; have := hinj _ _ e; omega
      · rw [← hya]; exact findBlock_of_mem newBB F hwf hf hacc y hy
      · rw [← hza]; exact findBlock_of_mem newBB F hwf hf hacc z hz
      · intro b2 hb2 hshare
        have h2 : ∃ c2 t2 f2, b2.term = .condBr c2 t2 f2 ∧
            (newBB (j + 1) = t2 ∨ newBB (j + 1) = f2 ∨ newBB j = t2 ∨ newBB j = f2) ∧
            b2 ∈ flatBlocks newBB (assignedIDs newBB F).2 1
              (entryWithSlot F :: namedFrom F.rest 2) := by
          rcases hshare with hs | hs
          · obtain ⟨c2, t2, f2, h1, h2, h3⟩ := hsucc b2 hb2 (j + 1) (by omega) hs
            exact ⟨c2, t2, f2, h1, by tauto, h3⟩
          · obtain ⟨c2, t2, f2, h1, h2, h3⟩ := hsucc b2 hb2 j hj hs
            exact ⟨c2, t2, f2, h1, by tauto, h3⟩
        obtain ⟨c2, t2, f2, h1, h2, h3⟩ := h2
        exact (flatBlocks_cond_unique newBB _ hinj _ 1 b b2 h h3 c _ _ c2 t2 f2 hterm h1 h2).symm
  · intro b hb a ha hmem
    rcases (mem_flattened newBB F hacc b).1 hb with h | h
    · exact h
    · exfalso
      obtain ⟨hp, hbr, hcond⟩ := hL b h
      cases hterm : b.term with
      | br d =>
        rw [hterm] at hmem
        simp only [Terminator.successors, List.mem_singleton] at hmem
        rw [hbr d hterm] at hmem
        exact hfrest 0 (hmem ▸ ha)
      | condBr c t f =>
        obtain ⟨j, _, ht, hf', _⟩ := hcond c t f hterm
        rw [hterm] at hmem
        simp only [Terminator.successors, List.mem_cons, List.mem_singleton, List.not_mem_nil,
          or_false] at hmem
        rcases hmem with e | e
        · exact hfrest (j + 1) (by rw [← ht, ← e]; exact ha)
        · exact hfrest j (by rw [← hf', ← e]; exact ha)
      | ret v => rw [hterm] at hmem; simp [Terminator.successors] at hmem
      | switch v d cs => rw [hterm] at hp; exact hp
      | unreachable => rw [hterm] at hp; exact hp

theorem diamondFn_plain : ∀ b ∈ diamondFn.blocks, b.term.isPlain := by
  intro b hb
  simp only [diamondFn, Function.blocks, List.mem_cons, List.mem_singleton, List.not_mem_nil,
    or_false] at hb
  rcases hb with rfl | rfl | rfl | rfl <;> simp [Terminator.isPlain]

/-- Witness of C10 on the diamond. -/
theorem flattened_shape_witness :
    (∀ b ∈ (runOnFunction (newBBFrom 100) diamondFn).2.blocks, ∀ d,
      b.term = .br d → d = newBBFrom 100 0) ∧
    (∀ b ∈ (runOnFunction (newBBFrom 100) diamondFn).2.blocks, ∀ c t f, b.term = .condBr c t f →
      t ≠ f ∧ t ∉ blockAddrs diamondFn.blocks ∧ f ∉ blockAddrs diamondFn.blocks ∧
      t ≠ newBBFrom 100 0 ∧ f ≠ newBBFrom 100 0 ∧
      (∃ y z, findBlock (runOnFunction (newBBFrom 100) diamondFn).2 t = some y ∧
        findBlock (runOnFunction (newBBFrom 100) diamondFn).2 f = some z ∧
        IsTrampoline (newBBFrom 100) y ∧ IsTrampoline (newBBFrom 100) z) ∧
      ∀ b2 ∈ (runOnFunction (newBBFrom 100) diamondFn).2.blocks,
        (t ∈ b2.term.successors ∨ f ∈ b2.term.successors) → b2 = b) ∧
    (∀ b ∈ (runOnFunction (newBBFrom 100) diamondFn).2.blocks, ∀ a ∈ blockAddrs diamondFn.rest,
      a ∈ b.term.successors →
        b = buildSwitch (newBBFrom 100) diamondFn (assignedIDs (newBBFrom 100) diamondFn).2) :=
  flattened_shape (newBBFrom 100) diamondFn diamondFn_wellFormed diamondFn_fresh
    diamondFn_accepted diamondFn_plain

theorem run_zero {ι σ : Type} (sem : Sem ι σ) (F : Function ι) (a : Addr) (s : State σ) :
    run sem F 0 a s = none := rfl

theorem run_succ {ι σ : Type} (sem : Sem ι σ) (F : Function ι) (n : Nat) (a : Addr)
    (s : State σ) (b : BasicBlock ι) (hb : findBlock F a = some b) :
    run sem F (n + 1) a s =
      match b.term.step sem (execInsts sem s b.insts) with
      | none => none
      | some (.inl v) =>
        some { trace := [(a, s.user)], user := (execInsts sem s b.insts).user, ret := v }
      | some (.inr next) =>
        (run sem F n next (execInsts sem s b.insts)).map (Result.push (a, s.user)) := by
  simp only [run, hb]

theorem execInsts_append {ι σ : Type} (sem : Sem ι σ) (s : State σ) (l1 l2 : List (Instr ι)) :
    execInsts sem s (l1 ++ l2) = execInsts sem (execInsts sem s l1) l2 := by
  simp [execInsts, List.foldl_append]

/-- Instructions of the input program change the `user` part of the state only,
and what they make of it depends on it only. -/
theorem execInsts_input {ι σ : Type} (sem : Sem ι σ) (l : List (Instr ι))
    (hl : ∀ i ∈ l, ∃ x, i = Instr.orig x) :
    ∀ (s s' : State σ), s.user = s'.user →
      (execInsts sem s l).user = (execInsts sem s' l).user ∧
      execInsts sem s' l = { s' with user := (execInsts sem s' l).user } := by
  induction l with
  | nil => intro s s' h; exact ⟨h, rfl⟩
  | cons i r ih =>
    intro s s' h
    obtain ⟨x, rfl⟩ := hl i (List.mem_cons_self _ _)
    have hr : ∀ i ∈ r, ∃ x, i = Instr.orig x := fun i hi => hl i (List.mem_cons_of_mem _ hi)
    have h1 := ih hr (Instr.exec sem s (.orig x)) (Instr.exec sem s' (.orig x))
      (by simp [Instr.exec, h])
    refine ⟨h1.1, ?_⟩
    have h2 := h1.2
    simp only [execInsts, List.foldl_cons] at h2 ⊢
    rw [h2]
    simp [Instr.exec]

theorem findBlock_orig {ι : Type} (F : Function ι) (hwf : F.WellFormed) (b : BasicBlock ι)
    (hb : b ∈ F.blocks) : findBlock F b.addr = some b :=
  find_of_mem_nodup _ hwf b hb

theorem mem_blocks_of_addr {ι : Type} (F : Function ι) (a : Addr)
    (ha : a ∈ blockAddrs F.blocks) : ∃ b ∈ F.blocks, b.addr = a := by
  simpa [blockAddrs] using ha

theorem find_unique {α : Type} (p : α → Bool) (l : List α) (x : α) (hx : x ∈ l) (hp : p x = true)
    (huniq : ∀ y ∈ l, p y = true → y = x) : l.find? p = some x := by
  induction l with
  | nil => simp at hx
  | cons a r ih =>
    by_cases hpa : p a = true
    · have := huniq a (List.mem_cons_self _ _) hpa
      subst this
      simp [List.find?, hpa]
    · have hxr : x ∈ r := by
        rcases List.mem_cons.1 hx with h | h
        · subst h; exact absurd hp hpa
        · exact h
      have hpa' : p a = false := by simpa using hpa
      simp only [List.find?, hpa']
      exact ih hxr (fun y hy => huniq y (List.mem_cons_of_mem _ hy))

theorem toNat_emod_wordSize (k : Nat) (hk : k < 2 ^ 31) :
    (((k : Nat) : Int) % (wordSize : Int)).toNat = k := by
  have : ((k : Int) % (wordSize : Int)) = (k : Int) := by
    apply Int.emod_eq_of_lt (by positivity)
    have : k < wordSize := by simp only [wordSize]; omega
    exact_mod_cast this
  rw [this]; simp

/-- The switch dispatches the ID of a block of the input function, other than the
entry block, to that block. -/
theorem findCase_id {ι : Type} (newBB : Nat → Addr) (F : Function ι)
    (hwf : F.WellFormed) (hf : FreshFor newBB F) (hsize : F.rest.length + 2 ≤ 2 ^ 31)
    (t : Addr) (ht : t ∈ blockAddrs F.rest) :
    ∃ k : Nat, k < 2 ^ 31 ∧ idOf (assignedIDs newBB F).2 t = (k : Int) ∧
      findCase (switchCases (assignedIDs newBB F).2) k = some ((k : Int), t) := by
  have hlen : (addrsAtAssign newBB F).length = F.rest.length + 2 := by
    simp [addrsAtAssign, blockAddrs]
  have hbound : ∀ a ∈ addrsAtAssign newBB F, (addrsAtAssign newBB F).indexOf a < 2 ^ 31 := by
    intro a ha
    have := List.indexOf_lt_length.2 ha
    omega
  have hmem : t ∈ addrsAtAssign newBB F := by simp [addrsAtAssign, ht]
  refine ⟨(addrsAtAssign newBB F).indexOf t, hbound t hmem,
    idOf_assignedIDs newBB F hwf hf t hmem, ?_⟩
  have hk2 : (addrsAtAssign newBB F).indexOf t = (blockAddrs F.rest).indexOf t + 2 := by
    have h1 := idOf_rest newBB F hwf hf t ht
    rw [idOf_assignedIDs newBB F hwf hf t hmem] at h1
    exact_mod_cast h1
  unfold findCase
  apply find_unique
  · rw [mem_switchCases _ (sorted_assignedIDs newBB F), lookup_assignedIDs newBB F hwf hf]
    simp only [hmem, if_true, true_and]
    rw [hk2]
    intro h
    have : ((blockAddrs F.rest).indexOf t + 2 : Nat) = 0 := by exact_mod_cast h
    omega
  · simp only [decide_eq_true_eq]
    exact toNat_emod_wordSize _ (hbound t hmem)
  · rintro ⟨i, a⟩ hy hp
    simp only [decide_eq_true_eq] at hp
    have h := (mem_switchCases _ (sorted_assignedIDs newBB F) a i).1 hy
    rw [← mem_iff_lookup _ (sorted_assignedIDs newBB F), mem_assignedIDs newBB F hwf hf] at h
    obtain ⟨⟨ha, hi⟩, _⟩ := h
    subst hi
    rw [toNat_emod_wordSize _ (hbound a ha)] at hp
    have haa : a = t := (List.indexOf_inj ha hmem).1 hp
    subst haa
    rfl

/-- From the switch block, with the ID of a block `t` of the input function in
the slot, the run continues at `t` in the same state. -/
theorem run_switch {ι σ : Type} (sem : Sem ι σ) (newBB : Nat → Addr) (F : Function ι)
    (hwf : F.WellFormed) (hf : FreshFor newBB F) (hacc : Accepted F)
    (hsize : F.rest.length + 2 ≤ 2 ^ 31) (t : Addr) (ht : t ∈ blockAddrs F.rest)
    (s : State σ) (hs : (s.switch_index : Int) = idOf (assignedIDs newBB F).2 t) (n : Nat) :
    run sem (runOnFunction newBB F).2 (n + 1) (newBB 0) s =
      (run sem (runOnFunction newBB F).2 n t s).map (Result.push (newBB 0, s.user)) := by
  obtain ⟨k, hk, hid, hcase⟩ := findCase_id newBB F hwf hf hsize t ht
  rw [run_succ sem _ n _ s _ (findBlock_switch newBB F hwf hf hacc)]
  have hsk : s.switch_index = k := by
    rw [hid] at hs
    exact_mod_cast hs
  have hev : Value.eval sem s (.load .slot) = k := by
    simp only [Value.eval, hsk, wordSize]
    omega
  simp only [buildSwitch, splitSwitch, execInsts, List.foldl_nil, Terminator.step, hev, hcase]

theorem mem_namedFrom {ι : Type} (l : List (BasicBlock ι)) :
    ∀ (n : Int) (b : BasicBlock ι), b ∈ l → ∃ k : Int, nameBlock b k ∈ namedFrom l n := by
  induction l with
  | nil => intro n b h; simp at h
  | cons a r ih =>
    intro n b h
    rcases List.mem_cons.1 h with h | h
    · subst h
      exact ⟨n, by simp [namedFrom]⟩
    · obtain ⟨k, hk⟩ := ih (n + 1) b h
      exact ⟨k, by simp [namedFrom, hk]⟩

/-- Every block of the input function has its blocks in the flattened function:
they are made from a block with the same address, terminator and effect. -/
theorem flat_of_input {ι σ : Type} (sem : Sem ι σ) (newBB : Nat → Addr) (F : Function ι)
    (hacc : Accepted F) (b : BasicBlock ι) (hb : b ∈ F.blocks) :
    ∃ (b0 : BasicBlock ι) (j : Nat), 1 ≤ j ∧ b0.addr = b.addr ∧ b0.term = b.term ∧
      (∀ s : State σ, execInsts sem s b0.insts = execInsts sem s b.insts) ∧
      ∀ y ∈ flatBlock newBB (assignedIDs newBB F).2 j b0, y ∈ flattened newBB F := by
  have key : ∃ b0 ∈ entryWithSlot F :: namedFrom F.rest 2, b0.addr = b.addr ∧
      b0.term = b.term ∧ ∀ s : State σ, execInsts sem s b0.insts = execInsts sem s b.insts := by
    rcases List.mem_cons.1 hb with h | h
    · subst h
      exact ⟨entryWithSlot F, List.mem_cons_self _ _, rfl, rfl, fun s => by
        simp [entryWithSlot, execInsts, Instr.exec]⟩
    · obtain ⟨k, hk⟩ := mem_namedFrom F.rest 2 b h
      exact ⟨nameBlock b k, List.mem_cons_of_mem _ hk, nameBlock_addr b k, nameBlock_term b k,
        fun s => by rw [nameBlock_insts]⟩
  obtain ⟨b0, hb0, ha, ht, he⟩ := key
  obtain ⟨j, hj, hall⟩ := flatBlock_subset newBB (assignedIDs newBB F).2 _ 1 b0 hb0
  exact ⟨b0, j, hj, ha, ht, he, fun y hy =>
    (mem_flattened newBB F hacc y).2 (Or.inr (hall y hy))⟩

/-- A block of the flattened function that ends its instructions with the
encoded ID of a block `t` of the input function and branches to the switch
block: the run passes through the switch block and continues at `t`, with the
ID in the slot. -/
theorem run_to_switch {ι σ : Type} (sem : Sem ι σ) (newBB : Nat → Addr) (F : Function ι)
    (hwf : F.WellFormed) (hf : FreshFor newBB F) (hacc : Accepted F)
    (hsize : F.rest.length + 2 ≤ 2 ^ 31) (t : Addr) (ht : t ∈ blockAddrs F.rest)
    (y : BasicBlock ι) (hy : y ∈ flattened newBB F) (l : List (Instr ι))
    (hinsts : y.insts = l ++ insertOpaqueSwitchIndex (idOf (assignedIDs newBB F).2 t) .slot)
    (hterm : y.term = .br (newBB 0)) (s : State σ)
    (hinv : DecodeInvariant (execInsts sem s l).g_array (execInsts sem s l).m) :
    ∃ s2 : State σ, s2.user = (execInsts sem s l).user ∧
      s2.g_array = (execInsts sem s l).g_array ∧ s2.m = (execInsts sem s l).m ∧
      (∀ n, run sem (runOnFunction newBB F).2 (n + 1) y.addr s =
        (run sem (runOnFunction newBB F).2 n (newBB 0) s2).map (Result.push (y.addr, s.user))) ∧
      (∀ n, run sem (runOnFunction newBB F).2 (n + 1) (newBB 0) s2 =
        (run sem (runOnFunction newBB F).2 n t s2).map (Result.push (newBB 0, s2.user))) := by
  obtain ⟨k, hk, hid, _⟩ := findCase_id newBB F hwf hf hsize t ht
  refine ⟨{ execInsts sem s l with switch_index := k }, rfl, rfl, rfl, ?_, ?_⟩
  · intro n
    rw [run_succ sem _ n _ s y (findBlock_of_mem newBB F hwf hf hacc y hy), hinsts,
      execInsts_append, hid, exec_encoded_of_invariant sem _ k hk hinv, hterm]
    simp only [Terminator.step]
  · intro n
    exact run_switch sem newBB F hwf hf hacc hsize t ht _ (by rw [hid]) n

theorem map_push_pushAll {σ : Type} (a : Addr × σ) (pfx : List (Addr × σ))
    (o : Option (Result σ)) :
    (o.map (Result.pushAll pfx)).map (Result.push a) = o.map (Result.pushAll (a :: pfx)) := by
  cases o <;> simp [Result.push, Result.pushAll]

theorem map_push_eq_pushAll {σ : Type} (a : Addr × σ) (o : Option (Result σ)) :
    o.map (Result.push a) = o.map (Result.pushAll [a]) := by
  cases o <;> simp [Result.push, Result.pushAll]

/-- What one block of the input function does in the flattened function: a
return block returns as before; a branching block reaches, through created
blocks and the switch block only, the successor it reaches in the input
function, with the same state of the input program and the same table. -/
theorem edge {ι σ : Type} (sem : Sem ι σ) (newBB : Nat → Addr) (F : Function ι)
    (hwf : F.WellFormed) (hf : FreshFor newBB F) (hacc : Accepted F)
    (hsize : F.rest.length + 2 ≤ 2 ^ 31) (hin : F.IsInput)
    (b : BasicBlock ι) (hb : b ∈ F.blocks) (s : State σ)
    (hinv : DecodeInvariant s.g_array s.m) :
    (∀ v, b.term = .ret v → ∀ n, run sem (runOnFunction newBB F).2 (n + 1) b.addr s =
      some { trace := [(b.addr, s.user)], user := (execInsts sem s b.insts).user,
             ret := v.map (Value.eval sem (execInsts sem s b.insts)) }) ∧
    (∀ tgt, b.term.step sem (execInsts sem s b.insts) = some (.inr tgt) →
      tgt ∈ blockAddrs F.rest ∧
      ∃ (pfx : List (Addr × σ)) (s2 : State σ),
        pfx.filter (fun e => e.1 ∈ blockAddrs F.blocks) = [(b.addr, s.user)] ∧
        s2.user = (execInsts sem s b.insts).user ∧ s2.g_array = s.g_array ∧ s2.m = s.m ∧
        (∀ n, run sem (runOnFunction newBB F).2 (n + pfx.length) b.addr s =
          (run sem (runOnFunction newBB F).2 n tgt s2).map (Result.pushAll pfx)) ∧
        (∀ n, n < pfx.length → run sem (runOnFunction newBB F).2 n b.addr s = none)) := by
  obtain ⟨b0, j, hj, ha, ht, he, hall⟩ := flat_of_input sem newBB F hacc b hb
  obtain ⟨hbi, hbt⟩ := hin.1 b hb
  have hs1 := (execInsts_input sem b.insts hbi s s rfl).2
  have hg : (execInsts sem s b.insts).g_array = s.g_array := by rw [hs1]
  have hm : (execInsts sem s b.insts).m = s.m := by rw [hs1]
  have hbmem : b.addr ∈ blockAddrs F.blocks := List.mem_map_of_mem _ hb
  have hnew : ∀ q, newBB q ∉ blockAddrs F.blocks := hf.2
  have hfind : ∀ y ∈ flatBlock newBB (assignedIDs newBB F).2 j b0,
      findBlock (runOnFunction newBB F).2 y.addr = some y :=
    fun y hy => findBlock_of_mem newBB F hwf hf hacc y (hall y hy)
  cases hterm : b.term with
  | ret v =>
    refine ⟨?_, fun tgt h => by simp [Terminator.step] at h⟩
    intro v' hv n
    have hy : b0 ∈ flatBlock newBB (assignedIDs newBB F).2 j b0 := by
      simp [flatBlock, ht, hterm]
    have := hfind b0 hy
    rw [ha] at this
    rw [run_succ sem _ n _ s b0 this, he, ht, hterm]
    simp only [Terminator.ret.injEq] at hv
    subst hv
    simp only [Terminator.step]
  | br t =>
    refine ⟨fun v h => by simp at h, ?_⟩
    intro tgt hstep
    simp only [Terminator.step, Option.some.injEq, Sum.inr.injEq] at hstep
    subst hstep
    have htr : t ∈ blockAddrs F.rest := hin.2 b hb t (by simp [hterm, Terminator.successors])
    refine ⟨htr, ?_⟩
    have hy : (⟨b0.addr, b0.name,
        b0.insts ++ insertOpaqueSwitchIndex (idOf (assignedIDs newBB F).2 t) .slot,
        .br (newBB 0)⟩ : BasicBlock ι) ∈
        flatBlock newBB (assignedIDs newBB F).2 j b0 := by
      simp [flatBlock, ht, hterm]
    obtain ⟨s2, hu, hg2, hm2, h1, h2⟩ := run_to_switch sem newBB F hwf hf hacc hsize t htr _
      (hall _ hy) b0.insts rfl rfl s (by rw [he, hg, hm]; exact hinv)
    simp only [ha] at h1
    rw [he] at hu hg2 hm2
    refine ⟨[(b.addr, s.user), (newBB 0, s2.user)], s2, ?_, hu, hg2.trans hg, hm2.trans hm,
      ?_, ?_⟩
    · simp [List.filter, hbmem, hnew 0]
    · intro n
      show run sem _ (n + 1 + 1) b.addr s = _
      rw [h1, h2, map_push_eq_pushAll (newBB 0, s2.user), map_push_pushAll]
    · intro n hn
      simp only [List.length_cons, List.length_nil] at hn
      obtain rfl | rfl : n = 0 ∨ n = 1 := by omega
      · rfl
      · rw [h1 0]; rfl
  | condBr c t f =>
    refine ⟨fun v h => by simp at h, ?_⟩
    rw [hterm] at hbt
    obtain ⟨x, rfl⟩ := hbt
    intro tgt hstep
    simp only [Terminator.step, Option.some.injEq, Sum.inr.injEq] at hstep
    have htr : t ∈ blockAddrs F.rest := hin.2 b hb t (by simp [hterm, Terminator.successors])
    have hfr : f ∈ blockAddrs F.rest := hin.2 b hb f (by simp [hterm, Terminator.successors])
    have hhead : (⟨b0.addr, b0.name, b0.insts, .condBr (.orig x) (newBB (j + 1)) (newBB j)⟩ :
        BasicBlock ι) ∈ flatBlock newBB (assignedIDs newBB F).2 j b0 := by
      simp [flatBlock, ht, hterm]
    have hthen : (⟨newBB (j + 1), b0.name ++ ".if.true",
        insertOpaqueSwitchIndex (idOf (assignedIDs newBB F).2 t) .slot,
        .br (newBB 0)⟩ : BasicBlock ι) ∈
        flatBlock newBB (assignedIDs newBB F).2 j b0 := by
      simp [flatBlock, ht, hterm]
    have htail : (⟨newBB j, b0.name ++ ".if.cont",
        insertOpaqueSwitchIndex (idOf (assignedIDs newBB F).2 f) .slot,
        .br (newBB 0)⟩ : BasicBlock ι) ∈
        flatBlock newBB (assignedIDs newBB F).2 j b0 := by
      simp [flatBlock, ht, hterm]
    have h0 : ∀ n, run sem (runOnFunction newBB F).2 (n + 1) b.addr s =
        (run sem (runOnFunction newBB F).2 n
          (if Value.eval sem (execInsts sem s b.insts) (.orig x) % 2 = 1 then newBB (j + 1)
            else newBB j) (execInsts sem s b.insts)).map (Result.push (b.addr, s.user)) := by
      intro n
      have := hfind _ hhead
      simp only [ha] at this
      rw [run_succ sem _ n _ s _ this]
      simp only [he, Terminator.step]
    have e0 : execInsts sem (execInsts sem s b.insts) [] = execInsts sem s b.insts := rfl
    have hinv1 : DecodeInvariant (execInsts sem (execInsts sem s b.insts) []).g_array
        (execInsts sem (execInsts sem s b.insts) []).m := by
      rw [e0, hg, hm]
      exact hinv
    by_cases hc : Value.eval sem (execInsts sem s b.insts) (.orig x) % 2 = 1
    · simp only [hc, if_true] at hstep h0
      subst hstep
      refine ⟨htr, ?_⟩
      obtain ⟨s2, hu, hg2, hm2, h1, h2⟩ := run_to_switch sem newBB F hwf hf hacc hsize t htr _
        (hall _ hthen) [] (by simp) rfl (execInsts sem s b.insts) hinv1
      rw [e0] at hu hg2 hm2
      refine ⟨[(b.addr, s.user), (newBB (j + 1), (execInsts sem s b.insts).user),
        (newBB 0, s2.user)], s2, ?_, hu, hg2.trans hg, hm2.trans hm, ?_, ?_⟩
      · simp [List.filter, hbmem, hnew 0, hnew (j + 1)]
      · intro n
        show run sem _ (n + 1 + 1 + 1) b.addr s = _
        rw [h0, h1, h2, map_push_eq_pushAll (newBB 0, s2.user), map_push_pushAll,
          map_push_pushAll]
      · intro n hn
        simp only [List.length_cons, List.length_nil] at hn
        obtain rfl | rfl | rfl : n = 0 ∨ n = 1 ∨ n = 2 := by omega
        · rfl
        · rw [h0 0]; rfl
        · rw [h0 1, h1 0]; rfl
    · simp only [hc, if_false] at hstep h0
      subst hstep
      refine ⟨hfr, ?_⟩
      obtain ⟨s2, hu, hg2, hm2, h1, h2⟩ := run_to_switch sem newBB F hwf hf hacc hsize f hfr _
        (hall _ htail) [] (by simp) rfl (execInsts sem s b.insts) hinv1
      rw [e0] at hu hg2 hm2
      refine ⟨[(b.addr, s.user), (newBB j, (execInsts sem s b.insts).user),
        (newBB 0, s2.user)], s2, ?_, hu, hg2.trans hg, hm2.trans hm, ?_, ?_⟩
      · simp [List.filter, hbmem, hnew 0, hnew j]
      · intro n
        show run sem _ (n + 1 + 1 + 1) b.addr s = _
        rw [h0, h1, h2, map_push_eq_pushAll (newBB 0, s2.user), map_push_pushAll,
          map_push_pushAll]
      · intro n hn
        simp only [List.length_cons, List.length_nil] at hn
        obtain rfl | rfl | rfl : n = 0 ∨ n = 1 ∨ n = 2 := by omega
        · rfl
        · rw [h0 0]; rfl
        · rw [h0 1, h1 0]; rfl
  | switch v d cs => rw [hterm] at hbt; exact hbt.elim
  | unreachable => rw [hterm] at hbt; exact hbt.elim

theorem step_input_congr {ι σ : Type} (sem : Sem ι σ) (b : BasicBlock ι) (hb : b.IsInput)
    (s s' : State σ) (h : s.user = s'.user) : b.term.step sem s = b.term.step sem s' := by
  obtain ⟨_, ht⟩ := hb
  cases hterm : b.term with
  | br d => rfl
  | condBr c t f =>
    rw [hterm] at ht
    obtain ⟨x, rfl⟩ := ht
    simp [Terminator.step, Value.eval, h]
  | ret v =>
    rw [hterm] at ht
    cases v with
    | none => rfl
    | some w =>
      obtain ⟨x, rfl⟩ := ht w rfl
      simp [Terminator.step, Value.eval, h]
  | switch v d cs => rw [hterm] at ht; exact ht.elim
  | unreachable => rw [hterm] at ht; exact ht.elim

theorem step_inl_ret {ι σ : Type} (sem : Sem ι σ) (b : BasicBlock ι) (hb : b.IsInput)
    (s : State σ) (v : Option Nat) (h : b.term.step sem s = some (.inl v)) :
    ∃ v0, b.term = .ret v0 ∧ v = v0.map (Value.eval sem s) := by
  obtain ⟨_, ht⟩ := hb
  cases hterm : b.term with
  | br d => rw [hterm] at h; simp [Terminator.step] at h
  | condBr c t f => rw [hterm] at h; simp [Terminator.step] at h
  | ret v0 =>
    rw [hterm] at h
    simp only [Terminator.step, Option.some.injEq, Sum.inl.injEq] at h
    exact ⟨v0, rfl, h.symm⟩
  | switch v d cs => rw [hterm] at ht; exact ht.elim
  | unreachable => rw [hterm] at ht; exact ht.elim

/-- A run of a function made of input blocks depends on the state of the input
program only. -/
theorem run_congr {ι σ : Type} (sem : Sem ι σ) (F : Function ι)
    (hin : ∀ b ∈ F.blocks, b.IsInput) :
    ∀ (n : Nat) (a : Addr) (s s' : State σ), s.user = s'.user →
      run sem F n a s = run sem F n a s' := by
  intro n
  induction n with
  | zero => intro a s s' _; rfl
  | succ n ih =>
    intro a s s' h
    cases hfb : findBlock F a with
    | none => simp [run, hfb]
    | some b =>
      have hb : b ∈ F.blocks := List.mem_of_find?_eq_some hfb
      have hbi := hin b hb
      have hu := (execInsts_input sem b.insts hbi.1 s s' h).1
      rw [run_succ sem F n a s b hfb, run_succ sem F n a s' b hfb,
        step_input_congr sem b hbi _ _ hu]
      cases b.term.step sem (execInsts sem s' b.insts) with
      | none => rfl
      | some x =>
        cases x with
        | inl v => simp [hu, h]
        | inr nx => simp only; rw [ih nx _ _ hu, h]

theorem observe_pushAll {ι σ : Type} (F : Function ι) (pfx : List (Addr × σ)) (a : Addr × σ)
    (hp : pfx.filter (fun e => e.1 ∈ blockAddrs F.blocks) = [a]) (r : Result σ) :
    observe F (Result.pushAll pfx r) = Result.push a (observe F r) := by
  simp [observe, Result.pushAll, Result.push, List.filter_append, hp]

/-- Forward simulation: a run of the input function from a block is matched by a
run of the flattened function from the same block. -/
theorem flatten_forward {ι σ : Type} (sem : Sem ι σ) (newBB : Nat → Addr) (F : Function ι)
    (hwf : F.WellFormed) (hf : FreshFor newBB F) (hacc : Accepted F)
    (hsize : F.rest.length + 2 ≤ 2 ^ 31) (hin : F.IsInput) :
    ∀ (n : Nat) (a : Addr) (s : State σ) (r : Result σ), a ∈ blockAddrs F.blocks →
      DecodeInvariant s.g_array s.m → run sem F n a s = some r →
      ∃ n' r', run sem (runOnFunction newBB F).2 n' a s = some r' ∧ observe F r' = r := by
  intro n
  induction n with
  | zero => intro a s r _ _ h; simp [run] at h
  | succ n ih =>
    intro a s r ha hinv hrun
    obtain ⟨b, hb, rfl⟩ := mem_blocks_of_addr F a ha
    have hbi := hin.1 b hb
    rw [run_succ sem F n _ s b (findBlock_orig F hwf b hb)] at hrun
    have hedge := edge sem newBB F hwf hf hacc hsize hin b hb s hinv
    cases hstep : b.term.step sem (execInsts sem s b.insts) with
    | none => rw [hstep] at hrun; simp at hrun
    | some x =>
      rw [hstep] at hrun
      cases x with
      | inl v =>
        simp only [Option.some.injEq] at hrun
        obtain ⟨v0, hv0, hv⟩ := step_inl_ret sem b hbi _ v hstep
        refine ⟨1, _, hedge.1 v0 hv0 0, ?_⟩
        rw [← hrun, hv]
        simp [observe, List.filter, ha]
      | inr tgt =>
        simp only [Option.map_eq_some'] at hrun
        obtain ⟨r0, hr0, rfl⟩ := hrun
        obtain ⟨htgt, pfx, s2, hpfx, hu, hg, hm, hgo, _⟩ := hedge.2 tgt hstep
        rw [run_congr sem F hin.1 n tgt _ s2 hu.symm] at hr0
        obtain ⟨n', r0', hr0', hobs⟩ := ih tgt s2 r0 (List.mem_cons_of_mem _ htgt)
          (by rw [hg, hm]; exact hinv) hr0
        refine ⟨n' + pfx.length, Result.pushAll pfx r0', ?_, ?_⟩
        · rw [hgo, hr0']; rfl
        · rw [observe_pushAll F pfx _ hpfx, hobs]

theorem entry_addr_runOnFunction {ι : Type} (newBB : Nat → Addr) (F : Function ι)
    (hwf : F.WellFormed) (hf : FreshFor newBB F) (hacc : Accepted F) :
    (runOnFunction newBB F).2.entry.addr = F.entry.addr := by
  have h := (runOnFunction_blocks newBB F hwf hf hacc).2
  have h2 : flattened newBB F = (runOnFunction newBB F).2.entry :: (runOnFunction newBB F).2.rest :=
    h.symm
  obtain ⟨_, ⟨d, hd⟩ | ⟨c, t, f, hc⟩⟩ := hacc
  · simp only [flattened, flatEntry, hd, List.cons_append, List.nil_append,
      List.cons.injEq] at h2
    rw [← h2.1]; rfl
  · simp only [flattened, flatEntry, hc, List.cons_append, List.nil_append,
      List.cons.injEq] at h2
    rw [← h2.1]; rfl

theorem diamondFn_isInput : diamondFn.IsInput := by
  constructor
  · intro b hb
    simp only [diamondFn, Function.blocks, List.mem_cons, List.mem_singleton, List.not_mem_nil,
      or_false] at hb
    rcases hb with rfl | rfl | rfl | rfl <;> simp [BasicBlock.IsInput]
  · intro b hb a ha
    simp only [diamondFn, Function.blocks, List.mem_cons, List.mem_singleton, List.not_mem_nil,
      or_false] at hb
    rcases hb with rfl | rfl | rfl | rfl <;>
      simp only [Terminator.successors, List.mem_cons, List.mem_singleton, List.not_mem_nil,
        or_false] at ha <;>
      simp only [diamondFn, blockAddrs, List.map_cons, List.map_nil, List.mem_cons,
        List.mem_singleton, List.not_mem_nil, or_false] <;>
      tauto

theorem getD_lt_of_forall (table : List Nat) (bound : Nat) (hb : 0 < bound)
    (h : ∀ x ∈ table, x < bound) (i : Nat) : table.getD i 0 < bound := by
  rw [List.getD_eq_getElem?_getD]
  cases hi : table[i]? with
  | none => simpa using hb
  | some x =>
    simp only [Option.getD_some]
    exact h x (List.getElem?_mem hi)

theorem ruleOffsets_le (r off : Nat) (hr : r < 10) (h : off ∈ ruleOffsets r) : off ≤ 9 := by
  interval_cases r <;> simp [ruleOffsets] at h <;> omega

theorem cellAt_eq_specCell (table : List Nat) (m off : Nat) (hoff : off ≤ 9)
    (hm : m + 9 < 2 ^ 32) (hcells : ∀ x ∈ table, x < 2 ^ 32) :
    cellAt table m off = specCell table m off := by
  unfold cellAt specCell
  have h1 : (m + off) % wordSize = m + off := by
    apply Nat.mod_eq_of_lt
    simp only [wordSize]; omega
  rw [h1]
  apply Nat.mod_eq_of_lt
  exact getD_lt_of_forall table wordSize (by simp [wordSize])
    (fun x hx => by simpa [wordSize] using hcells x hx) _

/-- Where the 32-bit arithmetic of the emitted code does not wrap, decoding on the
machine is decoding over the integers. -/
theorem decode_eq_specDecode (table : List Nat) (m r : Nat) (hr : r < 10)
    (hm : m + 9 < 2 ^ 32) (hcells : ∀ x ∈ table, x < 2 ^ 32)
    (hprod : ((ruleOffsets r).map (specCell table m)).prod < 2 ^ 32) :
    decode table m r = specDecode table m r := by
  unfold decode specDecode
  have hmap : (ruleOffsets r).map (cellAt table m) = (ruleOffsets r).map (specCell table m) := by
    apply List.map_congr_left
    intro off hoff
    exact cellAt_eq_specCell table m off (ruleOffsets_le r off hr hoff) hm hcells
  have hlt : ((ruleOffsets r).map (specCell table m)).prod < wordSize := by
    simpa [wordSize] using hprod
  rw [hmap, Nat.mod_eq_of_lt hlt]

/-- The decode invariant stated over the integers gives the decode invariant of
the machine, where the 32-bit arithmetic does not wrap. -/
theorem decodeInvariant_of_spec (table : List Nat) (m : Nat) (hm : m + 9 < 2 ^ 32)
    (hcells : ∀ x ∈ table, x < 2 ^ 32)
    (hprod : ∀ r, r < 10 → ((ruleOffsets r).map (specCell table m)).prod < 2 ^ 32)
    (h : SpecDecodeInvariant table m) : DecodeInvariant table m := by
  intro r hr
  rw [decode_eq_specDecode table m r hr hm hcells (hprod r hr)]
  exact h r hr

theorem lookup_assignIDsFrom_not_mem {ι : Type} (l : List (BasicBlock ι)) (n : Int) (m : BBMap)
    (a : Addr) (ha : a ∉ blockAddrs l) : (assignIDsFrom l n m).2.lookup a = m.lookup a := by
  induction l generalizing n m with
  | nil => rfl
  | cons b r ih =>
    simp only [blockAddrs, List.map_cons, List.mem_cons, not_or] at ha
    simp only [assignIDsFrom]
    rw [ih _ _ ha.2]
    exact lookup_assign_ne m b.addr a n ha.1

theorem sorted_nodup (m : BBMap) (hm : BBMap.Sorted m) : m.Nodup := by
  unfold BBMap.Sorted at hm
  exact hm.imp (fun {a b} h e => by rw [e] at h; exact lt_irrefl _ h)

/-- Two maps in key order that agree on every lookup are the same map. -/
theorem sorted_ext (m1 m2 : BBMap) (h1 : BBMap.Sorted m1) (h2 : BBMap.Sorted m2)
    (h : ∀ a, m1.lookup a = m2.lookup a) : m1 = m2 := by
  have hperm : m1.Perm m2 := by
    rw [List.perm_ext_iff_of_nodup (sorted_nodup m1 h1) (sorted_nodup m2 h2)]
    rintro ⟨a, i⟩
    rw [mem_iff_lookup m1 h1, mem_iff_lookup m2 h2, h]
  haveI : IsAntisymm (Addr × Int) (fun a b => a.1 < b.1) :=
    ⟨fun a b hab hba => absurd hab (not_lt.2 (le_of_lt hba))⟩
  exact List.eq_of_perm_of_sorted hperm h1 h2

theorem length_assign_of_lookup_none (m : BBMap) (k : Addr) (v : Int) (h : m.lookup k = none) :
    (BBMap.assign m k v).length = m.length + 1 := by
  induction m with
  | nil => rfl
  | cons e t ih =>
    obtain ⟨k', v'⟩ := e
    have hne : k ≠ k' := by
      intro e
      subst e
      simp [List.lookup] at h
    have ht : t.lookup k = none := by
      rw [List.lookup_cons] at h
      have : (k == k') = false := by simpa using hne
      simpa [this] using h
    unfold BBMap.assign
    by_cases hlt : k < k'
    · simp [hlt]
    · simp [hlt, hne, ih ht]

theorem length_assignIDsFrom {ι : Type} (l : List (BasicBlock ι)) (n : Int) (m : BBMap)
    (hnd : (blockAddrs l).Nodup) (hm : ∀ a ∈ blockAddrs l, m.lookup a = none) :
    (assignIDsFrom l n m).2.length = m.length + l.length := by
  induction l generalizing n m with
  | nil => rfl
  | cons b r ih =>
    simp only [blockAddrs, List.map_cons, List.nodup_cons] at hnd
    simp only [assignIDsFrom, List.length_cons]
    rw [ih _ _ hnd.2, length_assign_of_lookup_none m b.addr n
      (hm b.addr (by simp [blockAddrs]))]
    · omega
    · intro a ha
      have hne : a ≠ b.addr := fun e => hnd.1 (e ▸ ha)
      rw [lookup_assign_ne m b.addr a n hne]
      exact hm a (by simp only [blockAddrs, List.map_cons, List.mem_cons]; exact Or.inr ha)

theorem indexOf_addr_of_getElem? {ι : Type} (l : List (BasicBlock ι))
    (hnd : (blockAddrs l).Nodup) (k : Nat) (b : BasicBlock ι) (h : l[k]? = some b) :
    b.addr ∈ blockAddrs l ∧ (blockAddrs l).indexOf b.addr = k := by
  obtain ⟨hk, hb⟩ := List.getElem?_eq_some.1 h
  have hk' : k < (blockAddrs l).length := by simpa [blockAddrs] using hk
  have e : (blockAddrs l)[k] = b.addr := by simp [blockAddrs, hb]
  refine ⟨e ▸ List.getElem_mem _, ?_⟩
  rw [← e]
  exact List.indexOf_getElem hnd k hk'

/-- C11 (BlockID uniqueness).  For a block list of `n` blocks with pairwise
distinct addresses, whatever names the blocks carry, the map filled by
`assignIDToBasicBlocks` maps the block at position `k` to the ID `k`, has no
other entry and has `n` entries: every block has an ID, the IDs are the
integers `0 .. n-1`, each is the ID of a block, and no two blocks share one. -/
theorem assignIDs_bijection {ι : Type} (blocks : List (BasicBlock ι))
    (hnd : (blockAddrs blocks).Nodup) :
    (∀ (k : Nat) (b : BasicBlock ι), blocks[k]? = some b →
      (assignIDToBasicBlocks blocks).2.lookup b.addr = some (k : Int)) ∧
    (∀ a i, (a, i) ∈ (assignIDToBasicBlocks blocks).2 →
      ∃ (k : Nat) (b : BasicBlock ι), blocks[k]? = some b ∧ b.addr = a ∧ i = (k : Int)) ∧
    (assignIDToBasicBlocks blocks).2.length = blocks.length ∧
    (∀ b ∈ blocks, 0 ≤ idOf (assignIDToBasicBlocks blocks).2 b.addr ∧
      idOf (assignIDToBasicBlocks blocks).2 b.addr < blocks.length) ∧
    (∀ k : Nat, k < blocks.length →
      ∃ b ∈ blocks, idOf (assignIDToBasicBlocks blocks).2 b.addr = (k : Int)) ∧
    (∀ b ∈ blocks, ∀ b' ∈ blocks,
      idOf (assignIDToBasicBlocks blocks).2 b.addr =
        idOf (assignIDToBasicBlocks blocks).2 b'.addr → b = b') := by
  have hlook : ∀ (k : Nat) (b : BasicBlock ι), blocks[k]? = some b →
      (assignIDToBasicBlocks blocks).2.lookup b.addr = some (k : Int) := by
    intro k b h
    obtain ⟨hmem, hidx⟩ := indexOf_addr_of_getElem? blocks hnd k b h
    unfold assignIDToBasicBlocks
    rw [lookup_assignIDsFrom blocks 0 [] hnd, if_pos hmem, hidx, zero_add]
  have hid : ∀ (k : Nat) (b : BasicBlock ι), blocks[k]? = some b →
      idOf (assignIDToBasicBlocks blocks).2 b.addr = (k : Int) := by
    intro k b h
    simp [idOf, hlook k b h]
  have hsorted : BBMap.Sorted (assignIDToBasicBlocks blocks).2 :=
    sorted_assignIDsFrom _ _ _ (by simp [BBMap.Sorted])
  refine ⟨hlook, ?_, ?_, ?_, ?_, ?_⟩
  · intro a i hai
    rw [mem_iff_lookup _ hsorted] at hai
    by_cases hmem : a ∈ blockAddrs blocks
    · obtain ⟨b, hb, rfl⟩ := List.mem_map.1 hmem
      obtain ⟨k, hk, hkb⟩ := List.getElem_of_mem hb
      have hkb2 : blocks[k]? = some b := hkb ▸ List.getElem?_eq_getElem hk
      refine ⟨k, b, hkb2, rfl, ?_⟩
      rw [hlook k b hkb2] at hai
      exact (Option.some.inj hai).symm
    · unfold assignIDToBasicBlocks at hai
      rw [lookup_assignIDsFrom_not_mem _ _ _ _ hmem] at hai
      simp at hai
  · unfold assignIDToBasicBlocks
    rw [length_assignIDsFrom blocks 0 [] hnd (fun _ _ => rfl)]
    simp
  · intro b hb
    obtain ⟨k, hk, hkb⟩ := List.getElem_of_mem hb
    rw [hid k b (hkb ▸ List.getElem?_eq_getElem hk)]
    exact ⟨Int.natCast_nonneg k, by exact_mod_cast hk⟩
  · intro k hk
    exact ⟨blocks[k], List.getElem_mem _, hid k _ (List.getElem?_eq_getElem hk)⟩
  · intro b hb b' hb' h
    obtain ⟨k, hk, hkb⟩ := List.getElem_of_mem hb
    obtain ⟨k', hk', hkb'⟩ := List.getElem_of_mem hb'
    rw [hid k b (hkb ▸ List.getElem?_eq_getElem hk),
      hid k' b' (hkb' ▸ List.getElem?_eq_getElem hk')] at h
    have hkk : k = k' := by exact_mod_cast h
    subst hkk
    rw [← hkb, ← hkb']

theorem assignIDs_bijection_witness :
    (blockAddrs diamondFn.blocks).Nodup ∧
    (assignIDToBasicBlocks diamondFn.blocks).2.lookup 20 = some ((2 : Nat) : Int) ∧
    (assignIDToBasicBlocks diamondFn.blocks).2.length = diamondFn.blocks.length :=
  ⟨by decide,
   (assignIDs_bijection diamondFn.blocks (by decide)).1 2
     { addr := 20, name := "", insts := [], term := .br 10 } rfl,
   (assignIDs_bijection diamondFn.blocks (by decide)).2.2.1⟩

theorem assignIDsFrom_snd_congr {ι : Type} (l l' : List (BasicBlock ι))
    (h : blockAddrs l = blockAddrs l') (n : Int) (m : BBMap) :
    (assignIDsFrom l n m).2 = (assignIDsFrom l' n m).2 := by
  induction l generalizing l' n m with
  | nil =>
    cases l' with
    | nil => rfl
    | cons b' r' => simp [blockAddrs] at h
  | cons b r ih =>
    cases l' with
    | nil => simp [blockAddrs] at h
    | cons b' r' =>
      simp only [blockAddrs, List.map_cons, List.cons.injEq] at h
      simp only [assignIDsFrom]
      rw [h.1]
      exact ih r' h.2 _ _

theorem bb_name_ne_empty (n : Int) : "bb" ++ toString n ≠ "" := by
  intro h
  have := congrArg String.length h
  rw [String.length_append] at this
  have h2 : "bb".length = 2 := by decide
  have h0 : "".length = 0 := by decide
  omega

theorem nameBlock_nameBlock {ι : Type} (b : BasicBlock ι) (n : Int) :
    nameBlock (nameBlock b n) n = nameBlock b n := by
  by_cases h : b.name ≠ ""
  · rw [nameBlock_of_named b n h, nameBlock_of_named b n h]
  · apply nameBlock_of_named
    unfold nameBlock
    rw [if_neg h]
    exact bb_name_ne_empty n

theorem namedFrom_namedFrom {ι : Type} (l : List (BasicBlock ι)) (n : Int) :
    namedFrom (namedFrom l n) n = namedFrom l n := by
  induction l generalizing n with
  | nil => rfl
  | cons b r ih => simp only [namedFrom, nameBlock_nameBlock, ih]

theorem lookup_assignIDsFrom_congr {ι : Type} (l : List (BasicBlock ι)) (n : Int) (m m' : BBMap)
    (h : ∀ a, a ∉ blockAddrs l → m.lookup a = m'.lookup a) (a : Addr) :
    (assignIDsFrom l n m).2.lookup a = (assignIDsFrom l n m').2.lookup a := by
  induction l generalizing n m m' with
  | nil => exact h a (by simp [blockAddrs])
  | cons b r ih =>
    simp only [assignIDsFrom]
    apply ih
    intro x hx
    by_cases hxb : x = b.addr
    · subst hxb
      rw [lookup_assign_self, lookup_assign_self]
    · rw [lookup_assign_ne _ _ _ _ hxb, lookup_assign_ne _ _ _ _ hxb]
      apply h
      simp only [blockAddrs, List.map_cons, List.mem_cons, not_or]
      exact ⟨hxb, hx⟩

/-- C12 (idempotent ID assignment).  The first run of `assignIDToBasicBlocks`
leaves the block order as it was and changes names only; a second run on the
blocks it leaves fills the same map as the first run, whether it starts from an
empty map or from the map the first run filled, and leaves every block as the
first run left it. -/
theorem assignIDs_idempotent {ι : Type} (blocks : List (BasicBlock ι)) :
    blockAddrs (assignIDToBasicBlocks blocks).1 = blockAddrs blocks ∧
    (assignIDToBasicBlocks (assignIDToBasicBlocks blocks).1).2 =
      (assignIDToBasicBlocks blocks).2 ∧
    (assignIDsFrom (assignIDToBasicBlocks blocks).1 0 (assignIDToBasicBlocks blocks).2).2 =
      (assignIDToBasicBlocks blocks).2 ∧
    (assignIDToBasicBlocks (assignIDToBasicBlocks blocks).1).1 =
      (assignIDToBasicBlocks blocks).1 := by
  have haddr : blockAddrs (assignIDToBasicBlocks blocks).1 = blockAddrs blocks := by
    unfold assignIDToBasicBlocks
    rw [assignIDsFrom_fst, blockAddrs_namedFrom]
  have hfresh : (assignIDToBasicBlocks (assignIDToBasicBlocks blocks).1).2 =
      (assignIDToBasicBlocks blocks).2 := by
    unfold assignIDToBasicBlocks
    exact assignIDsFrom_snd_congr _ _ haddr 0 []
  have hsorted : BBMap.Sorted (assignIDToBasicBlocks blocks).2 :=
    sorted_assignIDsFrom _ _ _ (by simp [BBMap.Sorted])
  refine ⟨haddr, hfresh, ?_, ?_⟩
  · rw [assignIDsFrom_snd_congr _ _ haddr 0 _]
    apply sorted_ext _ _ (sorted_assignIDsFrom _ _ _ hsorted) hsorted
    intro a
    unfold assignIDToBasicBlocks
    apply lookup_assignIDsFrom_congr
    intro x hx
    rw [lookup_assignIDsFrom_not_mem _ _ _ _ hx]
  · unfold assignIDToBasicBlocks
    rw [assignIDsFrom_fst, assignIDsFrom_fst, namedFrom_namedFrom]

theorem idOf_diamond {ι : Type} (newBB : Nat → Addr) (F : Function ι) (B C D : BasicBlock ι)
    (hrest : F.rest = [B, C, D]) (hwf : F.WellFormed) (hf : FreshFor newBB F) :
    idOf (assignedIDs newBB F).2 B.addr = 2 ∧ idOf (assignedIDs newBB F).2 C.addr = 3 ∧
    idOf (assignedIDs newBB F).2 D.addr = 4 := by
  have hnd : (blockAddrs F.blocks).Nodup := hwf
  simp only [Function.blocks, hrest, blockAddrs, List.map_cons, List.map_nil, List.nodup_cons,
    List.mem_cons, List.mem_singleton, List.not_mem_nil, or_false, not_or] at hnd
  obtain ⟨_, ⟨hBC, hBD⟩, hCD, _⟩ := hnd
  have hB := idOf_rest newBB F hwf hf B.addr (by simp [hrest, blockAddrs])
  have hC := idOf_rest newBB F hwf hf C.addr (by simp [hrest, blockAddrs])
  have hD := idOf_rest newBB F hwf hf D.addr (by simp [hrest, blockAddrs])
  simp only [hrest, blockAddrs, List.map_cons, List.map_nil] at hB hC hD
  rw [List.indexOf_cons_self] at hB
  rw [List.indexOf_cons_ne _ hBC, List.indexOf_cons_self] at hC
  rw [List.indexOf_cons_ne _ hBD, List.indexOf_cons_ne _ hCD, List.indexOf_cons_self] at hD
  exact ⟨hB, hC, hD⟩
theorem diamond_accepted {ι : Type} (F : Function ι) (B C D : BasicBlock ι) (cond : Value ι)
    (hrest : F.rest = [B, C, D]) (hA : F.entry.term = .condBr cond B.addr C.addr) :
    Accepted F :=
  ⟨by simp [hrest], Or.inr ⟨cond, B.addr, C.addr, hA⟩⟩

/-- The blocks of the flattened diamond. -/
theorem diamond_blocks {ι : Type} (newBB : Nat → Addr) (F : Function ι) (B C D : BasicBlock ι)
    (cond : Value ι) (v : Option (Value ι))
    (hrest : F.rest = [B, C, D]) (hA : F.entry.term = .condBr cond B.addr C.addr)
    (hB : B.term = .br D.addr) (hC : C.term = .br D.addr) (hD : D.term = .ret v)
    (hwf : F.WellFormed) (hf : FreshFor newBB F) :
    (runOnFunction newBB F).2.blocks =
      [⟨F.entry.addr, "entry", .alloca :: F.entry.insts, .condBr cond (newBB 2) (newBB 1)⟩,
       ⟨newBB 2, "entry.if.true", insertOpaqueSwitchIndex 2 .slot, .br (newBB 0)⟩,
       ⟨newBB 1, "entry.if.cont", insertOpaqueSwitchIndex 3 .slot, .br (newBB 0)⟩,
       ⟨newBB 0, "switch", [], .switch (.load .slot) (newBB 0)
          (switchCases (assignedIDs newBB F).2)⟩,
       ⟨B.addr, (nameBlock B 2).name, B.insts ++ insertOpaqueSwitchIndex 4 .slot,
          .br (newBB 0)⟩,
       ⟨C.addr, (nameBlock C 3).name, C.insts ++ insertOpaqueSwitchIndex 4 .slot,
          .br (newBB 0)⟩,
       nameBlock D 4] := by
  obtain ⟨iB, iC, iD⟩ := idOf_diamond newBB F B C D hrest hwf hf
  rw [(runOnFunction_blocks newBB F hwf hf (diamond_accepted F B C D cond hrest hA)).2]
  simp only [flattened, flatEntry, hA, hrest, namedFrom, flatBlocks, flatBlock, nameBlock_term,
    nameBlock_addr, nameBlock_insts, hB, hC, hD, createdFor, iB, iC, iD, splitEntry, buildSwitch,
    splitSwitch, List.cons_append, List.nil_append, List.append_nil]
  rfl
theorem diamond_isInput {ι : Type} (F : Function ι) (B C D : BasicBlock ι)
    (cond : Value ι) (v : Option (Value ι))
    (hrest : F.rest = [B, C, D]) (hA : F.entry.term = .condBr cond B.addr C.addr)
    (hB : B.term = .br D.addr) (hC : C.term = .br D.addr) (hD : D.term = .ret v)
    (hin : ∀ b ∈ F.blocks, b.IsInput) : F.IsInput := by
  refine ⟨hin, ?_⟩
  intro b hb a ha
  simp only [Function.blocks, hrest, List.mem_cons, List.mem_singleton, List.not_mem_nil,
    or_false] at hb
  rcases hb with rfl | rfl | rfl | rfl
  · rw [hA] at ha
    simp only [Terminator.successors, List.mem_cons, List.mem_singleton, List.not_mem_nil,
      or_false] at ha
    rcases ha with rfl | rfl <;> simp [hrest, blockAddrs]
  · rw [hB] at ha
    simp only [Terminator.successors, List.mem_singleton] at ha
    subst ha
    simp [hrest, blockAddrs]
  · rw [hC] at ha
    simp only [Terminator.successors, List.mem_singleton] at ha
    subst ha
    simp [hrest, blockAddrs]
  · rw [hD] at ha
    simp [Terminator.successors] at ha

/-- The run of the diamond through the arm `X` (one of `B`, `C`). -/
theorem diamond_run {ι σ : Type} (sem : Sem ι σ) (F : Function ι) (X D : BasicBlock ι)
    (v : Option (Value ι)) (hX : X ∈ F.blocks) (hDm : D ∈ F.blocks)
    (hXt : X.term = .br D.addr) (hD : D.term = .ret v) (hwf : F.WellFormed) (s : State σ)
    (hstep : F.entry.term.step sem (execInsts sem s F.entry.insts) = some (.inr X.addr)) :
    runFunction sem F 3 s = some (pathResult sem s F.entry X D v) := by
  unfold runFunction
  rw [run_succ sem F 2 _ s F.entry (findBlock_orig F hwf F.entry (List.mem_cons_self _ _)), hstep]
  simp only
  rw [run_succ sem F 1 _ _ X (findBlock_orig F hwf X hX), hXt]
  simp only [Terminator.step]
  rw [run_succ sem F 0 _ _ D (findBlock_orig F hwf D hDm), hD]
  simp only [Terminator.step, Option.map_some', Result.push, pathResult]

/-- C13 (scenario: diamond).  For every function `A` (entry, conditional on
`cond` to `B`, `C`), `B` (branch to `D`), `C` (branch to `D`), `D` (return) made of
blocks of an input program: the pass reports a change; the flattened function
is the entry block `A` with the slot, ending in the conditional on `cond` whose
arms are two blocks that store the encoded IDs 2 and 3 of `B` and `C` and branch
to the switch block, then the switch block, then `B` and `C` storing the encoded
ID 4 of `D` and branching to the switch block, then `D` as it was; the switch
takes the values 2, 3 and 4 to `B`, `C` and `D` and no two of its cases have the
same value; and from every state whose table and `m` satisfy the decode
invariant, when `cond` holds after the instructions of `A` both functions
execute `A`, `B`, `D` and return the same, and otherwise both execute `A`, `C`,
`D` and return the same. -/
theorem diamond_scenario {ι σ : Type} (sem : Sem ι σ) (newBB : Nat → Addr) (F : Function ι)
    (B C D : BasicBlock ι) (cond : Value ι) (v : Option (Value ι))
    (hrest : F.rest = [B, C, D]) (hA : F.entry.term = .condBr cond B.addr C.addr)
    (hB : B.term = .br D.addr) (hC : C.term = .br D.addr) (hD : D.term = .ret v)
    (hwf : F.WellFormed) (hf : FreshFor newBB F) (hin : ∀ b ∈ F.blocks, b.IsInput)
    (s : State σ) (hinv : DecodeInvariant s.g_array s.m) :
    (runOnFunction newBB F).1 = true ∧
    (runOnFunction newBB F).2.blocks =
      [⟨F.entry.addr, "entry", .alloca :: F.entry.insts, .condBr cond (newBB 2) (newBB 1)⟩,
       ⟨newBB 2, "entry.if.true", insertOpaqueSwitchIndex 2 .slot, .br (newBB 0)⟩,
       ⟨newBB 1, "entry.if.cont", insertOpaqueSwitchIndex 3 .slot, .br (newBB 0)⟩,
       ⟨newBB 0, "switch", [], .switch (.load .slot) (newBB 0)
          (switchCases (assignedIDs newBB F).2)⟩,
       ⟨B.addr, (nameBlock B 2).name, B.insts ++ insertOpaqueSwitchIndex 4 .slot,
          .br (newBB 0)⟩,
       ⟨C.addr, (nameBlock C 3).name, C.insts ++ insertOpaqueSwitchIndex 4 .slot,
          .br (newBB 0)⟩,
       nameBlock D 4] ∧
    findCase (switchCases (assignedIDs newBB F).2) 2 = some (2, B.addr) ∧
    findCase (switchCases (assignedIDs newBB F).2) 3 = some (3, C.addr) ∧
    findCase (switchCases (assignedIDs newBB F).2) 4 = some (4, D.addr) ∧
    ((switchCases (assignedIDs newBB F).2).map Prod.fst).Nodup ∧
    (Value.eval sem (execInsts sem s F.entry.insts) cond % 2 = 1 →
      runFunction sem F 3 s = some (pathResult sem s F.entry B D v) ∧
      ∃ n r', runFunction sem (runOnFunction newBB F).2 n s = some r' ∧
        observe F r' = pathResult sem s F.entry B D v) ∧
    (¬ Value.eval sem (execInsts sem s F.entry.insts) cond % 2 = 1 →
      runFunction sem F 3 s = some (pathResult sem s F.entry C D v) ∧
      ∃ n r', runFunction sem (runOnFunction newBB F).2 n s = some r' ∧
        observe F r' = pathResult sem s F.entry C D v) := by
  have hacc := diamond_accepted F B C D cond hrest hA
  have hinF := diamond_isInput F B C D cond v hrest hA hB hC hD hin
  have hsize : F.rest.length + 2 ≤ 2 ^ 31 := by rw [hrest]; norm_num
  obtain ⟨iB, iC, iD⟩ := idOf_diamond newBB F B C D hrest hwf hf
  have hcase : ∀ (t : Addr) (k : Nat), t ∈ blockAddrs F.rest →
      idOf (assignedIDs newBB F).2 t = (k : Int) →
      findCase (switchCases (assignedIDs newBB F).2) k = some ((k : Int), t) := by
    intro t k ht hk
    obtain ⟨k', _, hid, hfc⟩ := findCase_id newBB F hwf hf hsize t ht
    have : k' = k := by rw [hid] at hk; exact_mod_cast hk
    subst this
    exact hfc
  have hBm : B ∈ F.blocks := by simp [Function.blocks, hrest]
  have hCm : C ∈ F.blocks := by simp [Function.blocks, hrest]
  have hDm : D ∈ F.blocks := by simp [Function.blocks, hrest]
  have hfwd : ∀ r, runFunction sem F 3 s = some r →
      ∃ n r', runFunction sem (runOnFunction newBB F).2 n s = some r' ∧ observe F r' = r := by
    intro r hr
    unfold runFunction at hr ⊢
    rw [entry_addr_runOnFunction newBB F hwf hf hacc]
    exact flatten_forward sem newBB F hwf hf hacc hsize hinF 3 _ s r
      (by simp [blockAddrs, Function.blocks]) hinv hr
  refine ⟨(runOnFunction_blocks newBB F hwf hf hacc).1,
    diamond_blocks newBB F B C D cond v hrest hA hB hC hD hwf hf,
    hcase B.addr 2 (by simp [hrest, blockAddrs]) iB,
    hcase C.addr 3 (by simp [hrest, blockAddrs]) iC,
    hcase D.addr 4 (by simp [hrest, blockAddrs]) iD,
    switchCases_values_nodup newBB F hwf hf, ?_, ?_⟩
  · intro hc
    have hrun := diamond_run sem F B D v hBm hDm hB hD hwf s
      (by rw [hA]; simp only [Terminator.step, hc, if_true])
    exact ⟨hrun, hfwd _ hrun⟩
  · intro hc
    have hrun := diamond_run sem F C D v hCm hDm hC hD hwf s
      (by rw [hA]; simp only [Terminator.step, hc, if_false])
    exact ⟨hrun, hfwd _ hrun⟩
/-- The diamond with the initial table, started with the counter at 0 (so that the
condition holds) and at 1 (so that it does not): the scenario's facts and the two
runs of the flattened function. -/
theorem diamond_scenario_witness :
    DecodeInvariant (countState 0 0).g_array (countState 0 0).m ∧
    (runOnFunction (newBBFrom 100) diamondFn).1 = true ∧
    (∃ n r', runFunction countSem (runOnFunction (newBBFrom 100) diamondFn).2 n
        (countState 0 0) = some r' ∧
      observe diamondFn r' =
        { trace := [(40, 0), (30, 1), (10, 2)], user := 2, ret := some 0 }) ∧
    (∃ n r', runFunction countSem (runOnFunction (newBBFrom 100) diamondFn).2 n
        (countState 1 0) = some r' ∧
      observe diamondFn r' =
        { trace := [(40, 1), (20, 2), (10, 2)], user := 2, ret := some 0 }) := by
  have h0 := diamond_scenario countSem (newBBFrom 100) diamondFn
    { addr := 30, name := "B", insts := [.orig ()], term := .br 10 }
    { addr := 20, name := "", insts := [], term := .br 10 }
    { addr := 10, name := "D", insts := [], term := .ret (some (.orig ())) }
    (.orig ()) (some (.orig ())) rfl rfl rfl rfl rfl diamondFn_wellFormed diamondFn_fresh
    diamondFn_isInput.1 (countState 0 0) (by decide)
  have h1 := diamond_scenario countSem (newBBFrom 100) diamondFn
    { addr := 30, name := "B", insts := [.orig ()], term := .br 10 }
    { addr := 20, name := "", insts := [], term := .br 10 }
    { addr := 10, name := "D", insts := [], term := .ret (some (.orig ())) }
    (.orig ()) (some (.orig ())) rfl rfl rfl rfl rfl diamondFn_wellFormed diamondFn_fresh
    diamondFn_isInput.1 (countState 1 0) (by decide)
  exact ⟨by decide, h0.1, (h0.2.2.2.2.2.2.1 (by decide)).2, (h1.2.2.2.2.2.2.2 (by decide)).2⟩

/-- The two runs of the flattened diamond with the initial table, block by block. -/
theorem diamond_flattened_runs :
    runFunction countSem (runOnFunction (newBBFrom 100) diamondFn).2 6 (countState 0 0) =
      some { trace := [(40, 0), (102, 1), (100, 1), (30, 1), (100, 2), (10, 2)],
             user := 2, ret := some 0 } ∧
    runFunction countSem (runOnFunction (newBBFrom 100) diamondFn).2 6 (countState 1 0) =
      some { trace := [(40, 1), (101, 2), (100, 2), (20, 2), (100, 2), (10, 2)],
             user := 2, ret := some 0 } :=
  ⟨rfl, rfl⟩

theorem tmod_digit (q r : Nat) (hr : r < 10) :
    Int.tmod ((q * 10 + r : Nat) : Int) 10 = (r : Int) := by
  rw [tmod_ten_ofNat]
  congr 1
  omega

theorem tdiv_digit (q r : Nat) (hr : r < 10) :
    Int.tdiv ((q * 10 + r : Nat) : Int) 10 * 10 = (q : Int) * 10 := by
  rw [tdiv_ten_ofNat]
  have : (q * 10 + r) / 10 * 10 = q * 10 := by omega
  rw [this]
  push_cast
  rfl

/-- The ten cases of `insertOpaqueSwitchIndex` emit what the data-driven routine
emits for the remainder digit and the quotient. -/
theorem insertOpaqueSwitchIndex_eq_encodeByRule {ι : Type} (q r : Nat) (hr : r < 10)
    (destination : Value ι) :
    insertOpaqueSwitchIndex ((q * 10 + r : Nat) : Int) destination =
      encodeByRule r (q : Int) destination := by
  unfold insertOpaqueSwitchIndex
  simp only [tmod_digit q r hr, tdiv_digit q r hr]
  interval_cases r <;>
    simp [encodeByRule, cellProduct, readCell, ruleOffsets, ruleModulus, targetPtr, arrayIndex]

theorem eval_readCell {ι σ : Type} (sem : Sem ι σ) (s : State σ) (off : Nat) (hoff : off < 10) :
    Value.eval sem s (readCell off) = cellAt s.g_array s.m off :=
  eval_load_targetPtr sem s off hoff

theorem eval_constInt_nat {ι σ : Type} (sem : Sem ι σ) (s : State σ) (k : Nat) :
    Value.eval sem s (.constInt (k : Int)) = k % wordSize := by
  simp only [Value.eval]
  rw [← Int.natCast_mod, Int.toNat_natCast]

/-- The value the data-driven routine stores: the rule of `r` decoded on the
current table in 32-bit arithmetic, plus `quotient * 10`, as a 32-bit word. -/
theorem encodeByRule_exec {ι σ : Type} (sem : Sem ι σ) (s : State σ) (q r : Nat) (hr : r < 10) :
    execInsts sem s (encodeByRule r (q : Int) (.slot : Value ι)) =
      { s with switch_index := (decode s.g_array s.m r + q * 10) % wordSize } := by
  have hq : Value.eval sem s (.constInt ((q : Int) * 10)) = (q * 10) % wordSize := by
    have := eval_constInt_nat sem s (q * 10)
    push_cast at this
    exact this
  have hc : ∀ k : Nat, k < 2 ^ 31 → Value.eval sem s (.constInt (k : Int)) = k :=
    fun k hk => constInt_eval_ofNat sem s k (by simp only [wordSize]; omega)
  have h5 := hc 5 (by norm_num)
  have h7 := hc 7 (by norm_num)
  have h11 := hc 11 (by norm_num)
  have l0 := eval_readCell sem s 0 (by norm_num)
  have l1 := eval_readCell sem s 1 (by norm_num)
  have l2 := eval_readCell sem s 2 (by norm_num)
  have l3 := eval_readCell sem s 3 (by norm_num)
  have l4 := eval_readCell sem s 4 (by norm_num)
  have l5 := eval_readCell sem s 5 (by norm_num)
  have l6 := eval_readCell sem s 6 (by norm_num)
  have l7 := eval_readCell sem s 7 (by norm_num)
  have l8 := eval_readCell sem s 8 (by norm_num)
  have l9 := eval_readCell sem s 9 (by norm_num)
  simp only [Nat.cast_ofNat] at h5 h7 h11
  interval_cases r <;>
    norm_num [encodeByRule, cellProduct, execInsts, Instr.exec, eval_add, eval_mul, eval_urem,
      hq, h5, h7, h11, l0, l1, l2, l3, l4, l5, l6, l7, l8, l9, decode, ruleOffsets, ruleModulus,
      cellAt_mod, Nat.mod_mul_mod, Nat.mul_assoc]
/-- C15 (rule-table refinement).  For every remainder digit `r` in `0..9` and every
quotient, the case of `insertOpaqueSwitchIndex` for `r` emits exactly the
operations of the single data-driven routine for the rule of `r` (offsets and
modulus 0:[9]/7, 1:[0,2]/5, 2:[1,2]/5, 3:[0,1]/5, 4:[0,1,2]/5, 5:[6,8]/11,
6:[6,7]/11, 7:[5]/11, 8:[3,4,5]/11, 9:[3,4]/11); for every table and every `m`
the value it stores is the product of the cells at the rule's offsets relative
to `m`, modulo the rule's modulus, plus `quotient * 10`, in the 32-bit
arithmetic of the emitted operations; and where no sum or product wraps this is
the same expression over the integers. -/
theorem rule_table_refinement {ι σ : Type} (sem : Sem ι σ) (q r : Nat) (hr : r < 10) :
    (∀ destination : Value ι,
      insertOpaqueSwitchIndex ((q * 10 + r : Nat) : Int) destination =
        encodeByRule r (q : Int) destination) ∧
    (∀ s : State σ,
      execInsts sem s (insertOpaqueSwitchIndex ((q * 10 + r : Nat) : Int) (.slot : Value ι)) =
        { s with switch_index := (decode s.g_array s.m r + q * 10) % wordSize }) ∧
    (∀ s : State σ, s.m + 9 < 2 ^ 32 → (∀ x ∈ s.g_array, x < 2 ^ 32) →
      ((ruleOffsets r).map (specCell s.g_array s.m)).prod < 2 ^ 32 →
      q * 10 + ruleModulus r ≤ 2 ^ 32 →
      execInsts sem s (insertOpaqueSwitchIndex ((q * 10 + r : Nat) : Int) (.slot : Value ι)) =
        { s with switch_index := specDecode s.g_array s.m r + q * 10 }) := by
  have h2 : ∀ s : State σ,
      execInsts sem s (insertOpaqueSwitchIndex ((q * 10 + r : Nat) : Int) (.slot : Value ι)) =
        { s with switch_index := (decode s.g_array s.m r + q * 10) % wordSize } := by
    intro s
    rw [insertOpaqueSwitchIndex_eq_encodeByRule q r hr, encodeByRule_exec sem s q r hr]
  refine ⟨insertOpaqueSwitchIndex_eq_encodeByRule q r hr, h2, ?_⟩
  intro s hm hcells hprod hq
  rw [h2 s, decode_eq_specDecode s.g_array s.m r hr hm hcells hprod]
  have hlt : specDecode s.g_array s.m r < ruleModulus r := by
    unfold specDecode
    apply Nat.mod_lt
    interval_cases r <;> simp [ruleModulus]
  have : (specDecode s.g_array s.m r + q * 10) % wordSize =
      specDecode s.g_array s.m r + q * 10 := by
    apply Nat.mod_eq_of_lt
    simp only [wordSize]
    omega
  rw [this]

/-- The case for remainder 3 with quotient 2 (target 23): the emitted operations
are those of the rule `[0, 1]` modulo 5, and on the initial table they store
`2 * 4 % 5 + 20`. -/
theorem rule_table_refinement_witness :
    3 < 10 ∧
    insertOpaqueSwitchIndex 23 (.slot : Value Unit) = encodeByRule 3 2 .slot ∧
    execInsts unitSem (initState 0) (insertOpaqueSwitchIndex 23 (.slot : Value Unit)) =
      { initState 0 with switch_index := 2 * 4 % 5 + 20 } :=
  ⟨by decide, (rule_table_refinement unitSem 2 3 (by decide)).1 .slot,
   (rule_table_refinement unitSem 2 3 (by decide)).2.2 (initState 0) (by decide) (by decide)
     (by decide) (by decide)⟩

theorem encoderTargets_diamond : encoderTargets (newBBFrom 100) diamondFn = [2, 3, 4, 4] := by
  decide

theorem encoderTargets_twoBlock : encoderTargets (newBBFrom 100) twoBlockFn = [2] := by
  decide

theorem assign_nonneg (m : BBMap) (k : Addr) (v : Int) (hv : 0 ≤ v)
    (hm : ∀ e ∈ m, 0 ≤ e.2) : ∀ e ∈ BBMap.assign m k v, 0 ≤ e.2 := by
  intro e he
  rcases mem_assign_imp m k v e he with h | h
  · rw [h]; exact hv
  · exact hm e h
theorem mem_of_lookup (m : BBMap) (k : Addr) (v : Int) (h : m.lookup k = some v) :
    (k, v) ∈ m := by
  induction m with
  | nil => simp at h
  | cons e t ih =>
    obtain ⟨k', v'⟩ := e
    rw [List.lookup_cons] at h
    by_cases hk : k = k'
    · subst hk
      simp only [beq_self_eq_true, Option.some.injEq] at h
      subst h
      exact List.mem_cons_self _ _
    · have : (k == k') = false := by simpa using hk
      rw [this] at h
      exact List.mem_cons_of_mem _ (ih h)

theorem idOf_nonneg (m : BBMap) (hm : ∀ e ∈ m, 0 ≤ e.2) (k : Addr) : 0 ≤ idOf m k := by
  unfold idOf
  cases h : m.lookup k with
  | none => simp
  | some v => exact hm (k, v) (mem_of_lookup m k v h)

theorem index_nonneg (m : BBMap) (hm : ∀ e ∈ m, 0 ≤ e.2) (k : Addr) :
    ∀ e ∈ (BBMap.index m k).2, 0 ≤ e.2 := by
  unfold BBMap.index
  cases h : m.lookup k with
  | none => exact assign_nonneg m k 0 (le_refl 0) hm
  | some v => exact hm

theorem assignIDsFrom_nonneg {ι : Type} (l : List (BasicBlock ι)) (n : Int) (m : BBMap)
    (hn : 0 ≤ n) (hm : ∀ e ∈ m, 0 ≤ e.2) : ∀ e ∈ (assignIDsFrom l n m).2, 0 ≤ e.2 := by
  induction l generalizing n m with
  | nil => exact hm
  | cons b r ih =>
    simp only [assignIDsFrom]
    exact ih (n + 1) _ (by omega) (assign_nonneg m b.addr n hn hm)

theorem assignedIDs_nonneg {ι : Type} (newBB : Nat → Addr) (F : Function ι) :
    ∀ e ∈ (assignedIDs newBB F).2, 0 ≤ e.2 :=
  assignIDsFrom_nonneg _ 0 [] (le_refl 0) (by simp)

theorem retargetStep_nonneg {ι : Type} (newBB : Nat → Addr) (sw : Addr) (st : LoopState ι)
    (b : BasicBlock ι) (r : List (BasicBlock ι)) (hm : ∀ e ∈ st.BBMap, 0 ≤ e.2) :
    (∀ e ∈ (retargetStep newBB sw st b r).BBMap, 0 ≤ e.2) ∧
    ∀ t ∈ retargetStepTargets st b, 0 ≤ t := by
  unfold retargetStep retargetStepTargets
  by_cases hs : b.addr ∈ st.BBSkip
  · simp only [hs, if_true]
    exact ⟨hm, by simp⟩
  · simp only [hs, if_false]
    cases b.term with
    | br d =>
      refine ⟨index_nonneg _ hm d, ?_⟩
      intro t ht
      simp only [List.mem_singleton] at ht
      rw [ht, index_fst]
      exact idOf_nonneg _ hm d
    | condBr c t0 f0 =>
      refine ⟨index_nonneg _ (index_nonneg _ hm t0) f0, ?_⟩
      intro t ht
      simp only [List.mem_cons, List.mem_singleton, List.not_mem_nil, or_false] at ht
      rcases ht with h | h
      · rw [h, index_fst]
        exact idOf_nonneg _ hm t0
      · rw [h, index_fst]
        exact idOf_nonneg _ (index_nonneg _ hm t0) f0
    | ret v => exact ⟨hm, by simp⟩
    | switch v d cs => exact ⟨hm, by simp⟩
    | unreachable => exact ⟨hm, by simp⟩

theorem retargetLoopTargets_nonneg {ι : Type} (newBB : Nat → Addr) (sw : Addr) :
    ∀ (fuel : Nat) (st : LoopState ι), (∀ e ∈ st.BBMap, 0 ≤ e.2) →
      ∀ t ∈ retargetLoopTargets newBB sw fuel st, 0 ≤ t := by
  intro fuel
  induction fuel with
  | zero => intro st _ t ht; simp [retargetLoopTargets] at ht
  | succ n ih =>
    intro st hm t ht
    unfold retargetLoopTargets at ht
    cases htodo : st.todo with
    | nil => rw [htodo] at ht; simp at ht
    | cons b r =>
      rw [htodo] at ht
      simp only [List.mem_append] at ht
      have hstep := retargetStep_nonneg newBB sw st b r hm
      rcases ht with h | h
      · exact hstep.2 t h
      · exact ih _ hstep.1 t h

theorem encoderTargets_nonneg {ι : Type} (newBB : Nat → Addr) (F : Function ι) :
    ∀ t ∈ encoderTargets newBB F, 0 ≤ t := by
  intro t ht
  have hids := assignedIDs_nonneg newBB F
  unfold encoderTargets at ht
  split_ifs at ht with h1
  · simp at ht
  · cases hterm : F.entry.term with
    | br d =>
      rw [hterm] at ht
      simp only [List.mem_cons] at ht
      rcases ht with h | h
      · rw [h, index_fst]
        exact idOf_nonneg _ hids d
      · exact retargetLoopTargets_nonneg newBB _ _ _ (index_nonneg _ hids d) t h
    | condBr c t0 f0 =>
      rw [hterm] at ht
      simp only [List.mem_cons] at ht
      rcases ht with h | h | h
      · rw [h, index_fst]
        exact idOf_nonneg _ hids t0
      · rw [h, index_fst]
        exact idOf_nonneg _ (index_nonneg _ hids t0) f0
      · exact retargetLoopTargets_nonneg newBB _ _ _
          (index_nonneg _ (index_nonneg _ hids t0) f0) t h
    | ret v => rw [hterm] at ht; simp at ht
    | switch v d cs => rw [hterm] at ht; simp at ht
    | unreachable => rw [hterm] at ht; simp at ht

/-- C14 (remainder range).  Every target that `runOnFunction` passes to
`insertOpaqueSwitchIndex` is non-negative (it is `BBMap[succ]`: an ID assigned by
`assignIDToBasicBlocks`, or the 0 of a key that was missing), so its remainder
`target % 10` lies in `[0, 9]`, the `default` branch is not taken, and the
operations emitted are exactly those of the one rule of that remainder. -/
theorem encoder_remainder_in_range {ι : Type} (newBB : Nat → Addr) (F : Function ι) :
    ∀ t ∈ encoderTargets newBB F,
      0 ≤ t ∧ 0 ≤ Int.tmod t 10 ∧ Int.tmod t 10 ≤ 9 ∧
      ∀ destination : Value ι,
        insertOpaqueSwitchIndex t destination ≠ [] ∧
        insertOpaqueSwitchIndex t destination =
          encodeByRule (Int.tmod t 10).toNat (Int.tdiv t 10) destination := by
  intro t ht
  have h0 := encoderTargets_nonneg newBB F t ht
  obtain ⟨n, rfl⟩ := Int.eq_ofNat_of_zero_le h0
  have hr : n % 10 < 10 := Nat.mod_lt _ (by norm_num)
  have hn : n = n / 10 * 10 + n % 10 := by omega
  have hmod : Int.tmod (n : Int) 10 = ((n % 10 : Nat) : Int) := tmod_ten_ofNat n
  have hdiv : Int.tdiv (n : Int) 10 = ((n / 10 : Nat) : Int) := by
    rw [Int.tdiv_eq_ediv (by positivity) (by norm_num)]; push_cast; rfl
  have hcode : ∀ destination : Value ι,
      insertOpaqueSwitchIndex (n : Int) destination =
        encodeByRule (Int.tmod (n : Int) 10).toNat (Int.tdiv (n : Int) 10) destination := by
    intro destination
    rw [hmod, hdiv, Int.toNat_natCast]
    have := insertOpaqueSwitchIndex_eq_encodeByRule (n / 10) (n % 10) hr destination
    rw [← hn] at this
    exact this
  refine ⟨h0, ?_, ?_, ?_⟩
  · rw [hmod]; positivity
  · rw [hmod]; exact_mod_cast Nat.le_of_lt_succ hr
  · intro destination
    refine ⟨?_, hcode destination⟩
    rw [hcode destination]
    simp [encodeByRule]
/-- The diamond: 4, the ID of `D`, is passed to the encoder; its remainder is 4 and
the operations emitted are those of rule 4. -/
theorem encoder_remainder_in_range_witness :
    (4 : Int) ∈ encoderTargets (newBBFrom 100) diamondFn ∧
    Int.tmod 4 10 ≤ 9 ∧
    insertOpaqueSwitchIndex 4 (.slot : Value Unit) = encodeByRule 4 0 .slot :=
  ⟨by decide,
   (encoder_remainder_in_range (newBBFrom 100) diamondFn 4 (by decide)).2.2.1,
   ((encoder_remainder_in_range (newBBFrom 100) diamondFn 4 (by decide)).2.2.2 .slot).2⟩

theorem lookup_of_getElem? {ι : Type} (blocks : List (BasicBlock ι))
    (hnd : (blockAddrs blocks).Nodup) (k : Nat) (b : BasicBlock ι) (h : blocks[k]? = some b) :
    (assignIDToBasicBlocks blocks).2.lookup b.addr = some (k : Int) := by
  obtain ⟨hmem, hidx⟩ := indexOf_addr_of_getElem? blocks hnd k b h
  unfold assignIDToBasicBlocks
  rw [lookup_assignIDsFrom blocks 0 [] hnd, if_pos hmem, hidx, zero_add]

/-- C16, counterexample: flattening the diamond, whose first block after the entry
block is `B` at address 30, `assignIDToBasicBlocks` gives `B` the ID 2; the ID 0
goes to the entry block (address 40) and the ID 1 to the switch block
(address 100). -/
theorem first_block_id_is_two :
    (assignedIDs (newBBFrom 100) diamondFn).2 = [(10, 4), (20, 3), (30, 2), (40, 0), (100, 1)] ∧
    diamondFn.rest.head? = some { addr := 30, name := "B", insts := [.orig ()], term := .br 10 } ∧
    idOf (assignedIDs (newBBFrom 100) diamondFn).2 30 = 2 ∧
    idOf (assignedIDs (newBBFrom 100) diamondFn).2 30 ≠ 0 ∧
    idOf (assignedIDs (newBBFrom 100) diamondFn).2 diamondFn.entry.addr = 0 := by
  decide

/-- C16, amended: in the ID assignment performed by `runOnFunction` (after the
entry block is split), the ID 0 is given to the entry block, the ID 1 to the
switch block, and the block at position `k` among the other blocks, in block
order, gets the ID `k + 2`: the first of them gets 2 and the IDs increase by one
along the block order. -/
theorem blockID_numbering {ι : Type} (newBB : Nat → Addr) (F : Function ι)
    (hwf : F.WellFormed) (hf : FreshFor newBB F) :
    (assignedIDs newBB F).2.lookup F.entry.addr = some 0 ∧
    (assignedIDs newBB F).2.lookup (newBB 0) = some 1 ∧
    ∀ (k : Nat) (b : BasicBlock ι), F.rest[k]? = some b →
      (assignedIDs newBB F).2.lookup b.addr = some ((k : Int) + 2) := by
  have hnd : (blockAddrs ({ F.entry with name := "entry", term := .br (newBB 0) } ::
      splitSwitch newBB F :: F.rest)).Nodup := by
    simpa [blockAddrs, splitSwitch, addrsAtAssign] using nodup_addrsAtAssign newBB F hwf hf
  refine ⟨?_, ?_, ?_⟩
  · exact lookup_of_getElem? _ hnd 0
      { F.entry with name := "entry", term := .br (newBB 0) } rfl
  · exact lookup_of_getElem? _ hnd 1 (splitSwitch newBB F) (by simp)
  · intro k b h
    have := lookup_of_getElem? _ hnd (k + 2) b (by simpa using h)
    unfold assignedIDs
    rw [this]
    push_cast
    rfl

theorem blockID_numbering_witness :
    diamondFn.WellFormed ∧ FreshFor (newBBFrom 100) diamondFn ∧
    (assignedIDs (newBBFrom 100) diamondFn).2.lookup 40 = some 0 ∧
    (assignedIDs (newBBFrom 100) diamondFn).2.lookup 100 = some 1 ∧
    (assignedIDs (newBBFrom 100) diamondFn).2.lookup 30 = some 2 :=
  ⟨diamondFn_wellFormed, diamondFn_fresh,
   (blockID_numbering (newBBFrom 100) diamondFn diamondFn_wellFormed diamondFn_fresh).1,
   (blockID_numbering (newBBFrom 100) diamondFn diamondFn_wellFormed diamondFn_fresh).2.1,
   (blockID_numbering (newBBFrom 100) diamondFn diamondFn_wellFormed diamondFn_fresh).2.2 0
     { addr := 30, name := "B", insts := [.orig ()], term := .br 10 } rfl⟩

/-- C19, counterexample: for the two-block function the cases are added in the order
2, 1 when the switch block is allocated above `B`, and in the order 1, 2 when it is
allocated below `B`: the order follows the block addresses, not the IDs, and
differs between two runs on the same function with the same block order. -/
theorem case_order_follows_addresses :
    switchCases (assignedIDs (newBBFrom 100) twoBlockFn).2 = [(2, 2), (1, 100)] ∧
    ¬ ((switchCases (assignedIDs (newBBFrom 100) twoBlockFn).2).map Prod.fst).Pairwise
        (fun a b => a < b) ∧
    switchCases (assignedIDs newBBLow twoBlockFn).2 = [(1, 0), (2, 2)] ∧
    findBlock (runOnFunction (newBBFrom 100) twoBlockFn).2 100 =
      some { addr := 100, name := "switch", insts := [],
             term := .switch (.load .slot) 100 [(2, 2), (1, 100)] } ∧
    findBlock (runOnFunction newBBLow twoBlockFn).2 0 =
      some { addr := 0, name := "switch", insts := [],
             term := .switch (.load .slot) 0 [(1, 0), (2, 2)] } := by
  decide

theorem pairwise_trichotomy {α : Type} (R : α → α → Prop) (l : List α) (h : l.Pairwise R)
    (x y : α) (hx : x ∈ l) (hy : y ∈ l) : x = y ∨ R x y ∨ R y x := by
  induction l with
  | nil => simp at hx
  | cons a t ih =>
    rw [List.pairwise_cons] at h
    rcases List.mem_cons.1 hx with hxa | hxt
    · rcases List.mem_cons.1 hy with hya | hyt
      · exact Or.inl (hxa.trans hya.symm)
      · exact Or.inr (Or.inl (hxa ▸ h.1 y hyt))
    · rcases List.mem_cons.1 hy with hya | hyt
      · exact Or.inr (Or.inr (hya ▸ h.1 x hxt))
      · exact ih h.2 hxt hyt

theorem indexOf_lt_of_sorted (L : List Addr) (hs : L.Pairwise (fun a b => a < b))
    (a b : Addr) (ha : a ∈ L) (hb : b ∈ L) (hab : a < b) : L.indexOf a < L.indexOf b := by
  by_contra hnot
  have hle : L.indexOf b ≤ L.indexOf a := Nat.le_of_not_lt hnot
  have hia := List.indexOf_lt_length.2 ha
  have hib := List.indexOf_lt_length.2 hb
  rcases Nat.lt_or_eq_of_le hle with hlt | heq
  · have := (List.pairwise_iff_getElem.1 hs) _ _ hib hia hlt
    rw [List.getElem_indexOf hib, List.getElem_indexOf hia] at this
    exact absurd hab (not_lt.2 (le_of_lt this))
  · have : b = a := (List.indexOf_inj hb ha).1 heq
    rw [this] at hab
    exact lt_irrefl _ hab

/-- The cases of the switch: one for the switch block and for each block after the
entry block, with its position among them plus one as value. -/
theorem mem_switchCases_assignedIDs {ι : Type} (newBB : Nat → Addr) (F : Function ι)
    (hwf : F.WellFormed) (hf : FreshFor newBB F) (i : Int) (a : Addr) :
    (i, a) ∈ switchCases (assignedIDs newBB F).2 ↔
      a ∈ newBB 0 :: blockAddrs F.rest ∧
        i = (((newBB 0 :: blockAddrs F.rest).indexOf a + 1 : Nat) : Int) := by
  have hnd := nodup_addrsAtAssign newBB F hwf hf
  simp only [addrsAtAssign, List.nodup_cons] at hnd
  rw [mem_switchCases _ (sorted_assignedIDs newBB F), lookup_assignedIDs newBB F hwf hf]
  by_cases hmem : a ∈ newBB 0 :: blockAddrs F.rest
  · have hne : F.entry.addr ≠ a := fun e => hnd.1 (e ▸ hmem)
    have hmem2 : a ∈ addrsAtAssign newBB F := List.mem_cons_of_mem _ hmem
    simp only [hmem2, hmem, if_true, true_and, Option.some.injEq]
    simp only [addrsAtAssign, List.indexOf_cons_ne _ hne]
    constructor
    · rintro ⟨h, _⟩; exact h.symm
    · intro h
      refine ⟨h.symm, ?_⟩
      rw [h]
      have hpos : (newBB 0 :: blockAddrs F.rest).indexOf a + 1 ≠ 0 := Nat.succ_ne_zero _
      exact_mod_cast hpos
  · simp only [hmem, false_and, iff_false, not_and, not_not]
    intro h
    by_cases hmem2 : a ∈ addrsAtAssign newBB F
    · simp only [hmem2, if_true, Option.some.injEq] at h
      have hae : a = F.entry.addr := by
        simp only [addrsAtAssign, List.mem_cons] at hmem2
        rcases hmem2 with h1 | h1
        · exact h1
        · exact absurd (List.mem_cons.2 h1) hmem
      subst hae
      rw [← h]
      simp [addrsAtAssign]
    · simp [hmem2] at h

/-- C19, amended: the cases of the switch are added in strictly ascending order of
the addresses of their blocks, the iteration order of the map; their values are
in ascending order exactly when the addresses of the switch block and of the
blocks after the entry block ascend along the block order. -/
theorem case_order {ι : Type} (newBB : Nat → Addr) (F : Function ι)
    (hwf : F.WellFormed) (hf : FreshFor newBB F) :
    ((switchCases (assignedIDs newBB F).2).map Prod.snd).Pairwise (fun a b => a < b) ∧
    (((switchCases (assignedIDs newBB F).2).map Prod.fst).Pairwise (fun a b => a < b) ↔
      (newBB 0 :: blockAddrs F.rest).Pairwise (fun a b => a < b)) := by
  have hsnd : (switchCases (assignedIDs newBB F).2).Pairwise (fun x y => x.2 < y.2) := by
    have hs := sorted_assignedIDs newBB F
    unfold BBMap.Sorted at hs
    unfold switchCases
    rw [List.pairwise_map]
    exact hs.filter _
  have hmem := mem_switchCases_assignedIDs newBB F hwf hf
  have hndL : (newBB 0 :: blockAddrs F.rest).Nodup := by
    have hnd := nodup_addrsAtAssign newBB F hwf hf
    simp only [addrsAtAssign, List.nodup_cons] at hnd
    exact List.nodup_cons.2 hnd.2
  refine ⟨by rw [List.pairwise_map]; exact hsnd, ?_⟩
  rw [List.pairwise_map]
  constructor
  · intro hfst
    have hboth := hfst.and hsnd
    rw [List.pairwise_iff_getElem]
    intro i j hi hj hij
    have hx := (hmem (((i + 1 : Nat) : Int)) ((newBB 0 :: blockAddrs F.rest)[i])).2
      ⟨List.getElem_mem _, by rw [List.indexOf_getElem hndL i hi]⟩
    have hy := (hmem (((j + 1 : Nat) : Int)) ((newBB 0 :: blockAddrs F.rest)[j])).2
      ⟨List.getElem_mem _, by rw [List.indexOf_getElem hndL j hj]⟩
    rcases pairwise_trichotomy _ _ hboth _ _ hx hy with h | h | h
    · have : ((i + 1 : Nat) : Int) = ((j + 1 : Nat) : Int) := congrArg Prod.fst h
      have : i + 1 = j + 1 := by exact_mod_cast this
      omega
    · exact h.2
    · have : ((j + 1 : Nat) : Int) < ((i + 1 : Nat) : Int) := h.1
      have : j + 1 < i + 1 := by exact_mod_cast this
      omega
  · intro hL
    apply hsnd.imp_of_mem
    rintro ⟨i, a⟩ ⟨i', a'⟩ hx hy hlt
    obtain ⟨ha, hi⟩ := (hmem i a).1 hx
    obtain ⟨ha', hi'⟩ := (hmem i' a').1 hy
    have := indexOf_lt_of_sorted _ hL a a' ha ha' hlt
    show i < i'
    rw [hi, hi']
    exact_mod_cast Nat.succ_lt_succ this

theorem twoBlockFn_fresh_low : FreshFor newBBLow twoBlockFn := by
  constructor
  · intro i j h
    have h2 : (if i = 0 then (0 : Nat) else 100 + i) = (if j = 0 then (0 : Nat) else 100 + j) := h
    split_ifs at h2 <;> omega
  · intro k hk
    have h2 : (if k = 0 then (0 : Nat) else 100 + k) = 1 ∨
        (if k = 0 then (0 : Nat) else 100 + k) = 2 := by
      simpa [newBBLow, twoBlockFn, blockAddrs, Function.blocks] using hk
    split_ifs at h2
    · rcases h2 with h3 | h3 <;> exact absurd h3 (by decide)
    · rcases h2 with h3 | h3 <;> omega

theorem case_order_witness :
    ((switchCases (assignedIDs newBBLow twoBlockFn).2).map Prod.snd).Pairwise
      (fun a b => a < b) ∧
    ((switchCases (assignedIDs newBBLow twoBlockFn).2).map Prod.fst).Pairwise
      (fun a b => a < b) :=
  ⟨(case_order newBBLow twoBlockFn twoBlockFn_wellFormed twoBlockFn_fresh_low).1,
   (case_order newBBLow twoBlockFn twoBlockFn_wellFormed twoBlockFn_fresh_low).2.2
      (by decide)⟩

theorem condCount_cons {ι : Type} (b : BasicBlock ι) (l : List (BasicBlock ι)) :
    condCount (b :: l) = (if b.term.isCond then 1 else 0) + condCount l := by
  unfold condCount
  rw [List.filter_cons]
  split_ifs
  · rw [List.length_cons]; omega
  · omega

theorem condCount_append {ι : Type} (l1 l2 : List (BasicBlock ι)) :
    condCount (l1 ++ l2) = condCount l1 + condCount l2 := by
  unfold condCount
  rw [List.filter_append, List.length_append]

theorem createdFor_eq {ι : Type} (b : BasicBlock ι) :
    createdFor b = 2 * (if b.term.isCond then 1 else 0) := by
  unfold createdFor Terminator.isCond
  cases b.term <;> simp

theorem flatBlock_count {ι : Type} (newBB : Nat → Addr) (ids : BBMap) (k : Nat)
    (b : BasicBlock ι) :
    (flatBlock newBB ids k b).length = 1 + createdFor b ∧
    condCount (flatBlock newBB ids k b) = (if b.term.isCond then 1 else 0) := by
  unfold flatBlock createdFor condCount
  cases h : b.term <;> simp [Terminator.isCond, h]

theorem flatBlocks_count {ι : Type} (newBB : Nat → Addr) (ids : BBMap)
    (l : List (BasicBlock ι)) : ∀ k : Nat,
      (flatBlocks newBB ids k l).length = l.length + 2 * condCount l ∧
      condCount (flatBlocks newBB ids k l) = condCount l := by
  induction l with
  | nil => intro k; simp [flatBlocks, condCount]
  | cons b r ih =>
    intro k
    obtain ⟨h1, h2⟩ := flatBlock_count newBB ids k b
    obtain ⟨h3, h4⟩ := ih (k + createdFor b)
    simp only [flatBlocks, List.length_append, List.length_cons, condCount_append,
      condCount_cons, h1, h2, h3, h4]
    rw [createdFor_eq]
    constructor
    · ring
    · trivial

theorem condCount_namedFrom {ι : Type} (l : List (BasicBlock ι)) (n : Int) :
    condCount (namedFrom l n) = condCount l := by
  induction l generalizing n with
  | nil => rfl
  | cons b r ih => simp only [namedFrom, condCount_cons, nameBlock_term, ih]

theorem flatBlock_created {ι : Type} (newBB : Nat → Addr) (ids : BBMap) (k : Nat)
    (b x : BasicBlock ι) (hx : x ∈ flatBlock newBB ids k b) :
    x.addr = b.addr ∨ IsTrampoline newBB x := by
  unfold flatBlock at hx
  cases h : b.term with
  | condBr c t f =>
    simp only [h, List.mem_cons, List.mem_singleton, List.not_mem_nil, or_false] at hx
    rcases hx with hx | hx | hx
    · exact Or.inl (by rw [hx])
    · exact Or.inr (by rw [hx]; exact ⟨⟨_, rfl⟩, rfl⟩)
    · exact Or.inr (by rw [hx]; exact ⟨⟨_, rfl⟩, rfl⟩)
  | br d =>
    simp only [h, List.mem_singleton] at hx
    exact Or.inl (by rw [hx])
  | ret v =>
    simp only [h, List.mem_singleton] at hx
    exact Or.inl (by rw [hx])
  | switch v d cs =>
    simp only [h, List.mem_singleton] at hx
    exact Or.inl (by rw [hx])
  | unreachable =>
    simp only [h, List.mem_singleton] at hx
    exact Or.inl (by rw [hx])

/-- C20 (block count).  After a successful run on a function with `n` blocks of
which `c` (the entry block included) end in a conditional branch, whatever the
terminators of the other blocks are, the function has exactly `n + 1 + 2 * c`
blocks; `c` of them end in a conditional branch, as
before; and every block that is not a block of the input function is the switch
block or a block that only stores an encoded ID and branches to the switch block:
one switch block and one pair of such blocks for each conditional branch, none of
which is split again. -/
theorem flattened_block_count {ι : Type} (newBB : Nat → Addr) (F : Function ι)
    (hwf : F.WellFormed) (hf : FreshFor newBB F) (hacc : Accepted F) :
    (runOnFunction newBB F).1 = true ∧
    (runOnFunction newBB F).2.blocks.length = F.blocks.length + 1 + 2 * condCount F.blocks ∧
    condCount (runOnFunction newBB F).2.blocks = condCount F.blocks ∧
    ∀ x ∈ (runOnFunction newBB F).2.blocks, x.addr ∉ blockAddrs F.blocks →
      x = buildSwitch newBB F (assignedIDs newBB F).2 ∨ IsTrampoline newBB x := by
  obtain ⟨hchanged, hblocks⟩ := runOnFunction_blocks newBB F hwf hf hacc
  have hlist : flattened newBB F =
      flatBlock newBB (assignedIDs newBB F).2 1 (entryWithSlot F) ++
        buildSwitch newBB F (assignedIDs newBB F).2 ::
          flatBlocks newBB (assignedIDs newBB F).2 (1 + createdFor F.entry)
            (namedFrom F.rest 2) := by
    rw [flattened, flatEntry_eq newBB F hacc]
  have hE := flatBlock_count newBB (assignedIDs newBB F).2 1 (entryWithSlot F)
  have hR := flatBlocks_count newBB (assignedIDs newBB F).2 (namedFrom F.rest 2)
    (1 + createdFor F.entry)
  have hterm : (entryWithSlot F).term = F.entry.term := rfl
  have hsw : (buildSwitch newBB F (assignedIDs newBB F).2).term.isCond = false := rfl
  refine ⟨hchanged, ?_, ?_, ?_⟩
  · rw [hblocks, hlist]
    simp only [List.length_append, List.length_cons, hE.1, hR.1, namedFrom_length,
      condCount_namedFrom, Function.blocks, condCount_cons]
    rw [createdFor_eq, hterm]
    ring
  · rw [hblocks, hlist]
    simp only [condCount_append, condCount_cons, hE.2, hR.2, condCount_namedFrom,
      Function.blocks, hterm, hsw]
    simp
  · intro x hx hnot
    rw [hblocks] at hx
    rcases (mem_flattened newBB F hacc x).1 hx with h | h
    · exact Or.inl h
    · obtain ⟨b0, hb0, j, _, hxj, _⟩ := mem_flatBlocks newBB _ _ 1 x h
      rcases flatBlock_created newBB _ j b0 x hxj with h2 | h2
      · exfalso
        apply hnot
        rw [h2]
        have : b0.addr ∈ blockAddrs (entryWithSlot F :: namedFrom F.rest 2) :=
          List.mem_map_of_mem _ hb0
        rw [blockAddrs_entryWithSlot_rest] at this
        exact this
      · exact Or.inr h2

theorem flattened_block_count_witness :
    (runOnFunction (newBBFrom 100) diamondFn).2.blocks.length = 4 + 1 + 2 * 1 ∧
    condCount (runOnFunction (newBBFrom 100) diamondFn).2.blocks = 1 :=
  ⟨(flattened_block_count (newBBFrom 100) diamondFn diamondFn_wellFormed diamondFn_fresh
      diamondFn_accepted).2.1,
   (flattened_block_count (newBBFrom 100) diamondFn diamondFn_wellFormed diamondFn_fresh
      diamondFn_accepted).2.2.1⟩

/-- C17, counterexample: in the flattened two-block function the switch block (at
address 100) has no instruction, so it does not write the slot, and two of its
edges lead to the switch block itself: the default edge and the case for its own
ID 1.  So not every block with an edge to the switch block writes the slot. -/
theorem dispatch_self_edges_without_write :
    findBlock (runOnFunction (newBBFrom 100) twoBlockFn).2 100 =
      some { addr := 100, name := "switch", insts := [],
             term := .switch (.load .slot) 100 [(2, 2), (1, 100)] } ∧
    (100 : Addr) ∈ (Terminator.switch (.load .slot : Value Unit) 100
      [(2, 2), (1, 100)]).successors ∧
    ¬ ∀ b ∈ (runOnFunction (newBBFrom 100) twoBlockFn).2.blocks,
        (100 : Addr) ∈ b.term.successors → ∃ i ∈ b.insts, i.writesSlot = true := by
  decide

theorem encoder_single_store {ι : Type} (t : Int) (h0 : 0 ≤ t) :
    ∃ v : Value ι, insertOpaqueSwitchIndex t (.slot : Value ι) = [.store v .slot] ∧
      v.slotLoads = 0 := by
  obtain ⟨n, rfl⟩ := Int.eq_ofNat_of_zero_le h0
  have hr : n % 10 < 10 := Nat.mod_lt _ (by norm_num)
  have hn : n = n / 10 * 10 + n % 10 := by omega
  have hcode := insertOpaqueSwitchIndex_eq_encodeByRule (n / 10) (n % 10) hr (.slot : Value ι)
  rw [← hn] at hcode
  rw [hcode]
  refine ⟨_, rfl, ?_⟩
  interval_cases n % 10 <;>
    simp [cellProduct, readCell, ruleOffsets, ruleModulus, Value.slotLoads]

theorem slotLoads_of_input {ι : Type} (b : BasicBlock ι) (hb : b.IsInput) :
    (∀ i ∈ b.insts, i.slotLoads = 0 ∧ i.isAlloca = false ∧ i.writesSlot = false) ∧
    b.term.slotLoads = 0 := by
  obtain ⟨hi, ht⟩ := hb
  constructor
  · intro i hmem
    obtain ⟨x, rfl⟩ := hi i hmem
    exact ⟨rfl, rfl, rfl⟩
  · cases hterm : b.term with
    | br d => rfl
    | condBr c t f =>
      rw [hterm] at ht
      obtain ⟨x, rfl⟩ := ht
      rfl
    | ret v =>
      rw [hterm] at ht
      cases v with
      | none => rfl
      | some w =>
        obtain ⟨x, rfl⟩ := ht w rfl
        rfl
    | switch v d cs => rw [hterm] at ht; exact ht.elim
    | unreachable => rw [hterm] at ht; exact ht.elim
theorem flatBlock_slotLoads {ι : Type} (newBB : Nat → Addr) (ids : BBMap) (k : Nat)
    (b : BasicBlock ι) (hids : ∀ a, 0 ≤ idOf ids a)
    (hclean : (∀ i ∈ b.insts, i.slotLoads = 0) ∧ b.term.slotLoads = 0) :
    ∀ x ∈ flatBlock newBB ids k b, x.slotLoads = 0 := by
  have hsum : (b.insts.map Instr.slotLoads).sum = 0 :=
    List.sum_eq_zero (fun n hn => by
      obtain ⟨i, hi, rfl⟩ := List.mem_map.1 hn
      exact hclean.1 i hi)
  intro x hx
  unfold flatBlock at hx
  cases hterm : b.term with
  | condBr c s0 s1 =>
    have hc : c.slotLoads = 0 := by
      have := hclean.2
      rw [hterm] at this
      exact this
    obtain ⟨v0, e0, hv0⟩ := encoder_single_store (ι := ι) (idOf ids s0) (hids s0)
    obtain ⟨v1, e1, hv1⟩ := encoder_single_store (ι := ι) (idOf ids s1) (hids s1)
    simp only [hterm, List.mem_cons, List.mem_singleton, List.not_mem_nil, or_false, e0, e1] at hx
    rcases hx with hx | hx | hx <;> subst hx <;>
      simp [BasicBlock.slotLoads, Terminator.slotLoads, Instr.slotLoads, Value.slotLoads, hsum,
        hc, hv0, hv1]
  | br s0 =>
    obtain ⟨v0, e0, hv0⟩ := encoder_single_store (ι := ι) (idOf ids s0) (hids s0)
    simp only [hterm, List.mem_singleton, e0] at hx
    subst hx
    simp [BasicBlock.slotLoads, Terminator.slotLoads, Instr.slotLoads, Value.slotLoads, hsum, hv0]
  | ret v =>
    simp only [hterm, List.mem_singleton] at hx
    subst hx
    simp only [BasicBlock.slotLoads, hsum, hclean.2]
  | switch v d cs =>
    simp only [hterm, List.mem_singleton] at hx
    subst hx
    simp only [BasicBlock.slotLoads, hsum, hclean.2]
  | unreachable =>
    simp only [hterm, List.mem_singleton] at hx
    subst hx
    simp only [BasicBlock.slotLoads, hsum, hclean.2]

theorem flatBlock_allocas {ι : Type} (newBB : Nat → Addr) (ids : BBMap) (k : Nat)
    (b : BasicBlock ι) (hids : ∀ a, 0 ≤ idOf ids a) :
    ((flatBlock newBB ids k b).map BasicBlock.allocas).sum = b.allocas := by
  unfold flatBlock
  cases hterm : b.term with
  | condBr c s0 s1 =>
    obtain ⟨v0, e0, _⟩ := encoder_single_store (ι := ι) (idOf ids s0) (hids s0)
    obtain ⟨v1, e1, _⟩ := encoder_single_store (ι := ι) (idOf ids s1) (hids s1)
    simp [e0, e1, BasicBlock.allocas, Instr.isAlloca]
  | br s0 =>
    obtain ⟨v0, e0, _⟩ := encoder_single_store (ι := ι) (idOf ids s0) (hids s0)
    simp [e0, BasicBlock.allocas, Instr.isAlloca, List.filter_append]
  | ret v => simp
  | switch v d cs => simp
  | unreachable => simp

theorem flatBlock_write_before_jump {ι : Type} (newBB : Nat → Addr) (ids : BBMap) (k : Nat)
    (b : BasicBlock ι) (hids : ∀ a, 0 ≤ idOf ids a)
    (hinj : ∀ i j, newBB i = newBB j → i = j) (hk : 1 ≤ k) (hplain : b.term.isPlain) :
    ∀ x ∈ flatBlock newBB ids k b, newBB 0 ∈ x.term.successors →
      ∃ i, x.insts.getLast? = some i ∧ i.writesSlot = true := by
  intro x hx hsucc
  unfold flatBlock at hx
  cases hterm : b.term with
  | condBr c s0 s1 =>
    obtain ⟨v0, e0, _⟩ := encoder_single_store (ι := ι) (idOf ids s0) (hids s0)
    obtain ⟨v1, e1, _⟩ := encoder_single_store (ι := ι) (idOf ids s1) (hids s1)
    simp only [hterm, List.mem_cons, List.mem_singleton, List.not_mem_nil, or_false, e0, e1] at hx
    rcases hx with hx | hx | hx
    · subst hx
      simp only [Terminator.successors, List.mem_cons, List.mem_singleton, List.not_mem_nil,
        or_false] at hsucc
      rcases hsucc with h | h
      · have := hinj _ _ h; omega
      · have := hinj _ _ h; omega
    · subst hx
      exact ⟨_, rfl, rfl⟩
    · subst hx
      exact ⟨_, rfl, rfl⟩
  | br s0 =>
    obtain ⟨v0, e0, _⟩ := encoder_single_store (ι := ι) (idOf ids s0) (hids s0)
    simp only [hterm, List.mem_singleton, e0] at hx
    subst hx
    exact ⟨.store v0 .slot, by simp, rfl⟩
  | ret v =>
    simp only [hterm, List.mem_singleton] at hx
    subst hx
    rw [hterm] at hsucc
    simp [Terminator.successors] at hsucc
  | switch v d cs => rw [hterm] at hplain; exact hplain.elim
  | unreachable => rw [hterm] at hplain; exact hplain.elim

theorem flatBlocks_allocas {ι : Type} (newBB : Nat → Addr) (ids : BBMap)
    (hids : ∀ a, 0 ≤ idOf ids a) (l : List (BasicBlock ι)) : ∀ k : Nat,
      ((flatBlocks newBB ids k l).map BasicBlock.allocas).sum =
        (l.map BasicBlock.allocas).sum := by
  induction l with
  | nil => intro k; rfl
  | cons b r ih =>
    intro k
    simp only [flatBlocks, List.map_append, List.sum_append, List.map_cons, List.sum_cons,
      flatBlock_allocas newBB ids k b hids, ih]
theorem idOf_assignedIDs_nonneg {ι : Type} (newBB : Nat → Addr) (F : Function ι) (a : Addr) :
    0 ≤ idOf (assignedIDs newBB F).2 a :=
  idOf_nonneg _ (assignedIDs_nonneg newBB F) a

/-- What the blocks the flattened function is made from inherit from the blocks of
an input program: no load of the slot, a branch or return at the end, and no
alloca but the one put in front of the entry block. -/
theorem sources_of_input {ι : Type} (F : Function ι) (hin : ∀ b ∈ F.blocks, b.IsInput) :
    (∀ b ∈ entryWithSlot F :: namedFrom F.rest 2,
      ((∀ i ∈ b.insts, i.slotLoads = 0) ∧ b.term.slotLoads = 0) ∧ b.term.isPlain) ∧
    (entryWithSlot F).allocas = 1 ∧
    ∀ b ∈ namedFrom F.rest 2, b.allocas = 0 := by
  have hplain : ∀ b : BasicBlock ι, b.IsInput → b.term.isPlain := by
    intro b hb
    obtain ⟨_, ht⟩ := hb
    cases hterm : b.term with
    | br d => trivial
    | condBr c t f => trivial
    | ret v => trivial
    | switch v d cs => rw [hterm] at ht; exact ht.elim
    | unreachable => rw [hterm] at ht; exact ht.elim
  have hnamed : ∀ b ∈ namedFrom F.rest 2, ∃ b0 ∈ F.rest, b.insts = b0.insts ∧ b.term = b0.term := by
    have : ∀ (l : List (BasicBlock ι)) (n : Int), ∀ b ∈ namedFrom l n,
        ∃ b0 ∈ l, b.insts = b0.insts ∧ b.term = b0.term := by
      intro l
      induction l with
      | nil => intro n b hb; simp [namedFrom] at hb
      | cons a r ih =>
        intro n b hb
        simp only [namedFrom, List.mem_cons] at hb
        rcases hb with hb | hb
        · exact ⟨a, List.mem_cons_self _ _, by rw [hb, nameBlock_insts], by
            rw [hb, nameBlock_term]⟩
        · obtain ⟨b0, hb0, h1, h2⟩ := ih _ b hb
          exact ⟨b0, List.mem_cons_of_mem _ hb0, h1, h2⟩
    exact this F.rest 2
  have hallocas : ∀ b : BasicBlock ι, b.IsInput → (b.insts.filter Instr.isAlloca) = [] := by
    intro b hb
    rw [List.filter_eq_nil_iff]
    intro i hi
    rw [((slotLoads_of_input b hb).1 i hi).2.1]
    simp
  refine ⟨?_, ?_, ?_⟩
  · intro b hb
    rcases List.mem_cons.1 hb with h | h
    · subst h
      have he := hin F.entry (List.mem_cons_self _ _)
      refine ⟨⟨?_, (slotLoads_of_input F.entry he).2⟩, hplain F.entry he⟩
      intro i hi
      simp only [entryWithSlot, List.mem_cons] at hi
      rcases hi with rfl | hi
      · rfl
      · exact ((slotLoads_of_input F.entry he).1 i hi).1
    · obtain ⟨b0, hb0, h1, h2⟩ := hnamed b h
      have he := hin b0 (List.mem_cons_of_mem _ hb0)
      rw [h1, h2]
      exact ⟨⟨fun i hi => ((slotLoads_of_input b0 he).1 i hi).1, (slotLoads_of_input b0 he).2⟩,
        hplain b0 he⟩
  · have he := hin F.entry (List.mem_cons_self _ _)
    simp [BasicBlock.allocas, entryWithSlot, List.filter_cons, Instr.isAlloca, hallocas F.entry he]
  · intro b hb
    obtain ⟨b0, hb0, h1, _⟩ := hnamed b hb
    have he := hin b0 (List.mem_cons_of_mem _ hb0)
    simp [BasicBlock.allocas, h1, hallocas b0 he]

/-- C17, amended: after a successful run on a function made of blocks of an input
program there is exactly one alloca of the slot, the first instruction of the
entry block; every block other than the switch block that has an edge to the
switch block ends its instructions with a store into the slot; the switch block
has no instruction of its own and has an edge to itself; and the slot is loaded
exactly once in the function, in the switch block. -/
theorem slot_discipline {ι : Type} (newBB : Nat → Addr) (F : Function ι)
    (hwf : F.WellFormed) (hf : FreshFor newBB F) (hacc : Accepted F)
    (hin : ∀ b ∈ F.blocks, b.IsInput) :
    (((runOnFunction newBB F).2.blocks.map BasicBlock.allocas).sum = 1 ∧
      (runOnFunction newBB F).2.entry.insts.head? = some .alloca) ∧
    (∀ b ∈ (runOnFunction newBB F).2.blocks, b.addr ≠ newBB 0 →
      newBB 0 ∈ b.term.successors →
      ∃ i, b.insts.getLast? = some i ∧ i.writesSlot = true) ∧
    (∀ b ∈ (runOnFunction newBB F).2.blocks, b.addr = newBB 0 →
      b.insts = [] ∧ newBB 0 ∈ b.term.successors ∧ b.slotLoads = 1) ∧
    ((runOnFunction newBB F).2.blocks.map BasicBlock.slotLoads).sum = 1 := by
  obtain ⟨_, hblocks⟩ := runOnFunction_blocks newBB F hwf hf hacc
  have hids := idOf_assignedIDs_nonneg newBB F
  obtain ⟨hsrc, hentryA, hrestA⟩ := sources_of_input F hin
  have hlist : flattened newBB F =
      flatBlock newBB (assignedIDs newBB F).2 1 (entryWithSlot F) ++
        buildSwitch newBB F (assignedIDs newBB F).2 ::
          flatBlocks newBB (assignedIDs newBB F).2 (1 + createdFor F.entry)
            (namedFrom F.rest 2) := by
    rw [flattened, flatEntry_eq newBB F hacc]
  have hswA : (buildSwitch newBB F (assignedIDs newBB F).2).allocas = 0 := rfl
  have hswL : (buildSwitch newBB F (assignedIDs newBB F).2).slotLoads = 1 := rfl
  have hsw : ∀ b ∈ (runOnFunction newBB F).2.blocks, b.addr = newBB 0 →
      b = buildSwitch newBB F (assignedIDs newBB F).2 := by
    intro b hb ha
    rw [hblocks] at hb
    have h1 := findBlock_of_mem newBB F hwf hf hacc b hb
    rw [ha, findBlock_switch newBB F hwf hf hacc] at h1
    exact (Option.some.inj h1).symm
  have hzero : ∀ (k : Nat) (l : List (BasicBlock ι)),
      (∀ b ∈ l, ((∀ i ∈ b.insts, i.slotLoads = 0) ∧ b.term.slotLoads = 0) ∧ b.term.isPlain) →
      ((flatBlocks newBB (assignedIDs newBB F).2 k l).map BasicBlock.slotLoads).sum = 0 := by
    intro k l hl
    apply List.sum_eq_zero
    intro n hn
    obtain ⟨x, hx, rfl⟩ := List.mem_map.1 hn
    obtain ⟨b0, hb0, j, _, hxj, _⟩ := mem_flatBlocks newBB _ l k x hx
    exact flatBlock_slotLoads newBB _ j b0 hids (hl b0 hb0).1 x hxj
  refine ⟨⟨?_, ?_⟩, ?_, ?_, ?_⟩
  · rw [hblocks, hlist]
    simp only [List.map_append, List.sum_append, List.map_cons, List.sum_cons,
      flatBlock_allocas newBB _ 1 _ hids, flatBlocks_allocas newBB _ hids, hentryA, hswA]
    have hz : ((namedFrom F.rest 2).map BasicBlock.allocas).sum = 0 :=
      List.sum_eq_zero (fun n hn => by
        obtain ⟨b, hb, rfl⟩ := List.mem_map.1 hn
        exact hrestA b hb)
    rw [hz]
    rfl
  · have h2 : flattened newBB F =
        (runOnFunction newBB F).2.entry :: (runOnFunction newBB F).2.rest := hblocks.symm
    obtain ⟨_, ⟨d, hd⟩ | ⟨c, t, f, hc⟩⟩ := hacc
    · simp only [flattened, flatEntry, hd, List.cons_append, List.nil_append,
        List.cons.injEq] at h2
      rw [← h2.1]; rfl
    · simp only [flattened, flatEntry, hc, List.cons_append, List.nil_append,
        List.cons.injEq] at h2
      rw [← h2.1]; rfl
  · intro b hb hne hsucc
    rw [hblocks] at hb
    rcases (mem_flattened newBB F hacc b).1 hb with h | h
    · exact absurd (by rw [h]; rfl) hne
    · obtain ⟨b0, hb0, j, hj, hxj, _⟩ := mem_flatBlocks newBB _ _ 1 b h
      exact flatBlock_write_before_jump newBB _ j b0 hids hf.1 hj (hsrc b0 hb0).2 b hxj hsucc
  · intro b hb ha
    rw [hsw b hb ha]
    exact ⟨rfl, by simp [buildSwitch, Terminator.successors], hswL⟩
  · rw [hblocks, hlist]
    simp only [List.map_append, List.sum_append, List.map_cons, List.sum_cons, hswL]
    rw [hzero _ _ (fun b hb => hsrc b (List.mem_cons_of_mem _ hb))]
    have := hzero 1 [entryWithSlot F] (fun b hb => hsrc b (by
      rw [List.mem_singleton] at hb
      rw [hb]
      exact List.mem_cons_self _ _))
    simp only [flatBlocks, List.append_nil] at this
    rw [this]
    rfl

theorem slot_discipline_witness :
    ((runOnFunction (newBBFrom 100) diamondFn).2.blocks.map BasicBlock.allocas).sum = 1 ∧
    ((runOnFunction (newBBFrom 100) diamondFn).2.blocks.map BasicBlock.slotLoads).sum = 1 :=
  ⟨(slot_discipline (newBBFrom 100) diamondFn diamondFn_wellFormed diamondFn_fresh
      diamondFn_accepted diamondFn_isInput.1).1.1,
   (slot_discipline (newBBFrom 100) diamondFn diamondFn_wellFormed diamondFn_fresh
      diamondFn_accepted diamondFn_isInput.1).2.2.2⟩

theorem index_of_lookup (m : BBMap) (k : Addr) (h : m.lookup k ≠ none) :
    (BBMap.index m k).2 = m := by
  unfold BBMap.index
  cases hl : m.lookup k with
  | none => exact absurd hl h
  | some v => rfl

/-- A target the retargeting loop passes to the encoder is `BBMap[succ]` for a
successor `succ` of a block still to be visited that is not in `BBSkip`. -/
theorem retargetLoopTargets_mem {ι : Type} (newBB : Nat → Addr) (sw : Addr) :
    ∀ (fuel : Nat) (st : LoopState ι) (t : Int), t ∈ retargetLoopTargets newBB sw fuel st →
      ∃ b ∈ st.todo, b.addr ∉ st.BBSkip ∧ ∃ succ ∈ b.term.successors,
        t = idOf st.BBMap succ := by
  intro fuel
  induction fuel with
  | zero => intro st t ht; simp [retargetLoopTargets] at ht
  | succ n ih =>
    intro st t ht
    unfold retargetLoopTargets at ht
    cases htodo : st.todo with
    | nil => rw [htodo] at ht; simp at ht
    | cons b r =>
      rw [htodo] at ht
      simp only [List.mem_append] at ht
      by_cases hs : b.addr ∈ st.BBSkip
      · have hstep := retargetStep_skip newBB sw st b r hs
        rcases ht with h | h
        · simp [retargetStepTargets, hs] at h
        · rw [hstep] at h
          obtain ⟨b', hb', hns, succ, hsucc, ht'⟩ := ih _ t h
          exact ⟨b', List.mem_cons_of_mem _ hb', hns, succ, hsucc, ht'⟩
      · rcases ht with h | h
        · refine ⟨b, List.mem_cons_self _ _, hs, ?_⟩
          unfold retargetStepTargets at h
          simp only [hs, if_false] at h
          cases hterm : b.term with
          | br d =>
            simp only [hterm, List.mem_singleton] at h
            exact ⟨d, by simp [Terminator.successors], by rw [h, index_fst]⟩
          | condBr c t0 f0 =>
            simp only [hterm, List.mem_cons, List.mem_singleton, List.not_mem_nil,
              or_false] at h
            rcases h with h | h
            · exact ⟨t0, by simp [Terminator.successors], by rw [h, index_fst]⟩
            · exact ⟨f0, by simp [Terminator.successors], by rw [h, index_fst, idOf_index]⟩
          | ret v => simp [hterm] at h
          | switch v d cs => simp [hterm] at h
          | unreachable => simp [hterm] at h
        · obtain ⟨b', hb', hns, succ, hsucc, ht'⟩ := ih _ t h
          unfold retargetStep at hb' hns ht'
          simp only [hs, if_false] at hb' hns ht'
          cases hterm : b.term with
          | br d =>
            simp only [hterm] at hb' hns ht'
            exact ⟨b', List.mem_cons_of_mem _ hb', hns, succ, hsucc, by
              rw [ht', idOf_index]⟩
          | condBr c t0 f0 =>
            simp only [hterm, List.mem_cons, List.mem_append, List.mem_singleton,
              List.not_mem_nil, or_false, not_or] at hb' hns ht'
            rcases hb' with hb' | hb' | hb'
            · exact absurd (by rw [hb']) hns.2.1
            · exact absurd (by rw [hb']) hns.2.2
            · exact ⟨b', List.mem_cons_of_mem _ hb', hns.1, succ, hsucc, by
                rw [ht', idOf_index, idOf_index]⟩
          | ret v =>
            simp only [hterm] at hb' hns ht'
            exact ⟨b', List.mem_cons_of_mem _ hb', hns, succ, hsucc, ht'⟩
          | switch v d cs =>
            simp only [hterm] at hb' hns ht'
            exact ⟨b', List.mem_cons_of_mem _ hb', hns, succ, hsucc, ht'⟩
          | unreachable =>
            simp only [hterm] at hb' hns ht'
            exact ⟨b', List.mem_cons_of_mem _ hb', hns, succ, hsucc, ht'⟩

/-- The retargeting loop leaves the map as it is when every successor it looks up
is a key of the map. -/
theorem retargetLoop_BBMap {ι : Type} (newBB : Nat → Addr) (sw : Addr) :
    ∀ (fuel : Nat) (st : LoopState ι),
      (∀ b ∈ st.todo, b.addr ∉ st.BBSkip → ∀ succ ∈ b.term.successors,
        st.BBMap.lookup succ ≠ none) →
      (retargetLoop newBB sw fuel st).BBMap = st.BBMap := by
  intro fuel
  induction fuel with
  | zero => intro st _; rfl
  | succ n ih =>
    intro st hkeys
    cases htodo : st.todo with
    | nil => rw [retargetLoop_nil _ _ _ _ htodo]
    | cons b r =>
      rw [retargetLoop_cons _ _ _ _ b r htodo]
      have hr : ∀ b' ∈ r, b'.addr ∉ st.BBSkip → ∀ succ ∈ b'.term.successors,
          st.BBMap.lookup succ ≠ none :=
        fun b' hb' => hkeys b' (htodo ▸ List.mem_cons_of_mem _ hb')
      by_cases hs : b.addr ∈ st.BBSkip
      · rw [retargetStep_skip newBB sw st b r hs]
        exact ih _ hr
      · have hb := hkeys b (htodo ▸ List.mem_cons_self _ _) hs
        unfold retargetStep
        simp only [hs, if_false]
        cases hterm : b.term with
        | br d =>
          have hd := hb d (by simp [hterm, Terminator.successors])
          simp only []
          rw [ih _ (by simpa [index_of_lookup _ _ hd] using hr)]
          exact index_of_lookup _ _ hd
        | condBr c t0 f0 =>
          have ht := hb t0 (by simp [hterm, Terminator.successors])
          have hf := hb f0 (by simp [hterm, Terminator.successors])
          have e1 := index_of_lookup _ _ ht
          have e2 : (BBMap.index (BBMap.index st.BBMap t0).2 f0).2 = st.BBMap := by
            rw [e1]; exact index_of_lookup _ _ hf
          simp only []
          rw [ih _ ?_]
          · exact e2
          · intro b' hb' hns succ hsucc
            simp only [List.mem_cons, List.mem_append, List.mem_singleton, List.not_mem_nil,
              or_false, not_or] at hb' hns
            simp only [e2]
            rcases hb' with hb' | hb' | hb'
            · exact absurd (by rw [hb']) hns.2.1
            · exact absurd (by rw [hb']) hns.2.2
            · exact hr b' hb' hns.1 succ hsucc
        | ret v => simp only []; exact ih _ hr
        | switch v d cs => simp only []; exact ih _ hr
        | unreachable => simp only []; exact ih _ hr
theorem namedFrom_source {ι : Type} (l : List (BasicBlock ι)) :
    ∀ (n : Int), ∀ b ∈ namedFrom l n,
      ∃ b0 ∈ l, b.addr = b0.addr ∧ b.insts = b0.insts ∧ b.term = b0.term := by
  induction l with
  | nil => intro n b hb; simp [namedFrom] at hb
  | cons a r ih =>
    intro n b hb
    simp only [namedFrom, List.mem_cons] at hb
    rcases hb with hb | hb
    · exact ⟨a, List.mem_cons_self _ _, by rw [hb, nameBlock_addr], by rw [hb, nameBlock_insts],
        by rw [hb, nameBlock_term]⟩
    · obtain ⟨b0, hb0, h1, h2, h3⟩ := ih _ b hb
      exact ⟨b0, List.mem_cons_of_mem _ hb0, h1, h2, h3⟩

theorem lookup_rest_ne_none {ι : Type} (newBB : Nat → Addr) (F : Function ι)
    (hwf : F.WellFormed) (hf : FreshFor newBB F) (a : Addr) (ha : a ∈ blockAddrs F.rest) :
    (assignedIDs newBB F).2.lookup a = some (idOf (assignedIDs newBB F).2 a) ∧
    (assignedIDs newBB F).2.lookup a ≠ none := by
  have hmem : a ∈ addrsAtAssign newBB F := by simp [addrsAtAssign, ha]
  have h := lookup_assignedIDs newBB F hwf hf a
  rw [if_pos hmem] at h
  constructor
  · rw [idOf, h]; rfl
  · rw [h]; simp

/-- The states the retargeting loop starts from: the map is the map of
`assignIDToBasicBlocks`, and a block to visit that is not in `BBSkip` is a block
after the entry block, with its terminator. -/
theorem lowerEntry_start {ι : Type} (newBB : Nat → Addr) (F : Function ι)
    (hwf : F.WellFormed) (hf : FreshFor newBB F)
    (hsucc : ∀ b ∈ F.blocks, ∀ a ∈ b.term.successors, a ∈ blockAddrs F.rest) :
    (∀ d, F.entry.term = .br d →
      (lowerEntryBr newBB F d).BBMap = (assignedIDs newBB F).2 ∧
      ∀ b ∈ (lowerEntryBr newBB F d).todo, b.addr ∉ (lowerEntryBr newBB F d).BBSkip →
        ∃ b0 ∈ F.rest, b.term = b0.term) ∧
    (∀ c t f, F.entry.term = .condBr c t f →
      (lowerEntryCond newBB F c t f).BBMap = (assignedIDs newBB F).2 ∧
      ∀ b ∈ (lowerEntryCond newBB F c t f).todo,
        b.addr ∉ (lowerEntryCond newBB F c t f).BBSkip → ∃ b0 ∈ F.rest, b.term = b0.term) := by
  have hkey := fun a ha => (lookup_rest_ne_none newBB F hwf hf a ha).2
  have hdrop : ∀ b ∈ (assignedIDs newBB F).1.drop 2, ∃ b0 ∈ F.rest, b.term = b0.term := by
    rw [assignedIDs_fst_drop]
    intro b hb
    obtain ⟨b0, hb0, _, _, h3⟩ := namedFrom_source F.rest 2 b hb
    exact ⟨b0, hb0, h3⟩
  constructor
  · intro d hd
    have hdr := hsucc F.entry (List.mem_cons_self _ _) d (by simp [hd, Terminator.successors])
    refine ⟨index_of_lookup _ _ (hkey d hdr), ?_⟩
    intro b hb hns
    simp only [lowerEntryBr, List.mem_cons, not_or, List.not_mem_nil, or_false] at hb hns
    rcases hb with hb | hb | hb
    · exact absurd (by rw [hb]; rfl) hns.1
    · exact absurd (by rw [hb]; rfl) (fun h : b.addr = newBB 0 => hns.2 h)
    · exact hdrop b hb
  · intro c t f hc
    have htr := hsucc F.entry (List.mem_cons_self _ _) t (by simp [hc, Terminator.successors])
    have hfr := hsucc F.entry (List.mem_cons_self _ _) f (by simp [hc, Terminator.successors])
    have e1 := index_of_lookup _ _ (hkey t htr)
    constructor
    · show (BBMap.index (BBMap.index (assignedIDs newBB F).2 t).2 f).2 = _
      rw [e1]
      exact index_of_lookup _ _ (hkey f hfr)
    · intro b hb hns
      simp only [lowerEntryCond, List.mem_cons, not_or, List.not_mem_nil, or_false] at hb hns
      rcases hb with hb | hb | hb | hb | hb
      · exact absurd (by rw [hb]; rfl) hns.1
      · exact absurd (by rw [hb]) hns.2.2.1
      · exact absurd (by rw [hb]) hns.2.2.2
      · exact absurd (by rw [hb]; rfl) hns.2.1
      · exact hdrop b hb

/-- Every target passed to the encoder is the ID of a block after the entry block,
and no lookup changes the map, when every branch targets such a block. -/
theorem encoderTargets_rest {ι : Type} (newBB : Nat → Addr) (F : Function ι)
    (hwf : F.WellFormed) (hf : FreshFor newBB F) (hacc : Accepted F)
    (hsucc : ∀ b ∈ F.blocks, ∀ a ∈ b.term.successors, a ∈ blockAddrs F.rest) :
    (∀ t ∈ encoderTargets newBB F,
      ∃ a ∈ blockAddrs F.rest, t = idOf (assignedIDs newBB F).2 a) ∧
    finalBBMap newBB F = (assignedIDs newBB F).2 := by
  obtain ⟨hbr, hcond⟩ := lowerEntry_start newBB F hwf hf hsucc
  have hkey := fun a ha => (lookup_rest_ne_none newBB F hwf hf a ha).2
  have hlen : ¬ (F.rest.length + 1 = 1) := by
    intro h
    exact hacc.1 (List.length_eq_zero.1 (by omega))
  have hloop : ∀ (st : LoopState ι), st.BBMap = (assignedIDs newBB F).2 →
      (∀ b ∈ st.todo, b.addr ∉ st.BBSkip → ∃ b0 ∈ F.rest, b.term = b0.term) →
      (∀ fuel, ∀ t ∈ retargetLoopTargets newBB (newBB 0) fuel st,
        ∃ a ∈ blockAddrs F.rest, t = idOf (assignedIDs newBB F).2 a) ∧
      ∀ fuel, (retargetLoop newBB (newBB 0) fuel st).BBMap = (assignedIDs newBB F).2 := by
    intro st hmap hsrc
    constructor
    · intro fuel t ht
      obtain ⟨b, hb, hns, succ, hs, rfl⟩ := retargetLoopTargets_mem newBB _ fuel st t ht
      obtain ⟨b0, hb0, hterm⟩ := hsrc b hb hns
      rw [hterm] at hs
      exact ⟨succ, hsucc b0 (List.mem_cons_of_mem _ hb0) succ hs, by rw [hmap]⟩
    · intro fuel
      rw [retargetLoop_BBMap newBB _ fuel st, hmap]
      intro b hb hns succ hs
      obtain ⟨b0, hb0, hterm⟩ := hsrc b hb hns
      rw [hterm] at hs
      rw [hmap]
      exact hkey succ (hsucc b0 (List.mem_cons_of_mem _ hb0) succ hs)
  unfold encoderTargets finalBBMap retargetAll
  simp only [hlen, if_false]
  rcases hacc.2 with ⟨d, hd⟩ | ⟨c, t, f, hc⟩
  · have hdr := hsucc F.entry (List.mem_cons_self _ _) d (by simp [hd, Terminator.successors])
    obtain ⟨h1, h2⟩ := hloop _ (hbr d hd).1 (hbr d hd).2
    simp only [hd]
    refine ⟨?_, h2 _⟩
    intro x hx
    rcases List.mem_cons.1 hx with h | h
    · exact ⟨d, hdr, by rw [h, index_fst]⟩
    · exact h1 _ x h
  · have htr := hsucc F.entry (List.mem_cons_self _ _) t (by simp [hc, Terminator.successors])
    have hfr := hsucc F.entry (List.mem_cons_self _ _) f (by simp [hc, Terminator.successors])
    obtain ⟨h1, h2⟩ := hloop _ (hcond c t f hc).1 (hcond c t f hc).2
    simp only [hc]
    refine ⟨?_, h2 _⟩
    intro x hx
    rcases List.mem_cons.1 hx with h | h
    · exact ⟨t, htr, by rw [h, index_fst]⟩
    · rcases List.mem_cons.1 h with h | h
      · exact ⟨f, hfr, by rw [h, index_fst, idOf_index]⟩
      · exact h1 _ x h
theorem stepBlock_of_find {ι σ : Type} (sem : Sem ι σ) (F : Function ι) (a : Addr)
    (s : State σ) (b : BasicBlock ι) (hb : findBlock F a = some b) :
    stepBlock sem F (a, s) =
      match b.term.step sem (execInsts sem s b.insts) with
      | some (.inr next) => some (next, execInsts sem s b.insts)
      | _ => none := by
  simp only [stepBlock, hb]

/-- A run continues from the block and state that one block of execution yields. -/
theorem run_of_stepBlock {ι σ : Type} (sem : Sem ι σ) (F : Function ι) (n : Nat)
    (c c' : Addr × State σ) (h : stepBlock sem F c = some c') :
    run sem F (n + 1) c.1 c.2 = (run sem F n c'.1 c'.2).map (Result.push (c.1, c.2.user)) := by
  obtain ⟨a, s⟩ := c
  cases hfb : findBlock F a with
  | none => simp [stepBlock, hfb] at h
  | some b =>
    rw [stepBlock_of_find sem F a s b hfb] at h
    rw [run_succ sem F n a s b hfb]
    cases hstep : b.term.step sem (execInsts sem s b.insts) with
    | none => rw [hstep] at h; simp at h
    | some x =>
      rw [hstep] at h
      cases x with
      | inl v => simp at h
      | inr next =>
        simp only [Option.some.injEq] at h
        rw [← h]

/-- At the switch block with the ID of a block after the entry block in the slot,
one block of execution passes control to that block. -/
theorem stepBlock_switch {ι σ : Type} (sem : Sem ι σ) (newBB : Nat → Addr) (F : Function ι)
    (hwf : F.WellFormed) (hf : FreshFor newBB F) (hacc : Accepted F)
    (hsize : F.rest.length + 2 ≤ 2 ^ 31) (t : Addr) (ht : t ∈ blockAddrs F.rest)
    (s : State σ) (hs : (s.switch_index : Int) = idOf (assignedIDs newBB F).2 t) :
    stepBlock sem (runOnFunction newBB F).2 (newBB 0, s) = some (t, s) := by
  obtain ⟨k, hk, hid, hcase⟩ := findCase_id newBB F hwf hf hsize t ht
  rw [stepBlock_of_find sem _ _ s _ (findBlock_switch newBB F hwf hf hacc)]
  have hsk : s.switch_index = k := by
    rw [hid] at hs
    exact_mod_cast hs
  have hev : Value.eval sem s (.load .slot) = k := by
    simp only [Value.eval, hsk, wordSize]
    omega
  simp only [buildSwitch, splitSwitch, execInsts, List.foldl_nil, Terminator.step, hev, hcase]

/-- At a block that stores the encoded ID of a block after the entry block and
branches to the switch block, one block of execution passes control to the switch
block with that ID in the slot. -/
theorem stepBlock_store {ι σ : Type} (sem : Sem ι σ) (newBB : Nat → Addr) (F : Function ι)
    (hwf : F.WellFormed) (hf : FreshFor newBB F) (hacc : Accepted F)
    (hsize : F.rest.length + 2 ≤ 2 ^ 31) (t : Addr) (ht : t ∈ blockAddrs F.rest)
    (y : BasicBlock ι) (hy : y ∈ flattened newBB F) (l : List (Instr ι))
    (hinsts : y.insts = l ++ insertOpaqueSwitchIndex (idOf (assignedIDs newBB F).2 t) .slot)
    (hterm : y.term = .br (newBB 0)) (s : State σ)
    (hinv : DecodeInvariant (execInsts sem s l).g_array (execInsts sem s l).m) :
    ∃ s2 : State σ, stepBlock sem (runOnFunction newBB F).2 (y.addr, s) = some (newBB 0, s2) ∧
      s2.g_array = (execInsts sem s l).g_array ∧ s2.m = (execInsts sem s l).m ∧
      (s2.switch_index : Int) = idOf (assignedIDs newBB F).2 t := by
  obtain ⟨k, hk, hid, _⟩ := findCase_id newBB F hwf hf hsize t ht
  refine ⟨{ execInsts sem s l with switch_index := k }, ?_, rfl, rfl, by rw [hid]⟩
  rw [stepBlock_of_find sem _ _ s y (findBlock_of_mem newBB F hwf hf hacc y hy), hinsts,
    execInsts_append, hid, exec_encoded_of_invariant sem _ k hk hinv, hterm]
  simp only [Terminator.step]
/-- One block of execution of the flattened function keeps `FlatInv`. -/
theorem flatInv_step {ι σ : Type} (sem : Sem ι σ) (newBB : Nat → Addr) (F : Function ι)
    (hwf : F.WellFormed) (hf : FreshFor newBB F) (hacc : Accepted F)
    (hsize : F.rest.length + 2 ≤ 2 ^ 31) (hin : F.IsInput) (s0 : State σ)
    (hinv : DecodeInvariant s0.g_array s0.m) (c c' : Addr × State σ)
    (hc : FlatInv newBB F s0 c)
    (hstep : stepBlock sem (runOnFunction newBB F).2 c = some c') :
    FlatInv newBB F s0 c' := by
  obtain ⟨a, s⟩ := c
  obtain ⟨hg, hm, hcase⟩ := hc
  simp only at hg hm hcase
  have e0 : execInsts sem s [] = s := rfl
  rcases hcase with ha | ⟨ha, t, ht, hslot⟩ | ⟨y, hy, hya, hyt, t, ht, hyi⟩
  · obtain ⟨b, hb, rfl⟩ := mem_blocks_of_addr F a ha
    obtain ⟨b0, j, hj, hab, htb, he, hall⟩ := flat_of_input sem newBB F hacc b hb
    obtain ⟨hbi, hbt⟩ := hin.1 b hb
    have hs1 := (execInsts_input sem b.insts hbi s s rfl).2
    have hg1 : (execInsts sem s b.insts).g_array = s0.g_array := by rw [hs1]; exact hg
    have hm1 : (execInsts sem s b.insts).m = s0.m := by rw [hs1]; exact hm
    have hfind : ∀ y ∈ flatBlock newBB (assignedIDs newBB F).2 j b0,
        findBlock (runOnFunction newBB F).2 y.addr = some y :=
      fun y hy => findBlock_of_mem newBB F hwf hf hacc y (hall y hy)
    cases hterm : b.term with
    | ret v =>
      have hy : b0 ∈ flatBlock newBB (assignedIDs newBB F).2 j b0 := by
        simp [flatBlock, htb, hterm]
      have := hfind b0 hy
      rw [hab] at this
      rw [stepBlock_of_find sem _ _ s b0 this, htb, hterm] at hstep
      simp [Terminator.step] at hstep
    | br t =>
      have htr : t ∈ blockAddrs F.rest := hin.2 b hb t (by simp [hterm, Terminator.successors])
      have hy : (⟨b0.addr, b0.name,
          b0.insts ++ insertOpaqueSwitchIndex (idOf (assignedIDs newBB F).2 t) .slot,
          .br (newBB 0)⟩ : BasicBlock ι) ∈
          flatBlock newBB (assignedIDs newBB F).2 j b0 := by
        simp [flatBlock, htb, hterm]
      obtain ⟨s2, h1, hg2, hm2, hsl⟩ := stepBlock_store sem newBB F hwf hf hacc hsize t htr _
        (hall _ hy) b0.insts rfl rfl s (by rw [he, hg1, hm1]; exact hinv)
      simp only [hab] at h1
      rw [h1] at hstep
      simp only [Option.some.injEq] at hstep
      rw [← hstep]
      rw [he] at hg2 hm2
      exact ⟨hg2.trans hg1, hm2.trans hm1, Or.inr (Or.inl ⟨rfl, t, htr, hsl⟩)⟩
    | condBr cnd t f =>
      have htr : t ∈ blockAddrs F.rest := hin.2 b hb t (by simp [hterm, Terminator.successors])
      have hfr : f ∈ blockAddrs F.rest := hin.2 b hb f (by simp [hterm, Terminator.successors])
      have hhead : (⟨b0.addr, b0.name, b0.insts, .condBr cnd (newBB (j + 1)) (newBB j)⟩ :
          BasicBlock ι) ∈ flatBlock newBB (assignedIDs newBB F).2 j b0 := by
        simp [flatBlock, htb, hterm]
      have hthen : (⟨newBB (j + 1), b0.name ++ ".if.true",
          insertOpaqueSwitchIndex (idOf (assignedIDs newBB F).2 t) .slot,
          .br (newBB 0)⟩ : BasicBlock ι) ∈
          flatBlock newBB (assignedIDs newBB F).2 j b0 := by
        simp [flatBlock, htb, hterm]
      have htail : (⟨newBB j, b0.name ++ ".if.cont",
          insertOpaqueSwitchIndex (idOf (assignedIDs newBB F).2 f) .slot,
          .br (newBB 0)⟩ : BasicBlock ι) ∈
          flatBlock newBB (assignedIDs newBB F).2 j b0 := by
        simp [flatBlock, htb, hterm]
      have := hfind _ hhead
      simp only [hab] at this
      rw [stepBlock_of_find sem _ _ s _ this] at hstep
      simp only [he, Terminator.step, Option.some.injEq] at hstep
      rw [← hstep]
      refine ⟨hg1, hm1, Or.inr (Or.inr ?_)⟩
      by_cases hc : Value.eval sem (execInsts sem s b.insts) cnd % 2 = 1
      · simp only [hc, if_true]
        exact ⟨_, hall _ hthen, rfl, rfl, t, htr, rfl⟩
      · simp only [hc, if_false]
        exact ⟨_, hall _ htail, rfl, rfl, f, hfr, rfl⟩
    | switch v d cs => rw [hterm] at hbt; exact hbt.elim
    | unreachable => rw [hterm] at hbt; exact hbt.elim
  · subst ha
    rw [stepBlock_switch sem newBB F hwf hf hacc hsize t ht s hslot] at hstep
    simp only [Option.some.injEq] at hstep
    rw [← hstep]
    exact ⟨hg, hm, Or.inl (List.mem_cons_of_mem _ ht)⟩
  · obtain ⟨s2, h1, hg2, hm2, hsl⟩ := stepBlock_store sem newBB F hwf hf hacc hsize t ht y hy []
      (by rw [hyi]; rfl) hyt s (by rw [e0, hg, hm]; exact hinv)
    rw [hya] at h1
    rw [h1] at hstep
    simp only [Option.some.injEq] at hstep
    rw [← hstep]
    rw [e0] at hg2 hm2
    exact ⟨hg2.trans hg, hm2.trans hm, Or.inr (Or.inl ⟨rfl, t, ht, hsl⟩)⟩

/-- Every block and state a run of the flattened function reaches from the entry
block satisfies `FlatInv`. -/
theorem flatInv_reach {ι σ : Type} (sem : Sem ι σ) (newBB : Nat → Addr) (F : Function ι)
    (hwf : F.WellFormed) (hf : FreshFor newBB F) (hacc : Accepted F)
    (hsize : F.rest.length + 2 ≤ 2 ^ 31) (hin : F.IsInput) (s0 : State σ)
    (hinv : DecodeInvariant s0.g_array s0.m) :
    ∀ (n : Nat) (c : Addr × State σ),
      reach sem (runOnFunction newBB F).2 n (F.entry.addr, s0) = some c →
      FlatInv newBB F s0 c := by
  intro n
  induction n with
  | zero =>
    intro c h
    simp only [reach, Option.some.injEq] at h
    rw [← h]
    exact ⟨rfl, rfl, Or.inl (by simp [blockAddrs, Function.blocks])⟩
  | succ n ih =>
    intro c h
    simp only [reach] at h
    cases hr : reach sem (runOnFunction newBB F).2 n (F.entry.addr, s0) with
    | none => rw [hr] at h; simp at h
    | some c0 =>
      rw [hr] at h
      exact flatInv_step sem newBB F hwf hf hacc hsize hin s0 hinv c0 c (ih c0 hr) h
/-- C18 (encoded IDs are dispatchable).  For a function the pass accepts, made of
blocks of an input program whose branches target blocks of the function other
than the entry block, with fewer than `2 ^ 31` blocks: every target passed to the
encoder is the ID the map holds for a block after the entry block, is at least 2
and is the value of a case of the switch leading to that block; no lookup adds a
key, the map at the end is the map `assignIDToBasicBlocks` filled; and in every run
from a state whose table and `m` satisfy the decode invariant, whenever control
is at the switch block it passes to a block after the entry block, so neither the
default edge nor the case of the switch block's own ID, which both lead to the
switch block, is taken. -/
theorem encoded_ids_dispatchable {ι σ : Type} (sem : Sem ι σ) (newBB : Nat → Addr)
    (F : Function ι) (hwf : F.WellFormed) (hf : FreshFor newBB F) (hacc : Accepted F)
    (hsize : F.rest.length + 2 ≤ 2 ^ 31) (hin : F.IsInput) :
    (∀ t ∈ encoderTargets newBB F, ∃ a ∈ blockAddrs F.rest,
      (assignedIDs newBB F).2.lookup a = some t ∧ 2 ≤ t ∧
      (t, a) ∈ switchCases (assignedIDs newBB F).2) ∧
    finalBBMap newBB F = (assignedIDs newBB F).2 ∧
    findBlock (runOnFunction newBB F).2 (newBB 0) =
      some (buildSwitch newBB F (assignedIDs newBB F).2) ∧
    ∀ (s : State σ), DecodeInvariant s.g_array s.m → ∀ (n : Nat) (s' : State σ),
      reach sem (runOnFunction newBB F).2 n ((runOnFunction newBB F).2.entry.addr, s) =
        some (newBB 0, s') →
      ∃ a ∈ blockAddrs F.rest, a ≠ newBB 0 ∧
        stepBlock sem (runOnFunction newBB F).2 (newBB 0, s') = some (a, s') := by
  obtain ⟨htargets, hfinal⟩ := encoderTargets_rest newBB F hwf hf hacc hin.2
  have hfresh : ∀ a ∈ blockAddrs F.rest, a ≠ newBB 0 := by
    intro a ha h
    exact hf.2 0 (h ▸ List.mem_cons_of_mem _ ha)
  refine ⟨?_, hfinal, findBlock_switch newBB F hwf hf hacc, ?_⟩
  · intro t ht
    obtain ⟨a, ha, rfl⟩ := htargets t ht
    have hlook := (lookup_rest_ne_none newBB F hwf hf a ha).1
    have hid := idOf_rest newBB F hwf hf a ha
    have h2 : (2 : Int) ≤ idOf (assignedIDs newBB F).2 a := by
      rw [hid]
      push_cast
      omega
    refine ⟨a, ha, hlook, h2, ?_⟩
    rw [mem_switchCases _ (sorted_assignedIDs newBB F)]
    exact ⟨hlook, by omega⟩
  · intro s hinv n s' hreach
    rw [entry_addr_runOnFunction newBB F hwf hf hacc] at hreach
    obtain ⟨_, _, hcase⟩ := flatInv_reach sem newBB F hwf hf hacc hsize hin s hinv n _ hreach
    simp only at hcase
    rcases hcase with h | ⟨_, t, ht, hslot⟩ | ⟨y, hy, hya, hyt, _⟩
    · exact absurd h (hf.2 0)
    · exact ⟨t, ht, hfresh t ht, stepBlock_switch sem newBB F hwf hf hacc hsize t ht s' hslot⟩
    · exfalso
      have h1 := findBlock_of_mem newBB F hwf hf hacc y hy
      rw [hya, findBlock_switch newBB F hwf hf hacc] at h1
      have h2 : y = buildSwitch newBB F (assignedIDs newBB F).2 := (Option.some.inj h1).symm
      rw [h2] at hyt
      simp [buildSwitch] at hyt

/-- The diamond with the initial table: after the entry block and its then-block,
control is at the switch block with the ID 2 in the slot, and passes to `B` at
address 30. -/
theorem encoded_ids_dispatchable_witness :
    finalBBMap (newBBFrom 100) diamondFn = (assignedIDs (newBBFrom 100) diamondFn).2 ∧
    reach countSem (runOnFunction (newBBFrom 100) diamondFn).2 2
        ((runOnFunction (newBBFrom 100) diamondFn).2.entry.addr, countState 0 0) =
      some (newBBFrom 100 0, countState 1 2) ∧
    ∃ a ∈ blockAddrs diamondFn.rest, a ≠ newBBFrom 100 0 ∧
      stepBlock countSem (runOnFunction (newBBFrom 100) diamondFn).2
        (newBBFrom 100 0, countState 1 2) = some (a, countState 1 2) :=
  ⟨(encoded_ids_dispatchable countSem (newBBFrom 100) diamondFn diamondFn_wellFormed
      diamondFn_fresh diamondFn_accepted (by decide) diamondFn_isInput).2.1,
   rfl,
   (encoded_ids_dispatchable countSem (newBBFrom 100) diamondFn diamondFn_wellFormed
      diamondFn_fresh diamondFn_accepted (by decide) diamondFn_isInput).2.2.2
      (countState 0 0) (by decide) 2 (countState 1 2) rfl⟩

theorem rotatedTable_cells :
    ∀ m, m < 10 → ∀ i, i < 10 → (rotatedTable m).getD ((m + i) % 10) 0 = InitValues.getD i 0 := by
  decide

theorem initValues_getD_lt (off : Nat) : InitValues.getD off 0 < wordSize := by
  apply getD_lt_of_forall InitValues wordSize (by simp [wordSize])
  decide

/-- On a table that is the initial table rotated by `m`, the cell at an offset
relative to `m` is the cell of the initial table at that offset. -/
theorem cellAt_rotated (table : List Nat) (m : Nat) (hm : m < 10)
    (hrot : ∀ i, i < 10 → table.getD ((m + i) % 10) 0 = InitValues.getD i 0)
    (off : Nat) (hoff : off < 10) : cellAt table m off = InitValues.getD off 0 := by
  unfold cellAt
  have h1 : (m + off) % wordSize = m + off := by
    apply Nat.mod_eq_of_lt
    simp only [wordSize]; omega
  rw [h1, hrot off hoff]
  exact Nat.mod_eq_of_lt (initValues_getD_lt off)

theorem decode_rotated (table : List Nat) (m : Nat) (hm : m < 10)
    (hrot : ∀ i, i < 10 → table.getD ((m + i) % 10) 0 = InitValues.getD i 0)
    (r : Nat) (hr : r < 10) : decode table m r = decode InitValues mInit r := by
  unfold decode
  have hmap : (ruleOffsets r).map (cellAt table m) =
      (ruleOffsets r).map (cellAt InitValues mInit) := by
    apply List.map_congr_left
    intro off hoff
    have ho : off < 10 := Nat.lt_succ_of_le (ruleOffsets_le r off hr hoff)
    rw [cellAt_rotated table m hm hrot off ho,
      cellAt_rotated InitValues mInit (by decide) (by decide) off ho]
  rw [hmap]

/-- Each of the ten rotations of the initial table satisfies the decode invariant
with its `m`. -/
theorem rotatedTable_invariant (m : Nat) (hm : m < 10) : DecodeInvariant (rotatedTable m) m := by
  have hinit : DecodeInvariant InitValues mInit := by decide
  intro r hr
  rw [decode_rotated (rotatedTable m) m hm (rotatedTable_cells m hm) r hr]
  exact hinit r hr

/-- C23 (rotation tolerance).  For every `m` in `[0, 10)` and every table that is
the initial table `[2,4,3,5,4,7,2,3,8,7]` rotated by `m` (the cell `(m + i) mod 10`
holds the initial cell `i`, for every `i` in `0..9`), the decode invariant holds,
and for every target in `[0, 2 ^ 31)` the operations the encoder emits store
exactly the target into the slot and change nothing else. -/
theorem rotation_tolerance {ι σ : Type} (sem : Sem ι σ) (s : State σ) (hm : s.m < 10)
    (hrot : ∀ i, i < 10 → s.g_array.getD ((s.m + i) % 10) 0 = InitValues.getD i 0) :
    DecodeInvariant s.g_array s.m ∧
    ∀ target : Int, 0 ≤ target → target < 2 ^ 31 →
      execInsts sem s (insertOpaqueSwitchIndex target (.slot : Value ι)) =
        { s with switch_index := target.toNat } := by
  have hinit : DecodeInvariant InitValues mInit := by decide
  have hinv : DecodeInvariant s.g_array s.m := by
    intro r hr
    rw [decode_rotated s.g_array s.m hm hrot r hr]
    exact hinit r hr
  refine ⟨hinv, ?_⟩
  intro target h0 h31
  obtain ⟨n, rfl⟩ := Int.eq_ofNat_of_zero_le h0
  have hn : n < 2 ^ 31 := by exact_mod_cast h31
  simpa using exec_encoded_of_invariant sem s n hn hinv

/-- The table rotated by 3 with `m = 3`: the invariant holds and the target 57 is
stored as 57. -/
theorem rotation_tolerance_witness :
    rotatedTable 3 = [3, 8, 7, 2, 4, 3, 5, 4, 7, 2] ∧
    DecodeInvariant (rotatedTable 3) 3 ∧
    execInsts unitSem ⟨(), rotatedTable 3, 3, 0⟩ (insertOpaqueSwitchIndex 57 (.slot : Value Unit)) =
      ⟨(), rotatedTable 3, 3, 57⟩ :=
  ⟨by decide,
   (rotation_tolerance unitSem ⟨(), rotatedTable 3, 3, 0⟩ (by decide) (by decide)).1,
   (rotation_tolerance unitSem ⟨(), rotatedTable 3, 3, 0⟩ (by decide) (by decide)).2 57
     (by decide) (by decide)⟩

theorem insertOpaqueSwitchIndex_cases {ι : Type} (target : Int) (destination : Value ι) :
    insertOpaqueSwitchIndex target destination = [] ∨
    ∃ r : Nat, r < 10 ∧
      insertOpaqueSwitchIndex target destination =
        encodeByRule r (Int.tdiv target 10) destination := by
  unfold insertOpaqueSwitchIndex
  show (if Int.tmod target 10 = 0 then _ else _) = [] ∨ ∃ r : Nat, r < 10 ∧
    (if Int.tmod target 10 = 0 then _ else _) = encodeByRule r (Int.tdiv target 10) destination
  by_cases h0 : Int.tmod target 10 = 0
  · rw [if_pos h0]
    exact Or.inr ⟨0, by norm_num, rfl⟩
  rw [if_neg h0]
  by_cases h1 : Int.tmod target 10 = 1
  · rw [if_pos h1]
    exact Or.inr ⟨1, by norm_num, rfl⟩
  rw [if_neg h1]
  by_cases h2 : Int.tmod target 10 = 2
  · rw [if_pos h2]
    exact Or.inr ⟨2, by norm_num, rfl⟩
  rw [if_neg h2]
  by_cases h3 : Int.tmod target 10 = 3
  · rw [if_pos h3]
    exact Or.inr ⟨3, by norm_num, rfl⟩
  rw [if_neg h3]
  by_cases h4 : Int.tmod target 10 = 4
  · rw [if_pos h4]
    exact Or.inr ⟨4, by norm_num, rfl⟩
  rw [if_neg h4]
  by_cases h5 : Int.tmod target 10 = 5
  · rw [if_pos h5]
    exact Or.inr ⟨5, by norm_num, rfl⟩
  rw [if_neg h5]
  by_cases h6 : Int.tmod target 10 = 6
  · rw [if_pos h6]
    exact Or.inr ⟨6, by norm_num, rfl⟩
  rw [if_neg h6]
  by_cases h7 : Int.tmod target 10 = 7
  · rw [if_pos h7]
    exact Or.inr ⟨7, by norm_num, rfl⟩
  rw [if_neg h7]
  by_cases h8 : Int.tmod target 10 = 8
  · rw [if_pos h8]
    exact Or.inr ⟨8, by norm_num, rfl⟩
  rw [if_neg h8]
  by_cases h9 : Int.tmod target 10 = 9
  · rw [if_pos h9]
    exact Or.inr ⟨9, by norm_num, rfl⟩
  rw [if_neg h9]
  exact Or.inl rfl

theorem encodeByRule_reads {ι : Type} (r : Nat) (hr : r < 10) (q : Int) (p : Value ι × Value ι)
    (hp : p ∈ (encodeByRule r q (.slot : Value ι)).flatMap Instr.tableReads) :
    ∃ off : Nat, off < 10 ∧ p = (.constInt 0, arrayIndex (off : Int)) := by
  have key : ∀ k : Nat, k < 10 →
      ∃ off : Nat, off < 10 ∧
        ((.constInt 0, .urem (.add (.load .gM) (.constInt (k : Int))) (.constInt 10)) :
          Value ι × Value ι) = (.constInt 0, arrayIndex (off : Int)) :=
    fun k hk => ⟨k, hk, rfl⟩
  have k0 := key 0 (by norm_num)
  have k1 := key 1 (by norm_num)
  have k2 := key 2 (by norm_num)
  have k3 := key 3 (by norm_num)
  have k4 := key 4 (by norm_num)
  have k5 := key 5 (by norm_num)
  have k6 := key 6 (by norm_num)
  have k7 := key 7 (by norm_num)
  have k8 := key 8 (by norm_num)
  have k9 := key 9 (by norm_num)
  simp only [Nat.cast_ofNat, Nat.cast_zero, Nat.cast_one] at k0 k1 k2 k3 k4 k5 k6 k7 k8 k9
  interval_cases r <;>
    simp only [encodeByRule, cellProduct, readCell, ruleOffsets, List.foldl_cons, List.foldl_nil,
      List.flatMap_cons, List.flatMap_nil, List.append_nil, Instr.tableReads, Value.tableReads,
      List.mem_append, List.mem_cons, List.not_mem_nil, or_false, false_or, List.nil_append,
      Nat.cast_ofNat, Nat.cast_zero, Nat.cast_one, List.cons_append] at hp <;>
    first
      | (subst hp; assumption)
      | (rcases hp with h | h <;> subst h <;> assumption)
      | (rcases hp with h | h | h <;> subst h <;> assumption)

/-- Every table read the encoder emits has the leading index 0 and the index
`URem(Add(Load(m), off), 10)` for an offset literal `off` of the rules. -/
theorem encoderReads_shape {ι : Type} (target : Int) (p : Value ι × Value ι)
    (hp : p ∈ encoderReads target) :
    ∃ off : Nat, off < 10 ∧ p = (.constInt 0, arrayIndex (off : Int)) := by
  unfold encoderReads at hp
  rcases insertOpaqueSwitchIndex_cases target (.slot : Value ι) with h | ⟨r, hr, h⟩
  · rw [h] at hp
    simp at hp
  · rw [h] at hp
    exact encodeByRule_reads r hr _ p hp

theorem encoderReads_23 :
    encoderReads (ι := Unit) 23 = [(.constInt 0, arrayIndex 0), (.constInt 0, arrayIndex 1)] :=
  rfl

/-- C24 (table indexing in bounds).  For every target, every state, whatever the
value of `m`, and every table read in the operations the encoder emits: the
leading index is 0, the index into the table is `(m + off) mod 2 ^ 32` reduced by
the unsigned remainder 10 for an offset literal `off` of the rules, and it is
below 10; so the read addresses one of the 10 cells of `g_array`. -/
theorem table_reads_in_bounds {ι σ : Type} (sem : Sem ι σ) (s : State σ) (target : Int)
    (p : Value ι × Value ι) (hp : p ∈ encoderReads target) :
    Value.eval sem s p.1 = 0 ∧
    (∃ off : Nat, off < 10 ∧ p.2 = arrayIndex (off : Int) ∧
      Value.eval sem s p.2 = (s.m % 2 ^ 32 + off) % 2 ^ 32 % 10) ∧
    Value.eval sem s p.2 < 10 ∧
    10 * Value.eval sem s p.1 + Value.eval sem s p.2 < 10 := by
  obtain ⟨off, hoff, rfl⟩ := encoderReads_shape target p hp
  have h10 : Value.eval sem s (.constInt ((10 : Nat) : Int)) = 10 :=
    constInt_eval_ofNat sem s 10 (by norm_num [wordSize])
  have h0 : Value.eval sem s (.constInt ((0 : Nat) : Int)) = 0 :=
    constInt_eval_ofNat sem s 0 (by norm_num [wordSize])
  have ho : Value.eval sem s (.constInt (off : Int)) = off :=
    constInt_eval_ofNat sem s off (by simp only [wordSize]; omega)
  simp only [Nat.cast_ofNat, Nat.cast_zero] at h10 h0
  have hidx : Value.eval sem s (arrayIndex (off : Int)) = (s.m % 2 ^ 32 + off) % 2 ^ 32 % 10 := by
    show Value.eval sem s (.urem (.add (.load .gM) (.constInt (off : Int))) (.constInt 10)) = _
    rw [eval_urem, eval_add, h10, ho]
    rfl
  have hlt : Value.eval sem s (arrayIndex (off : Int)) < 10 := by
    rw [hidx]
    exact Nat.mod_lt _ (by norm_num)
  refine ⟨h0, ⟨off, hoff, rfl, hidx⟩, hlt, ?_⟩
  show 10 * Value.eval sem s (.constInt 0) + Value.eval sem s (arrayIndex (off : Int)) < 10
  rw [h0]
  omega

/-- With `m = 2 ^ 32 - 1`, where `m + 1` wraps, the two table reads emitted for
target 23 address the cells 5 and 0. -/
theorem table_reads_in_bounds_witness :
    ((.constInt 0, arrayIndex 1) : Value Unit × Value Unit) ∈ encoderReads 23 ∧
    Value.eval unitSem ⟨(), InitValues, 2 ^ 32 - 1, 0⟩ (arrayIndex 0 : Value Unit) = 5 ∧
    Value.eval unitSem ⟨(), InitValues, 2 ^ 32 - 1, 0⟩ (arrayIndex 1 : Value Unit) = 0 ∧
    Value.eval unitSem ⟨(), InitValues, 2 ^ 32 - 1, 0⟩ (arrayIndex 1 : Value Unit) < 10 :=
  ⟨by decide, by decide, by decide,
   (table_reads_in_bounds unitSem ⟨(), InitValues, 2 ^ 32 - 1, 0⟩ 23
      (.constInt 0, arrayIndex 1) (by decide)).2.2.1⟩

/-- C25 (32-bit arithmetic of the encoder).  For every table, `m` and target in
`[0, 2 ^ 31)`, the value stored is the product of the cells read, taken modulo
`2 ^ 32`, then reduced modulo the rule's modulus, plus `quotient * 10`, as a 32-bit
word; and whenever the product of the cells read (each an unsigned 32-bit value)
is below `2 ^ 32`, it is the integer product of the cells read modulo the rule's
modulus plus `quotient * 10`. -/
theorem encoder_word_arithmetic {ι σ : Type} (sem : Sem ι σ) (s : State σ) (n : Nat)
    (hn : n < 2 ^ 31) :
    execInsts sem s (insertOpaqueSwitchIndex (n : Int) (.slot : Value ι)) =
      { s with switch_index :=
          (((ruleOffsets (n % 10)).map (cellAt s.g_array s.m)).prod % 2 ^ 32 %
            ruleModulus (n % 10) + n / 10 * 10) % 2 ^ 32 } ∧
    (∀ off ∈ ruleOffsets (n % 10), cellAt s.g_array s.m off < 2 ^ 32) ∧
    (((ruleOffsets (n % 10)).map (cellAt s.g_array s.m)).prod < 2 ^ 32 →
      execInsts sem s (insertOpaqueSwitchIndex (n : Int) (.slot : Value ι)) =
        { s with switch_index :=
            ((ruleOffsets (n % 10)).map (cellAt s.g_array s.m)).prod % ruleModulus (n % 10) +
              n / 10 * 10 }) := by
  have hexec := insertOpaqueSwitchIndex_exec (ι := ι) sem s n hn
  have hr : n % 10 < 10 := Nat.mod_lt _ (by norm_num)
  refine ⟨hexec, ?_, ?_⟩
  · intro off _
    have : cellAt s.g_array s.m off < wordSize := by
      unfold cellAt
      exact Nat.mod_lt _ (by simp [wordSize])
    simpa [wordSize] using this
  · intro hprod
    rw [hexec]
    have hlt : ((ruleOffsets (n % 10)).map (cellAt s.g_array s.m)).prod < wordSize := by
      simpa [wordSize] using hprod
    have hmod : ruleModulus (n % 10) ≤ 11 := by
      interval_cases n % 10 <;> simp [ruleModulus]
    have hpos : 0 < ruleModulus (n % 10) := by
      interval_cases n % 10 <;> simp [ruleModulus]
    have hlow : ((ruleOffsets (n % 10)).map (cellAt s.g_array s.m)).prod %
        ruleModulus (n % 10) < ruleModulus (n % 10) := Nat.mod_lt _ hpos
    have hdec : decode s.g_array s.m (n % 10) =
        ((ruleOffsets (n % 10)).map (cellAt s.g_array s.m)).prod % ruleModulus (n % 10) := by
      unfold decode
      rw [Nat.mod_eq_of_lt hlt]
    rw [hdec]
    have : (((ruleOffsets (n % 10)).map (cellAt s.g_array s.m)).prod % ruleModulus (n % 10) +
        n / 10 * 10) % wordSize =
        ((ruleOffsets (n % 10)).map (cellAt s.g_array s.m)).prod % ruleModulus (n % 10) +
          n / 10 * 10 := by
      apply Nat.mod_eq_of_lt
      simp only [wordSize]
      omega
    rw [this]

/-- The target 1 on `wideTable` with `m = 0`: the cells read are 65537 and 65538,
whose product 4295098306 is above `2 ^ 32`; the stored value is
`4295098306 % 2 ^ 32 % 5 = 0`, while the integer product modulo 5 is 1.  The
target 23 on the initial table: the product 8 is below `2 ^ 32` and the stored
value is `8 % 5 + 20`. -/
theorem encoder_word_arithmetic_witness :
    execInsts unitSem ⟨(), wideTable, 0, 7⟩ (insertOpaqueSwitchIndex 1 (.slot : Value Unit)) =
      ⟨(), wideTable, 0, 0⟩ ∧
    (65537 * 65538) % 5 = 1 ∧ (65537 * 65538) % 2 ^ 32 % 5 = 0 ∧
    execInsts unitSem (initState 0) (insertOpaqueSwitchIndex 23 (.slot : Value Unit)) =
      { initState 0 with switch_index := 8 % 5 + 20 } :=
  ⟨(encoder_word_arithmetic unitSem ⟨(), wideTable, 0, 7⟩ 1 (by decide)).1,
   by decide, by decide,
   (encoder_word_arithmetic unitSem (initState 0) 23 (by decide)).2.2 (by decide)⟩

/-- The blocks made from a reachable block are reachable, and so is the switch block
when the block ended in a branch. -/
theorem flatBlock_reachable {ι : Type} (G : Function ι) (newBB : Nat → Addr) (ids : BBMap)
    (j : Nat) (b0 : BasicBlock ι) (hall : ∀ y ∈ flatBlock newBB ids j b0, y ∈ G.blocks)
    (hr : Reachable G b0.addr) :
    (∀ y ∈ flatBlock newBB ids j b0, Reachable G y.addr) ∧
    (((∃ d, b0.term = .br d) ∨ ∃ c t f, b0.term = .condBr c t f) →
      Reachable G (newBB 0)) := by
  unfold flatBlock at hall ⊢
  cases hterm : b0.term with
  | condBr c s0 s1 =>
    simp only [hterm, List.mem_cons, List.mem_singleton, List.not_mem_nil, or_false,
      forall_eq_or_imp, forall_eq] at hall ⊢
    obtain ⟨hh, ht, he⟩ := hall
    have rt : Reachable G (newBB (j + 1)) :=
      Reachable.edge ⟨b0.addr, b0.name, b0.insts, .condBr c (newBB (j + 1)) (newBB j)⟩
        (newBB (j + 1)) hr hh (by simp [Terminator.successors])
    have re : Reachable G (newBB j) :=
      Reachable.edge ⟨b0.addr, b0.name, b0.insts, .condBr c (newBB (j + 1)) (newBB j)⟩
        (newBB j) hr hh (by simp [Terminator.successors])
    exact ⟨⟨hr, rt, re⟩, fun _ =>
      Reachable.edge ⟨newBB (j + 1), b0.name ++ ".if.true",
        insertOpaqueSwitchIndex (idOf ids s0) .slot, .br (newBB 0)⟩ (newBB 0) rt ht
        (by simp [Terminator.successors])⟩
  | br d =>
    simp only [hterm, List.mem_singleton, forall_eq] at hall ⊢
    exact ⟨hr, fun _ =>
      Reachable.edge ⟨b0.addr, b0.name, b0.insts ++ insertOpaqueSwitchIndex (idOf ids d) .slot,
        .br (newBB 0)⟩ (newBB 0) hr hall (by simp [Terminator.successors])⟩
  | ret v =>
    simp only [hterm, List.mem_singleton, forall_eq] at hall ⊢
    exact ⟨hr, fun h => by simp at h⟩
  | switch v d cs =>
    simp only [hterm, List.mem_singleton, forall_eq] at hall ⊢
    exact ⟨hr, fun h => by simp at h⟩
  | unreachable =>
    simp only [hterm, List.mem_singleton, forall_eq] at hall ⊢
    exact ⟨hr, fun h => by simp at h⟩

/-- Every block after the entry block is a successor of the switch. -/
theorem rest_mem_switch_successors {ι : Type} (newBB : Nat → Addr) (F : Function ι)
    (hwf : F.WellFormed) (hf : FreshFor newBB F) (a : Addr) (ha : a ∈ blockAddrs F.rest) :
    a ∈ (buildSwitch newBB F (assignedIDs newBB F).2).term.successors := by
  have hlook := (lookup_rest_ne_none newBB F hwf hf a ha).1
  have hid := idOf_rest newBB F hwf hf a ha
  have hne : idOf (assignedIDs newBB F).2 a ≠ 0 := by
    rw [hid]
    have : (blockAddrs F.rest).indexOf a + 2 ≠ 0 := by omega
    exact_mod_cast this
  have hmem : (idOf (assignedIDs newBB F).2 a, a) ∈ switchCases (assignedIDs newBB F).2 :=
    (mem_switchCases _ (sorted_assignedIDs newBB F) a _).2 ⟨hlook, hne⟩
  simp only [buildSwitch, Terminator.successors, List.mem_cons, List.mem_map]
  exact Or.inr ⟨_, hmem, rfl⟩

/-- C21 (no unreachable blocks).  After a successful run, every block of the function
(the entry block, the created then and tail blocks, the switch block and every
block of the input function) is reachable from the entry block along CFG
edges. -/
theorem flattened_all_reachable {ι : Type} (newBB : Nat → Addr) (F : Function ι)
    (hwf : F.WellFormed) (hf : FreshFor newBB F) (hacc : Accepted F) :
    (runOnFunction newBB F).1 = true ∧
    ∀ b ∈ (runOnFunction newBB F).2.blocks, Reachable (runOnFunction newBB F).2 b.addr := by
  obtain ⟨hchanged, hblocks⟩ := runOnFunction_blocks newBB F hwf hf hacc
  refine ⟨hchanged, ?_⟩
  have hentry : Reachable (runOnFunction newBB F).2 F.entry.addr := by
    rw [← entry_addr_runOnFunction newBB F hwf hf hacc]
    exact Reachable.entry
  have hsub : ∀ b0 ∈ entryWithSlot F :: namedFrom F.rest 2, ∃ j, 1 ≤ j ∧
      ∀ y ∈ flatBlock newBB (assignedIDs newBB F).2 j b0, y ∈ (runOnFunction newBB F).2.blocks := by
    intro b0 hb0
    obtain ⟨j, hj, hall⟩ := flatBlock_subset newBB (assignedIDs newBB F).2 _ 1 b0 hb0
    exact ⟨j, hj, fun y hy => by
      rw [hblocks]
      exact (mem_flattened newBB F hacc y).2 (Or.inr (hall y hy))⟩
  have hswitchMem : buildSwitch newBB F (assignedIDs newBB F).2 ∈
      (runOnFunction newBB F).2.blocks := by
    rw [hblocks]
    exact switch_mem_flattened newBB F
  have hswitch : Reachable (runOnFunction newBB F).2 (newBB 0) := by
    obtain ⟨j, _, hall⟩ := hsub (entryWithSlot F) (List.mem_cons_self _ _)
    exact (flatBlock_reachable _ newBB _ j (entryWithSlot F) hall hentry).2 hacc.2
  have hrest : ∀ a ∈ blockAddrs F.rest, Reachable (runOnFunction newBB F).2 a := fun a ha =>
    Reachable.edge (buildSwitch newBB F (assignedIDs newBB F).2) a hswitch hswitchMem
      (rest_mem_switch_successors newBB F hwf hf a ha)
  intro b hb
  rw [hblocks] at hb
  rcases (mem_flattened newBB F hacc b).1 hb with h | h
  · rw [h]
    exact hswitch
  · obtain ⟨b0, hb0, j, _, hbj, hall⟩ := mem_flatBlocks newBB _ _ 1 b h
    have hb0r : Reachable (runOnFunction newBB F).2 b0.addr := by
      have hmem : b0.addr ∈ blockAddrs (entryWithSlot F :: namedFrom F.rest 2) :=
        List.mem_map_of_mem _ hb0
      rw [blockAddrs_entryWithSlot_rest] at hmem
      rcases List.mem_cons.1 hmem with h1 | h1
      · rw [h1]; exact hentry
      · exact hrest _ h1
    have hall2 : ∀ y ∈ flatBlock newBB (assignedIDs newBB F).2 j b0,
        y ∈ (runOnFunction newBB F).2.blocks := fun y hy => by
      rw [hblocks]
      exact (mem_flattened newBB F hacc y).2 (Or.inr (hall y hy))
    exact (flatBlock_reachable _ newBB _ j b0 hall2 hb0r).1 b hbj

theorem flattened_all_reachable_witness :
    (runOnFunction (newBBFrom 100) diamondFn).2.blocks.map (fun b => b.addr) =
      [40, 102, 101, 100, 30, 20, 10] ∧
    ∀ b ∈ (runOnFunction (newBBFrom 100) diamondFn).2.blocks,
      Reachable (runOnFunction (newBBFrom 100) diamondFn).2 b.addr :=
  ⟨by decide,
   (flattened_all_reachable (newBBFrom 100) diamondFn diamondFn_wellFormed diamondFn_fresh
      diamondFn_accepted).2⟩

theorem namedFrom_getElem? {ι : Type} (l : List (BasicBlock ι)) :
    ∀ (n : Int) (k : Nat) (b : BasicBlock ι), l[k]? = some b →
      nameBlock b (n + (k : Int)) ∈ namedFrom l n := by
  induction l with
  | nil => intro n k b h; simp at h
  | cons a r ih =>
    intro n k b h
    cases k with
    | zero =>
      simp only [List.getElem?_cons_zero, Option.some.injEq] at h
      subst h
      simp [namedFrom]
    | succ k =>
      simp only [List.getElem?_cons_succ] at h
      have := ih (n + 1) k b h
      simp only [namedFrom, List.mem_cons]
      right
      have e : n + ((k + 1 : Nat) : Int) = n + 1 + (k : Int) := by push_cast; ring
      rw [e]
      exact this

/-- The first of the blocks made from a block: it has the block's address, name and
instructions, followed by the encoder operations when the block ended in an
unconditional branch; it is the block itself when the block did not end in a
branch. -/
theorem flatBlock_head {ι : Type} (newBB : Nat → Addr) (ids : BBMap) (j : Nat)
    (b0 : BasicBlock ι) :
    ∃ x ∈ flatBlock newBB ids j b0, x.addr = b0.addr ∧ x.name = b0.name ∧
      x.insts = b0.insts ++ appendedOps ids b0 ∧
      ((∀ d, b0.term ≠ .br d) → (∀ c t f, b0.term ≠ .condBr c t f) → x = b0) := by
  unfold flatBlock appendedOps
  cases hterm : b0.term with
  | condBr c s0 s1 =>
    exact ⟨_, List.mem_cons_self _ _, rfl, rfl, by simp, fun _ h => absurd rfl (h c s0 s1)⟩
  | br d =>
    exact ⟨_, List.mem_cons_self _ _, rfl, rfl, rfl, fun h _ => absurd rfl (h d)⟩
  | ret v => exact ⟨b0, List.mem_singleton.2 rfl, rfl, rfl, by simp, fun _ _ => rfl⟩
  | switch v d cs => exact ⟨b0, List.mem_singleton.2 rfl, rfl, rfl, by simp, fun _ _ => rfl⟩
  | unreachable => exact ⟨b0, List.mem_singleton.2 rfl, rfl, rfl, by simp, fun _ _ => rfl⟩

/-- C22 (frame of the flattening): after a successful run, for a block of the input
function that does not end in a branch, the block at its address has the same
instructions and the same terminator, and it is the very same block when it had
a name (the ID assignment gives a name to a block without one, and nothing
else of it changes).  For every block of the input function, the block at its
address holds the alloca of the slot in front when it is the entry block, then
the block's instructions in their order, then the encoder operations when the
block ended in an unconditional branch.  Every other block of the function
holds no instruction (the switch block) or encoder operations only. -/
theorem flatten_frame {ι : Type} (newBB : Nat → Addr) (F : Function ι)
    (hwf : F.WellFormed) (hf : FreshFor newBB F) (hacc : Accepted F) :
    (∀ b ∈ F.blocks, (∀ d, b.term ≠ .br d) → (∀ c t f, b.term ≠ .condBr c t f) →
      ∃ x, findBlock (runOnFunction newBB F).2 b.addr = some x ∧ x.addr = b.addr ∧
        x.insts = b.insts ∧ x.term = b.term ∧ (b.name ≠ "" → x = b)) ∧
    (∀ b ∈ F.blocks, ∃ x, findBlock (runOnFunction newBB F).2 b.addr = some x ∧
      x.insts = (if b.addr = F.entry.addr then [Instr.alloca] else []) ++ b.insts ++
        appendedOps (assignedIDs newBB F).2 b) ∧
    (∀ x ∈ (runOnFunction newBB F).2.blocks, x.addr ∉ blockAddrs F.blocks →
      x.insts = [] ∨ ∃ t : Int, x.insts = insertOpaqueSwitchIndex t .slot) := by
  obtain ⟨_, hblocks⟩ := runOnFunction_blocks newBB F hwf hf hacc
  have hfind : ∀ b0 ∈ entryWithSlot F :: namedFrom F.rest 2,
      ∃ x, findBlock (runOnFunction newBB F).2 b0.addr = some x ∧
        x.insts = b0.insts ++ appendedOps (assignedIDs newBB F).2 b0 ∧
        ((∀ d, b0.term ≠ .br d) → (∀ c t f, b0.term ≠ .condBr c t f) → x = b0) := by
    intro b0 hb0
    obtain ⟨j, _, hall⟩ := flatBlock_subset newBB (assignedIDs newBB F).2 _ 1 b0 hb0
    obtain ⟨x, hx, ha, _, hi, hsame⟩ := flatBlock_head newBB (assignedIDs newBB F).2 j b0
    have hxf : x ∈ flattened newBB F := (mem_flattened newBB F hacc x).2 (Or.inr (hall x hx))
    have := findBlock_of_mem newBB F hwf hf hacc x hxf
    rw [ha] at this
    exact ⟨x, this, hi, hsame⟩
  have hne : ∀ b ∈ F.rest, b.addr ≠ F.entry.addr := by
    intro b hb h
    have hnd : F.entry.addr ∉ blockAddrs F.rest ∧ (blockAddrs F.rest).Nodup := by
      simpa [Function.WellFormed, Function.blocks, blockAddrs] using hwf
    exact hnd.1 (h ▸ List.mem_map_of_mem _ hb)
  have hrest : ∀ (k : Nat) (b : BasicBlock ι), F.rest[k]? = some b →
      ∃ x, findBlock (runOnFunction newBB F).2 b.addr = some x ∧
        x.insts = b.insts ++ appendedOps (assignedIDs newBB F).2 b ∧
        ((∀ d, b.term ≠ .br d) → (∀ c t f, b.term ≠ .condBr c t f) →
          x = nameBlock b ((k : Int) + 2)) := by
    intro k b hk
    have hmem := namedFrom_getElem? F.rest 2 k b hk
    have e : (2 : Int) + (k : Int) = (k : Int) + 2 := by ring
    rw [e] at hmem
    obtain ⟨x, hx, hi, hsame⟩ := hfind _ (List.mem_cons_of_mem _ hmem)
    rw [nameBlock_addr] at hx
    refine ⟨x, hx, ?_, ?_⟩
    · rw [hi, nameBlock_insts]
      simp only [appendedOps, nameBlock_term]
    · intro h1 h2
      exact hsame (by rw [nameBlock_term]; exact h1) (by rw [nameBlock_term]; exact h2)
  refine ⟨?_, ?_, ?_⟩
  · intro b hb h1 h2
    rcases List.mem_cons.1 hb with h | h
    · subst h
      rcases hacc.2 with ⟨d, hd⟩ | ⟨c, t, f, hc⟩
      · exact absurd hd (h1 d)
      · exact absurd hc (h2 c t f)
    · obtain ⟨k, hk, hkb⟩ := List.getElem_of_mem h
      obtain ⟨x, hx, _, hsame⟩ := hrest k b (hkb ▸ List.getElem?_eq_getElem hk)
      refine ⟨x, hx, ?_, ?_, ?_, ?_⟩
      · rw [hsame h1 h2, nameBlock_addr]
      · rw [hsame h1 h2, nameBlock_insts]
      · rw [hsame h1 h2, nameBlock_term]
      · intro hn
        rw [hsame h1 h2]
        exact nameBlock_of_named b _ hn
  · intro b hb
    rcases List.mem_cons.1 hb with h | h
    · subst h
      obtain ⟨x, hx, hi, _⟩ := hfind (entryWithSlot F) (List.mem_cons_self _ _)
      refine ⟨x, hx, ?_⟩
      rw [hi]
      simp [entryWithSlot, appendedOps]
    · obtain ⟨k, hk, hkb⟩ := List.getElem_of_mem h
      obtain ⟨x, hx, hi, _⟩ := hrest k b (hkb ▸ List.getElem?_eq_getElem hk)
      refine ⟨x, hx, ?_⟩
      rw [hi, if_neg (hne b h)]
      simp
  · intro x hx hnot
    rw [hblocks] at hx
    rcases (mem_flattened newBB F hacc x).1 hx with h | h
    · exact Or.inl (by rw [h]; rfl)
    · obtain ⟨b0, hb0, j, _, hxj, _⟩ := mem_flatBlocks newBB _ _ 1 x h
      rcases flatBlock_created newBB _ j b0 x hxj with h2 | h2
      · exfalso
        apply hnot
        rw [h2]
        have : b0.addr ∈ blockAddrs (entryWithSlot F :: namedFrom F.rest 2) :=
          List.mem_map_of_mem _ hb0
        rw [blockAddrs_entryWithSlot_rest] at this
        exact this
      · exact Or.inr h2.1

/-- Witness of C22: the return block without a name of the two-block function has
its instruction and its terminator after the run, and the return block `D` of
the diamond is the block it was; block `B` of the diamond holds its instruction
followed by the encoder operations for ID 4. -/
theorem flatten_frame_witness :
    (∃ x, findBlock (runOnFunction (newBBFrom 100) unnamedRetFn).2 2 = some x ∧
      x.insts = [.orig ()] ∧ x.term = .ret none) ∧
    findBlock (runOnFunction (newBBFrom 100) diamondFn).2 10 =
      some { addr := 10, name := "D", insts := [], term := .ret (some (.orig ())) } ∧
    ∃ x, findBlock (runOnFunction (newBBFrom 100) diamondFn).2 30 = some x ∧
      x.insts = [.orig ()] ++ insertOpaqueSwitchIndex 4 .slot := by
  have h := flatten_frame (newBBFrom 100) diamondFn diamondFn_wellFormed diamondFn_fresh
    diamondFn_accepted
  have hu := flatten_frame (newBBFrom 100) unnamedRetFn
    (by unfold Function.WellFormed; decide)
    (freshFor_newBBFrom 100 unnamedRetFn (by decide)) ⟨by decide, Or.inl ⟨_, rfl⟩⟩
  refine ⟨?_, ?_, ?_⟩
  · obtain ⟨x, hx, _, hi, ht, _⟩ :=
      hu.1 { addr := 2, name := "", insts := [.orig ()], term := .ret none } (by decide)
        (by intro d; simp) (by intro c t f; simp)
    exact ⟨x, hx, hi, ht⟩
  · obtain ⟨x, hx, _, _, _, hn⟩ :=
      h.1 { addr := 10, name := "D", insts := [], term := .ret (some (.orig ())) } (by decide)
        (by intro d; simp) (by intro c t f; simp)
    rw [hn (by decide)] at hx
    exact hx
  · exact h.2.1 { addr := 30, name := "B", insts := [.orig ()], term := .br 10 } (by decide)

theorem runTrace_step {ι σ : Type} (sem : Sem ι σ) (F : Function ι) (c c' : Addr × State σ)
    (h : stepBlock sem F c = some c') (n : Nat) :
    runTrace sem F (n + 1) c = (c.1, c.2.user) :: runTrace sem F n c' := by
  cases hfb : findBlock F c.1 with
  | none => simp [stepBlock, hfb] at h
  | some b => simp only [runTrace, hfb, h]

theorem runTrace_stop {ι σ : Type} (sem : Sem ι σ) (F : Function ι) (c : Addr × State σ)
    (b : BasicBlock ι) (hb : findBlock F c.1 = some b) (h : stepBlock sem F c = none) (n : Nat) :
    runTrace sem F (n + 1) c = [(c.1, c.2.user)] := by
  simp only [runTrace, hb, h]

/-- The trace of a run that returns is the list of blocks entered. -/
theorem runTrace_of_run {ι σ : Type} (sem : Sem ι σ) (F : Function ι) :
    ∀ (n : Nat) (a : Addr) (s : State σ) (r : Result σ), run sem F n a s = some r →
      runTrace sem F n (a, s) = r.trace := by
  intro n
  induction n with
  | zero => intro a s r h; simp [run] at h
  | succ n ih =>
    intro a s r h
    cases hfb : findBlock F a with
    | none => simp [run, hfb] at h
    | some b =>
      rw [run_succ sem F n a s b hfb] at h
      have hsb := stepBlock_of_find sem F a s b hfb
      cases hstep : b.term.step sem (execInsts sem s b.insts) with
      | none => rw [hstep] at h; simp at h
      | some x =>
        rw [hstep] at h hsb
        cases x with
        | inl v =>
          simp only [Option.some.injEq] at h
          rw [runTrace_stop sem F (a, s) b hfb hsb n, ← h]
        | inr next =>
          simp only [Option.map_eq_some'] at h
          obtain ⟨r0, hr0, rfl⟩ := h
          rw [runTrace_step sem F (a, s) _ hsb n, ih next _ r0 hr0]
          rfl

/-- The blocks entered in `n` blocks of execution are the first of those entered in
`n + 1`. -/
theorem runTrace_prefix {ι σ : Type} (sem : Sem ι σ) (F : Function ι) :
    ∀ (n : Nat) (c : Addr × State σ), runTrace sem F n c <+: runTrace sem F (n + 1) c := by
  intro n
  induction n with
  | zero => intro c; exact List.nil_prefix
  | succ n ih =>
    intro c
    cases hfb : findBlock F c.1 with
    | none => simp [runTrace, hfb]
    | some b =>
      cases hs : stepBlock sem F c with
      | none => rw [runTrace_stop sem F c b hfb hs n, runTrace_stop sem F c b hfb hs (n + 1)]
      | some c' =>
        rw [runTrace_step sem F c c' hs n, runTrace_step sem F c c' hs (n + 1)]
        exact (List.prefix_cons_inj _).2 (ih c')

end FlattenO
